import Mathlib

/-!
# frozen: the two-slot leaf of the hash trie (`internal/tree/leaf.go`)

A shallow embedding of the immutable leaf node and of the operations the
tree engine performs on it, followed by the tree façade (`tree.go`), the
builder (`builder.go`), the branch node (`branch.go`), the transient leaf
(`unLeaf.go`), the slice iterator (`v2/internal/iterator/slice.go`),
`Map.Hash` (`pkg/frozen/map.go`) and the iterator of `intset_iter.go`.

* `elementT` is a type `V` with decidable equality and a distinguished value
  `zero`, written `(0 : V)`; `zero` marks an unoccupied slot.
* A Go `node` interface value that may be `nil` is an `Option (node V B T)`;
  `none` is `nil`.  The receivers and arguments on which the code calls a
  method are nodes proper.
* `panic` is the `Except.error` result.
* `*branch` and `*twig` are type parameters `B` and `T`; what the leaf code
  asks of them is collected in `Env`.
* Returning the receiver `l` is returning the node `node.leaf l`: a node is its
  contents, and two nodes with the same contents are the same node.  Where the
  identity of a node matters (`leaf.WithAt`, `branch.WithAt`), a node carries
  the address of its struct.
* `branch.go` and `unLeaf.go` are written against a leaf that is not the
  two-slot leaf of `leaf.go`: its constructor `newLeaf` is a parameter and its
  stored elements are the list `sliceLeaf.data`.
* A method of `tree.go`, `branch.go` or `unLeaf.go` that is handed the counter
  `matches *int` takes the counter's value and returns the value afterwards.
* In the two iterators a run-time panic (an index out of range) is the `none`
  result.
-/

set_option autoImplicit false

namespace tree

/-- The panics raised in `leaf.go`: `errors.WTF`, the wrong number of arguments
to `newLeaf`, and the two complaints of `Vet`. -/
inductive Panic where
  | WTF
  | wrongSize (n : Nat)
  | dataOnlyInSlot1
  | emptyLeaf
  deriving DecidableEq, Repr

/-- Modelled from the spec: the `EqArgs` bundle, declared outside `leaf.go`.  It
carries the equality `eq`; its `flip` sibling is the bundle used when the
engine swaps the operands. -/
structure EqArgs (V : Type) where
  eq : V → V → Bool

/-- Modelled from the spec: `args.flip` of an `EqArgs`, the same equality with
its operands swapped. -/
def EqArgs.flip {V : Type} (args : EqArgs V) : EqArgs V :=
  ⟨fun a b => args.eq b a⟩

/-- Modelled from the spec: the `CombineArgs` bundle, declared outside
`leaf.go`.  It carries the equality `eq` and the merge function `f`. -/
structure CombineArgs (V : Type) where
  eq : V → V → Bool
  f : V → V → V

/-- The `*EqArgs` embedded in a `CombineArgs`. -/
def CombineArgs.toEqArgs {V : Type} (args : CombineArgs V) : EqArgs V :=
  ⟨args.eq⟩

/-- Modelled from the spec: `args.flip` of a `CombineArgs`, the bundle for the
swapped operands: `eq` and `f` take their arguments in the other order. -/
def CombineArgs.flip {V : Type} (args : CombineArgs V) : CombineArgs V :=
  ⟨fun a b => args.eq b a, fun a b => args.f b a⟩

/-- `UseRHS` of `branch.go`: returns its right argument. -/
def UseRHS {V : Type} (_a b : V) : V := b

/-- `UseLHS` of `branch.go`: returns its left argument. -/
def UseLHS {V : Type} (a _b : V) : V := a

/-- `type leaf struct { data [2]elementT }`; `data0` is `data[0]`, `data1` is
`data[1]`. -/
structure leaf (V : Type) where
  data0 : V
  data1 : V
  deriving DecidableEq, Repr

/-- The dynamic types of a non-nil `node`. -/
inductive node (V B T : Type) where
  | leaf (l : tree.leaf V)
  | branch (b : B)
  | twig (t : T)
  deriving DecidableEq, Repr

/-- What `leaf.go` uses and does not define: the constant `maxTreeDepth`,
`newHasher`, the constructors `newBranchFrom` and `newTwig`, and the `Get` and
`Combine` methods of `*branch` and `*twig`; further the slot-wise comparison of
two branches behind `branch.Equal`, and `Equal` of `*twig`. -/
structure Env (V B T H : Type) where
  maxTreeDepth : Int
  newHasher : V → Int → H
  newBranchFrom : Int → List V → B
  newTwig : List V → T
  branchGet : B → EqArgs V → V → H → Option V
  twigGet : T → EqArgs V → V → H → Option V
  branchCombine : B → CombineArgs V → node V B T → Int →
    Except Panic (Option (node V B T) × Nat)
  twigCombine : T → CombineArgs V → node V B T → Int →
    Except Panic (Option (node V B T) × Nat)
  branchEqual : B → EqArgs V → B → Int → Bool
  twigEqual : T → EqArgs V → node V B T → Int → Bool

section defs

variable {V B T H : Type} [Zero V] [DecidableEq V]

/-- `newLeaf2`: panics when the first slot would be `zero`. -/
def newLeaf2 (a b : V) : Except Panic (leaf V) :=
  if a = 0 then .error .WTF else .ok ⟨a, b⟩

/-- `newLeaf1`. -/
def newLeaf1 (a : V) : Except Panic (leaf V) :=
  newLeaf2 a 0

/-- `newLeaf(data...)`. -/
def newLeaf (data : List V) : Except Panic (leaf V) :=
  match data with
  | [a] => newLeaf1 a
  | [a, b] => newLeaf2 a b
  | _ => .error (.wrongSize data.length)

/-- `leaf.count`. -/
def leaf.count (l : leaf V) : Nat :=
  if l.data1 = 0 then 1 else 2

/-- `leaf.mask`. -/
def leaf.mask (l : leaf V) : Nat :=
  if l.data1 = 0 then 1 else 3

/-- `leaf.slice`: `l.data[:l.count()]`. -/
def leaf.slice (l : leaf V) : List V :=
  [l.data0, l.data1].take l.count

/-- `leaf.Vet`: panics on a leaf whose slot 0 is `zero`. -/
def leaf.Vet (l : leaf V) : Except Panic Unit :=
  if l.data0 = 0 then
    if l.data1 ≠ 0 then .error .dataOnlyInSlot1 else .error .emptyLeaf
  else .ok ()

/-- `leaf.Get`: the first stored element `e` with `args.eq(e, v)`; the Go
pointer `&l.data[i]` is the element it points to, `nil` is `none`. -/
def leaf.Get (l : leaf V) (args : EqArgs V) (v : V) (_h : H) : Option V :=
  l.slice.find? (fun e => args.eq e v)

/-- `n.Get(args, v, h)` on a node: dispatch on the dynamic type. -/
def node.Get (env : Env V B T H) (n : node V B T) (args : EqArgs V) (v : V) (h : H) :
    Option V :=
  match n with
  | .leaf l => l.Get args v h
  | .branch b => env.branchGet b args v h
  | .twig t => env.twigGet t args v h

/-- The operator `a &^ b` (and-not) on the non-negative masks of `leaf.go`. -/
def andNot (a b : Nat) : Nat := a ^^^ (a &&& b)

/-- `leaf.where(mask)` (the unexported method). -/
def leaf.whereMask (l : leaf V) (mask : Nat) : Except Panic (Option (node V B T)) :=
  match mask with
  | 0 => .ok none
  | 1 =>
    if l.data1 = 0 then .ok (some (.leaf l))
    else (newLeaf1 l.data0).map fun r => some (.leaf r)
  | 2 => (newLeaf1 l.data1).map fun r => some (.leaf r)
  | _ => .ok (some (.leaf l))

/-- `leaf.With`. -/
def leaf.With (env : Env V B T H) (l : leaf V) (args : CombineArgs V) (v : V)
    (depth : Int) (_h : H) : Except Panic (Option (node V B T) × Nat) :=
  if args.eq l.data0 v then
    (newLeaf2 (args.f l.data0 v) l.data1).map fun r => (some (.leaf r), 1)
  else if l.data1 = 0 then
    (newLeaf2 l.data0 v).map fun r => (some (.leaf r), 0)
  else if args.eq l.data1 v then
    (newLeaf2 l.data0 (args.f l.data1 v)).map fun r => (some (.leaf r), 1)
  else if depth ≥ env.maxTreeDepth then
    .ok (some (.twig (env.newTwig [l.data0, l.data1, v])), 0)
  else
    .ok (some (.branch (env.newBranchFrom depth [l.data0, l.data1, v])), 0)

/-- `leaf.Without`. -/
def leaf.Without (l : leaf V) (args : EqArgs V) (v : V) (_depth : Int) (_h : H) :
    Except Panic (Option (node V B T) × Nat) :=
  if args.eq l.data0 v then
    (l.whereMask (l.mask ^^^ 1)).map fun r => (r, 1)
  else if l.data1 ≠ 0 then
    if args.eq l.data1 v then
      (l.whereMask (l.mask ^^^ 2)).map fun r => (r, 1)
    else
      (l.whereMask l.mask).map fun r => (r, 0)
  else
    (l.whereMask l.mask).map fun r => (r, 0)

/-- The helper `lr` of `leaf.Combine`: `a<<2 | b`. -/
def lr (a b : Nat) : Nat := a <<< 2 ||| b

/-- Lines 90-134 of `leaf.Combine`: the merge of two leaves once `masks`, `l`,
`n` and `args` are fixed. -/
def leaf.combineLeaves (env : Env V B T H) (masks : Nat) (l n : leaf V)
    (args : CombineArgs V) (depth : Int) : Except Panic (Option (node V B T) × Nat) :=
  let l0 := l.data0
  let l1 := l.data1
  let n0 := n.data0
  let n1 := n.data1
  if args.eq l0 n0 then
    if masks = lr 1 1 then
      (newLeaf1 (args.f l0 n0)).map fun r => (some (.leaf r), 1)
    else if masks = lr 1 3 then
      (newLeaf2 (args.f l0 n0) n1).map fun r => (some (.leaf r), 1)
    else if args.eq l1 n1 then
      (newLeaf2 (args.f l0 n0) (args.f l1 n1)).map fun r => (some (.leaf r), 2)
    else
      .ok (some (.branch (env.newBranchFrom depth [l0, l1, n0, n1])), 1)
  else
    if masks = lr 1 1 then
      (newLeaf2 l0 n0).map fun r => (some (.leaf r), 0)
    else if masks = lr 1 3 then
      if args.eq l0 n1 then
        (newLeaf2 n0 (args.f l0 n1)).map fun r => (some (.leaf r), 1)
      else
        .ok (some (.branch (env.newBranchFrom depth [l0, n0, n1])), 0)
    else
      if args.eq l1 n1 then
        .ok (some (.branch (env.newBranchFrom depth [l0, n0, args.f l1 n1])), 1)
      else if args.eq l0 n1 then
        if args.eq l1 n0 then
          (newLeaf2 (args.f l0 n1) (args.f l1 n0)).map fun r => (some (.leaf r), 2)
        else
          .ok (some (.branch (env.newBranchFrom depth [args.f l0 n1, l1, n0])), 1)
      else if args.eq l1 n0 then
        .ok (some (.branch (env.newBranchFrom depth [l0, n1, args.f l1 n0])), 1)
      else
        .ok (some (.branch (env.newBranchFrom depth [l0, l1, n0, n1])), 0)

/-- `leaf.Combine`: a branch or twig operand combines the other way round with
`args.flip`; two leaves are merged by `combineLeaves`, the 2-element/1-element
case after swapping the operands. -/
def leaf.Combine (env : Env V B T H) (l : leaf V) (args : CombineArgs V)
    (n : node V B T) (depth : Int) : Except Panic (Option (node V B T) × Nat) :=
  match n with
  | .branch b => env.branchCombine b args.flip (.leaf l) depth
  | .leaf n =>
    let masks := lr l.mask n.mask
    if masks = lr 3 1 then
      leaf.combineLeaves env (lr 1 3) n l args.flip depth
    else
      leaf.combineLeaves env masks l n args depth
  | .twig t => env.twigCombine t args.flip (.leaf l) depth

/-- `leaf.Difference`. -/
def leaf.Difference (env : Env V B T H) (l : leaf V) (args : EqArgs V)
    (n : node V B T) (depth : Int) : Except Panic (Option (node V B T) × Nat) :=
  let mask := l.mask
  let hit0 := (n.Get env args l.data0 (env.newHasher l.data0 depth)).isSome
  let matches0 := if hit0 then 1 else 0
  let mask := if hit0 then andNot mask 1 else mask
  let hit1 := decide (l.data1 ≠ 0) &&
    (n.Get env args l.data1 (env.newHasher l.data1 depth)).isSome
  let matches1 := if hit1 then matches0 + 1 else matches0
  let mask := if hit1 then andNot mask 2 else mask
  (l.whereMask mask).map fun r => (r, matches1)

/-- `leaf.Intersection`. -/
def leaf.Intersection (env : Env V B T H) (l : leaf V) (args : EqArgs V)
    (n : node V B T) (depth : Int) : Except Panic (Option (node V B T) × Nat) :=
  let mask := 0
  let hit0 := (n.Get env args l.data0 (env.newHasher l.data0 depth)).isSome
  let matches0 := if hit0 then 1 else 0
  let mask := if hit0 then mask ||| 1 else mask
  let hit1 := decide (l.data1 ≠ 0) &&
    (n.Get env args l.data1 (env.newHasher l.data1 depth)).isSome
  let matches1 := if hit1 then matches0 + 1 else matches0
  let mask := if hit1 then mask ||| 2 else mask
  (l.whereMask mask).map fun r => (r, matches1)

/-- `leaf.SubsetOf`. -/
def leaf.SubsetOf (env : Env V B T H) (l : leaf V) (args : EqArgs V)
    (n : node V B T) (depth : Int) : Bool :=
  let a := l.data0
  if (n.Get env args a (env.newHasher a depth)).isNone then false
  else if l.data1 ≠ 0 ∧ (n.Get env args l.data1 (env.newHasher l.data1 depth)).isNone then
    false
  else true

/-- `leaf.Equal`. -/
def leaf.Equal (l : leaf V) (args : EqArgs V) (n : node V B T) (_depth : Int) : Bool :=
  match n with
  | .leaf n =>
    let lm := l.mask
    let nm := n.mask
    if lm ≠ nm then false
    else if lm = 1 ∧ nm = 1 then args.eq l.data0 n.data0
    else args.eq l.data0 n.data0 && args.eq l.data1 n.data1 ||
      args.eq l.data0 n.data1 && args.eq l.data1 n.data0
  | _ => false

/-- The elements a leaf stores are pairwise not `eq`. -/
def leaf.noDup (l : leaf V) (eq : V → V → Bool) : Prop :=
  l.slice.Pairwise fun a b => eq a b = false

/-- The number of pairs `(a, b)`, `a` stored in `l` and `b` stored in `n`, with
`eq(a, b)`. -/
def eqPairs (eq : V → V → Bool) (l n : leaf V) : Nat :=
  (l.slice.map fun a => n.slice.countP fun b => eq a b).sum

/-- `branch.Equal` of `branch.go`: false unless `n` is a branch, then the
slot-wise comparison. -/
def branch_Equal (env : Env V B T H) (b : B) (args : EqArgs V) (n : node V B T)
    (depth : Int) : Bool :=
  match n with
  | .branch nb => env.branchEqual b args nb depth
  | _ => false

/-- `r.Equal(args, n, depth)` on a node: dispatch on the dynamic type. -/
def node.Equal (env : Env V B T H) (r : node V B T) (args : EqArgs V) (n : node V B T)
    (depth : Int) : Bool :=
  match r with
  | .leaf l => l.Equal args n depth
  | .branch b => branch_Equal env b args n depth
  | .twig t => env.twigEqual t args n depth

/-- The elements of `l`, in storage order, that `n.Get` finds in `n`, each
looked up with the hasher `newHasher(e, depth)`. -/
def leaf.foundIn (env : Env V B T H) (l : leaf V) (args : EqArgs V) (n : node V B T)
    (depth : Int) : List V :=
  l.slice.filter fun e => (n.Get env args e (env.newHasher e depth)).isSome

/-- The elements of `l`, in storage order, that `n.Get` does not find in `n`. -/
def leaf.notFoundIn (env : Env V B T H) (l : leaf V) (args : EqArgs V) (n : node V B T)
    (depth : Int) : List V :=
  l.slice.filter fun e => (n.Get env args e (env.newHasher e depth)).isNone

/-- The nil-or-leaf that stores a list of at most two elements: nil for the
empty list, otherwise the leaf holding them in order. -/
def leafOf (es : List V) : Option (leaf V) :=
  match es with
  | [a] => some ⟨a, 0⟩
  | [a, b] => some ⟨a, b⟩
  | _ => none

/-- The number of elements of a result that is nil or a leaf. -/
def countOf (r : Option (leaf V)) : Nat :=
  match r with
  | none => 0
  | some l => l.count

end defs

/-- The relation `eq` is an equivalence. -/
structure IsEquivalence {V : Type} (eq : V → V → Bool) : Prop where
  refl : ∀ a, eq a a = true
  symm : ∀ a b, eq a b = true → eq b a = true
  trans : ∀ a b c, eq a b = true → eq b c = true → eq a c = true

/-- An environment for evaluating the definitions on examples: elements are
natural numbers, a branch is the record of the arguments `newBranchFrom` was
given, a twig the list `newTwig` was given, a hasher the pair it was made
from; `Get` on them is a linear search. -/
def recordingEnv : Env Nat (Int × List Nat) (List Nat) (Nat × Int) where
  maxTreeDepth := 16
  newHasher := fun v d => (v, d)
  newBranchFrom := fun d es => (d, es)
  newTwig := fun es => es
  branchGet := fun b args v _ => b.2.find? fun e => args.eq e v
  twigGet := fun t args v _ => t.find? fun e => args.eq e v
  branchCombine := fun _ _ _ _ => .error .WTF
  twigCombine := fun _ _ _ _ => .error .WTF
  branchEqual := fun b _ c _ => decide (b = c)
  twigEqual := fun t _ n _ => decide (n = .twig t)

/-- Equality of natural numbers with the use-right merge. -/
def natArgs : CombineArgs Nat := ⟨fun a b => a == b, UseRHS⟩

/-- Equality of natural numbers with a merge function that returns `zero`. -/
def zeroMergeArgs : CombineArgs Nat := ⟨fun a b => a == b, fun _ _ => 0⟩

/-- Equality of natural numbers as an `EqArgs`. -/
def natEqArgs : EqArgs Nat := ⟨fun a b => a == b⟩

section whereDefs

variable {V B T H : Type} [Zero V] [DecidableEq V]

/-- Modelled from the spec: the `WhereArgs` bundle, declared outside `leaf.go`;
it carries the predicate `Pred`. -/
structure WhereArgs (V : Type) where
  Pred : V → Bool

/-- `leaf.Where`. -/
def leaf.Where (l : leaf V) (args : WhereArgs V) (_depth : Int) :
    Except Panic (Option (node V B T) × Nat) :=
  let mask := 0
  let hit0 := args.Pred l.data0
  let matches0 := if hit0 then 1 else 0
  let mask := if hit0 then mask ^^^ 1 else mask
  let hit1 := decide (l.data1 ≠ 0) && args.Pred l.data1
  let matches1 := if hit1 then matches0 + 1 else matches0
  let mask := if hit1 then mask ^^^ 2 else mask
  (l.whereMask mask).map fun r => (r, matches1)

end whereDefs

section treeDefs

variable {V N H : Type}

/-- `type Tree struct { root; count }`; a nil root is `none`. -/
structure Tree (N : Type) where
  root : Option N
  count : Int
  deriving DecidableEq, Repr

/-- A Go slice of elements: its contents and its capacity; the nil slice is
`none` of `Option (elemSlice V)`. -/
structure elemSlice (V : Type) where
  data : List V
  cap : Nat
  deriving DecidableEq, Repr

/-- What `tree.go` and `branch.go` use and do not define: the constants `fanout`
and `maxLeafLen`, `theEmptyNode`,
`newMutableLeaf().Node()`, `newHasher`, the hasher's `hash` and `next`, and the
methods of the nodes behind the `node` interface (the root of a tree, the
children of a branch).  A method that receives the counter pointer `*int` takes
the value the pointer holds and returns, with its result, the value it holds
afterwards. -/
structure NodeOps (V N H : Type) where
  fanout : Nat
  maxLeafLen : Nat
  theEmptyNode : N
  newMutableLeaf : N
  newHasher : V → Int → H
  hash : H → Nat
  next : H → H
  Equal : N → EqArgs V → N → Int → Bool
  SubsetOf : N → EqArgs V → N → Int → Bool
  CopyTo : N → Option (elemSlice V) → Option (elemSlice V)
  Add : N → CombineArgs V → V → Int → H → Int → Option N × Int
  Remove : N → EqArgs V → V → Int → H → Int → Option N × Int
  With : N → CombineArgs V → V → Int → H → Int → Option N × Int
  Without : N → EqArgs V → V → Int → H → Int → Option N × Int
  Combine : N → CombineArgs V → N → Int → Int → Option N × Int
  Difference : N → EqArgs V → N → Int → Int → Option N × Int
  Intersection : N → EqArgs V → N → Int → Int → Option N × Int
  Where : N → WhereArgs V → Int → Int → Option N × Int

/-- `newTree(n, count)`. -/
def newTree (n : Option N) (count : Int) : Tree N :=
  ⟨n, count⟩

/-- `newTreeNeg(n, count)`. -/
def newTreeNeg (n : Option N) (count : Int) : Tree N :=
  ⟨n, -count⟩

/-- `Tree.Root`. -/
def Tree.Root (ops : NodeOps V N H) (t : Tree N) : N :=
  match t.root with
  | none => ops.theEmptyNode
  | some n => n

/-- `Tree.MutableRoot`. -/
def Tree.MutableRoot (ops : NodeOps V N H) (t : Tree N) : N :=
  match t.root with
  | none => ops.newMutableLeaf
  | some n => n

/-- `Tree.Count`. -/
def Tree.Count (t : Tree N) : Int :=
  t.count

/-- `(*Tree).Add`: the tree after the call. -/
def Tree.Add (ops : NodeOps V N H) (t : Tree N) (args : CombineArgs V) (v : V) : Tree N :=
  let count := -(t.count + 1)
  let r := ops.Add (t.MutableRoot ops) args v 0 (ops.newHasher v 0) count
  ⟨r.1, -r.2⟩

/-- `(*Tree).Remove`: the tree after the call. -/
def Tree.Remove (ops : NodeOps V N H) (t : Tree N) (args : EqArgs V) (v : V) : Tree N :=
  let count := -t.count
  let r := ops.Remove (t.MutableRoot ops) args v 0 (ops.newHasher v 0) count
  ⟨r.1, -r.2⟩

/-- `Tree.Combine`. -/
def Tree.Combine (ops : NodeOps V N H) (t : Tree N) (args : CombineArgs V) (u : Tree N) :
    Tree N :=
  let count := -(t.count + u.count)
  let r := ops.Combine (t.Root ops) args (u.Root ops) 0 count
  newTreeNeg r.1 r.2

/-- `Tree.Difference`. -/
def Tree.Difference (ops : NodeOps V N H) (t : Tree N) (args : EqArgs V) (u : Tree N) :
    Tree N :=
  let count := -t.count
  let r := ops.Difference (t.Root ops) args (u.Root ops) 0 count
  newTreeNeg r.1 r.2

/-- `Tree.Intersection`: the operands are swapped, and `args` flipped, when the
receiver holds more elements. -/
def Tree.Intersection (ops : NodeOps V N H) (t : Tree N) (args : EqArgs V) (u : Tree N) :
    Tree N :=
  let swap := decide (t.count > u.count)
  let t1 := if swap then u else t
  let u1 := if swap then t else u
  let args1 := if swap then args.flip else args
  let count := 0
  let r := ops.Intersection (t1.Root ops) args1 (u1.Root ops) 0 count
  newTree r.1 r.2

/-- `Tree.Where`. -/
def Tree.Where (ops : NodeOps V N H) (t : Tree N) (args : WhereArgs V) : Tree N :=
  let count := 0
  let r := ops.Where (t.Root ops) args 0 count
  newTree r.1 r.2

/-- `Tree.With`. -/
def Tree.With (ops : NodeOps V N H) (t : Tree N) (args : CombineArgs V) (v : V) : Tree N :=
  let count := -(t.count + 1)
  let r := ops.With (t.Root ops) args v 0 (ops.newHasher v 0) count
  newTreeNeg r.1 r.2

/-- `Tree.Without`. -/
def Tree.Without (ops : NodeOps V N H) (t : Tree N) (args : EqArgs V) (v : V) : Tree N :=
  let count := -t.count
  let r := ops.Without (t.Root ops) args v 0 (ops.newHasher v 0) count
  newTreeNeg r.1 r.2

/-- Root operations for evaluating the tree façade on examples: a node is the
list of the natural numbers it holds, and every operation adds to the counter
the number of matches it meets. -/
def listNodeOps : NodeOps Nat (List Nat) Unit where
  fanout := 4
  maxLeafLen := 2
  theEmptyNode := []
  newMutableLeaf := []
  newHasher := fun _ _ => ()
  hash := fun _ => 0
  next := fun h => h
  Equal := fun n _ m _ => decide (n.Perm m)
  SubsetOf := fun n _ m _ => decide (n ⊆ m)
  CopyTo := fun n dest =>
    match dest with
    | none => none
    | some d => if d.data.length + n.length > d.cap then none else some ⟨d.data ++ n, d.cap⟩
  Add := fun n _ v _ _ c => (some (n.insert v), c + (if v ∈ n then 1 else 0))
  Remove := fun n _ v _ _ c => (some (n.erase v), c + (if v ∈ n then 1 else 0))
  With := fun n _ v _ _ c => (some (n.insert v), c + (if v ∈ n then 1 else 0))
  Without := fun n _ v _ _ c => (some (n.erase v), c + (if v ∈ n then 1 else 0))
  Combine := fun n _ m _ c => (some (n ∪ m), c + (n ∩ m).length)
  Difference := fun n _ m _ c => (some (n.filter fun e => e ∉ m), c + (n ∩ m).length)
  Intersection := fun n _ m _ c => (some (n ∩ m), c + (n ∩ m).length)
  Where := fun n args _ c => (some (n.filter args.Pred), c + (n.filter args.Pred).length)

end treeDefs

section builderDefs

variable {V B T H : Type} [Zero V] [DecidableEq V]

/-- What `builder.go` reaches through the `node` interface and `leaf.go` does
not define: the `Add` and `Remove` methods of `*branch` and `*twig`. -/
structure MutOps (V B T H : Type) where
  branchAdd : B → CombineArgs V → V → Int → H → Except Panic (Option (node V B T) × Nat)
  twigAdd : T → CombineArgs V → V → Int → H → Except Panic (Option (node V B T) × Nat)
  branchRemove : B → EqArgs V → V → Int → H → Except Panic (Option (node V B T) × Nat)
  twigRemove : T → EqArgs V → V → Int → H → Except Panic (Option (node V B T) × Nat)

/-- `leaf.Add`: the leaf is updated in place and returned, or replaced by a twig
or a branch; the result is the node returned and matches. -/
def leaf.Add (env : Env V B T H) (l : leaf V) (args : CombineArgs V) (v : V)
    (depth : Int) (_h : H) : Option (node V B T) × Nat :=
  if args.eq l.data0 v then
    (some (.leaf ⟨args.f l.data0 v, l.data1⟩), 1)
  else if l.data1 = 0 then
    (some (.leaf ⟨l.data0, v⟩), 0)
  else if args.eq l.data1 v then
    (some (.leaf ⟨l.data0, args.f l.data1 v⟩), 1)
  else if depth ≥ env.maxTreeDepth then
    (some (.twig (env.newTwig [l.data0, l.data1, v])), 0)
  else
    (some (.branch (env.newBranchFrom depth [l.data0, l.data1, v])), 0)

/-- `leaf.Remove`: the leaf is updated in place and returned, or nil when its
only element goes. -/
def leaf.Remove (l : leaf V) (args : EqArgs V) (v : V) (_depth : Int) (_h : H) :
    Option (node V B T) × Nat :=
  if args.eq l.data0 v then
    if l.data1 = 0 then (none, 1)
    else (some (.leaf ⟨l.data1, 0⟩), 1)
  else if l.data1 ≠ 0 then
    if args.eq l.data1 v then (some (.leaf ⟨l.data0, 0⟩), 1)
    else (some (.leaf l), 0)
  else (some (.leaf l), 0)

/-- `n.Add(args, v, depth, h)` on a node: dispatch on the dynamic type. -/
def node.Add (env : Env V B T H) (mops : MutOps V B T H) (n : node V B T)
    (args : CombineArgs V) (v : V) (depth : Int) (h : H) :
    Except Panic (Option (node V B T) × Nat) :=
  match n with
  | .leaf l => .ok (l.Add env args v depth h)
  | .branch b => mops.branchAdd b args v depth h
  | .twig t => mops.twigAdd t args v depth h

/-- `n.Remove(args, v, depth, h)` on a node: dispatch on the dynamic type. -/
def node.Remove (mops : MutOps V B T H) (n : node V B T)
    (args : EqArgs V) (v : V) (depth : Int) (h : H) :
    Except Panic (Option (node V B T) × Nat) :=
  match n with
  | .leaf l => .ok (l.Remove args v depth h)
  | .branch b => mops.branchRemove b args v depth h
  | .twig t => mops.twigRemove t args v depth h

/-- `type Builder struct { t Tree }`. -/
structure Builder (V B T : Type) where
  t : Tree (node V B T)

/-- The zero `Builder{}`: nil root, count 0. -/
def Builder.empty : Builder V B T :=
  ⟨⟨none, 0⟩⟩

/-- `Builder.Count`. -/
def Builder.Count (b : Builder V B T) : Int :=
  b.t.count

/-- `Builder.Add` (with `vetting` off): the builder after the call. -/
def Builder.Add (env : Env V B T H) (mops : MutOps V B T H) (b : Builder V B T)
    (args : CombineArgs V) (v : V) : Except Panic (Builder V B T) :=
  match b.t.root with
  | none => (newLeaf1 v).map fun l => ⟨⟨some (.leaf l), 1⟩⟩
  | some root =>
    (root.Add env mops args v 0 (env.newHasher v 0)).map fun r =>
      ⟨⟨r.1, b.t.count + (1 - (r.2 : Int))⟩⟩

/-- `Builder.Remove` (with `vetting` off): the builder after the call. -/
def Builder.Remove (env : Env V B T H) (mops : MutOps V B T H) (b : Builder V B T)
    (args : EqArgs V) (v : V) : Except Panic (Builder V B T) :=
  match b.t.root with
  | none => .ok b
  | some root =>
    (root.Remove mops args v 0 (env.newHasher v 0)).map fun r =>
      ⟨⟨r.1, b.t.count - (r.2 : Int)⟩⟩

/-- Modelled from the spec: `Tree.Get` on the tree a builder holds.  `tree.go`
routes a nil root through `theEmptyNode`, which is not under `src/`; the empty
node holds no element, so nothing is found.  Otherwise it is
`root.Get(args, v, newHasher(v, 0))`. -/
def Tree.Get (env : Env V B T H) (t : Tree (node V B T)) (args : EqArgs V) (v : V) :
    Option V :=
  match t.root with
  | none => none
  | some root => root.Get env args v (env.newHasher v 0)

/-- `Builder.Get`. -/
def Builder.Get (env : Env V B T H) (b : Builder V B T) (args : EqArgs V) (el : V) :
    Option V :=
  b.t.Get env args el

/-- `Builder.Borrow`. -/
def Builder.Borrow (b : Builder V B T) : Tree (node V B T) :=
  b.t

/-- `Builder.Finish`: the tree returned and the builder after the call. -/
def Builder.Finish (b : Builder V B T) : Tree (node V B T) × Builder V B T :=
  let t := b.Borrow
  (t, Builder.empty)

/-- One call on a builder: `Add(args, v)` or `Remove(args, v)`. -/
inductive Op (V : Type) where
  | add (v : V)
  | remove (v : V)
  deriving DecidableEq, Repr

/-- The element a call is about. -/
def Op.elem (o : Op V) : V :=
  match o with
  | .add v => v
  | .remove v => v

/-- One call applied to a builder. -/
def Builder.step (env : Env V B T H) (mops : MutOps V B T H) (args : CombineArgs V)
    (b : Builder V B T) (o : Op V) : Except Panic (Builder V B T) :=
  match o with
  | .add v => b.Add env mops args v
  | .remove v => b.Remove env mops args.toEqArgs v

/-- A sequence of calls applied to a builder, in order; a panic ends it. -/
def Builder.runFrom (env : Env V B T H) (mops : MutOps V B T H) (args : CombineArgs V)
    (b : Builder V B T) (ops : List (Op V)) : Except Panic (Builder V B T) :=
  match ops with
  | [] => .ok b
  | o :: rest =>
    match b.step env mops args o with
    | .ok b1 => Builder.runFrom env mops args b1 rest
    | .error e => .error e

/-- A sequence of calls applied to the empty builder. -/
def Builder.run (env : Env V B T H) (mops : MutOps V B T H) (args : CombineArgs V)
    (ops : List (Op V)) : Except Panic (Builder V B T) :=
  Builder.runFrom env mops args Builder.empty ops

/-- The set a builder is meant to hold, as a list: adding `v` merges it by `f`
into the element eq to it, or appends it when there is none. -/
def specAdd (args : CombineArgs V) (S : List V) (v : V) : List V :=
  if S.any (fun e => args.eq e v) then
    S.map fun e => if args.eq e v then args.f e v else e
  else S ++ [v]

/-- Removing `v` from the list drops the elements eq to it. -/
def specRemove (eq : V → V → Bool) (S : List V) (v : V) : List V :=
  S.filter fun e => !eq e v

/-- One call applied to the list. -/
def specStep (args : CombineArgs V) (S : List V) (o : Op V) : List V :=
  match o with
  | .add v => specAdd args S v
  | .remove v => specRemove args.eq S v

/-- The element supplied by the most recent call on an element eq to `x`, when
that call was an `Add`; `none` when it was a `Remove` or there was no such
call.  `acc` is the answer before the calls `ops`. -/
def latestFrom (eq : V → V → Bool) (acc : Option V) (ops : List (Op V)) (x : V) :
    Option V :=
  match ops with
  | [] => acc
  | .add v :: rest => latestFrom eq (if eq v x then some v else acc) rest x
  | .remove v :: rest => latestFrom eq (if eq v x then none else acc) rest x

/-- The element supplied by the most recent call of `ops` on an element eq to
`x`, when that call was an `Add`. -/
def latest (eq : V → V → Bool) (ops : List (Op V)) (x : V) : Option V :=
  latestFrom eq none ops x

/-- The elements a node holds: the stored elements of a leaf, and for a branch
or a twig what `elems` says. -/
def elemsOf (elems : node V B T → List V) (n : node V B T) : List V :=
  match n with
  | .leaf l => l.slice
  | n => elems n

/-- The elements a root holds; a nil root holds none. -/
def heldBy (elems : node V B T → List V) (r : Option (node V B T)) : List V :=
  match r with
  | none => []
  | some n => elemsOf elems n

/-- A node is a branch or a twig. -/
def node.notLeaf (n : node V B T) : Prop :=
  match n with
  | .leaf _ => False
  | _ => True

/-- A list of elements is well-formed: no `zero`, no two elements eq. -/
def wellFormed (eq : V → V → Bool) (S : List V) : Prop :=
  (∀ e ∈ S, e ≠ 0) ∧ S.Pairwise fun a b => eq a b = false

/-- What is assumed of the code that is not in `leaf.go`, at the root (depth 0):
`maxTreeDepth` is positive; `newBranchFrom` holds the three elements it is
given; `Add` and `Remove` of a branch or twig return a node holding what
`specAdd` / `specRemove` say (in any order), nil exactly for the empty result,
and report as matches the number of elements that were eq to `v`. -/
structure MutContract (env : Env V B T H) (mops : MutOps V B T H) (args : CombineArgs V)
    (elems : node V B T → List V) : Prop where
  depth : 0 < env.maxTreeDepth
  newBranch : ∀ a b c : V, wellFormed args.eq [a, b, c] →
    (elems (.branch (env.newBranchFrom 0 [a, b, c]))).Perm [a, b, c]
  add : ∀ (n : node V B T) (v : V), n.notLeaf → wellFormed args.eq (elems n) →
    elems n ≠ [] → v ≠ 0 →
    ∃ r, node.Add env mops n args v 0 (env.newHasher v 0)
        = .ok (some r, if (elems n).any (fun e => args.eq e v) then 1 else 0) ∧
      (elemsOf elems r).Perm (specAdd args (elems n) v)
  remove : ∀ (n : node V B T) (v : V), n.notLeaf → wellFormed args.eq (elems n) →
    elems n ≠ [] →
    ∃ r, node.Remove mops n args.toEqArgs v 0 (env.newHasher v 0)
        = .ok (r, (elems n).length - (specRemove args.eq (elems n) v).length) ∧
      (heldBy elems r).Perm (specRemove args.eq (elems n) v) ∧
      (r = none ↔ specRemove args.eq (elems n) v = [])

/-- What is assumed of `Get` of a branch or twig at the root: it finds a held
element eq to `x` when there is one, and nothing otherwise. -/
def GetContract (env : Env V B T H) (args : CombineArgs V)
    (elems : node V B T → List V) : Prop :=
  ∀ (n : node V B T) (x : V), n.notLeaf → wellFormed args.eq (elems n) →
    match n.Get env args.toEqArgs x (env.newHasher x 0) with
    | some e => e ∈ elems n ∧ args.eq e x = true
    | none => ∀ e ∈ elems n, args.eq e x = false

/-- A sequence of calls applied to the list `S`, in order. -/
def specRun (args : CombineArgs V) (S : List V) (ops : List (Op V)) : List V :=
  match ops with
  | [] => S
  | o :: rest => specRun args (specStep args S o) rest

/-- Every element a sequence of calls adds is an element proper, not `zero`. -/
def addsNonZero (ops : List (Op V)) : Prop :=
  ∀ v, Op.add v ∈ ops → v ≠ 0

/-- The builder `b` holds the list `S`: its root holds the elements of `S` in
some order, `S` is well-formed, the count is the length of `S`, and the root is
nil exactly when `S` is empty. -/
def Builder.holds (args : CombineArgs V) (elems : node V B T → List V)
    (b : Builder V B T) (S : List V) : Prop :=
  (heldBy elems b.t.root).Perm S ∧ wellFormed args.eq S ∧ b.t.count = S.length ∧
    (b.t.root = none ↔ S = [])

end builderDefs

/-- `Add` of a recorded list of elements: the list `specAdd` gives, and 1 as
matches when an element was eq to `v`. -/
def recordedAdd (args : CombineArgs Nat) (S : List Nat) (v : Nat) : List Nat × Nat :=
  (specAdd args S v, if S.any (fun e => args.eq e v) then 1 else 0)

/-- `Remove` of a recorded list of elements: the list `specRemove` gives, and
the number of elements dropped as matches. -/
def recordedRemove (args : EqArgs Nat) (S : List Nat) (v : Nat) : List Nat × Nat :=
  (specRemove args.eq S v, S.length - (specRemove args.eq S v).length)

/-- The branch and twig methods of the recording environment: a branch or twig
holds the list that `specAdd` and `specRemove` maintain. -/
def recordingMutOps : MutOps Nat (Int × List Nat) (List Nat) (Nat × Int) where
  branchAdd := fun b args v _ _ =>
    Except.ok (some (node.branch (b.1, (recordedAdd args b.2 v).1)), (recordedAdd args b.2 v).2)
  twigAdd := fun t args v _ _ =>
    Except.ok (some (node.twig (recordedAdd args t v).1), (recordedAdd args t v).2)
  branchRemove := fun b args v _ _ =>
    Except.ok (if (recordedRemove args b.2 v).1 = [] then none
      else some (node.branch (b.1, (recordedRemove args b.2 v).1)),
      (recordedRemove args b.2 v).2)
  twigRemove := fun t args v _ _ =>
    Except.ok (if (recordedRemove args t v).1 = [] then none
      else some (node.twig (recordedRemove args t v).1),
      (recordedRemove args t v).2)

/-- The elements a branch or twig of the recording environment holds. -/
def recordingElems (n : node Nat (Int × List Nat) (List Nat)) : List Nat :=
  match n with
  | .leaf l => l.slice
  | .branch b => b.2
  | .twig t => t


/-- The calls of `TestSetBuilderRemove`, on the elements 1 to 15: fifteen adds,
then the removal of 6 to 10. -/
def addThenRemove : List (Op Nat) :=
  (List.range 15).map (fun i => Op.add (i + 1)) ++
    (List.range 5).map (fun i => Op.remove (i + 6))

/-- A sequence of calls with a redundant add and the removal of an absent
element. -/
def redundantCalls : List (Op Nat) :=
  [.add 1, .add 2, .add 3, .add 2, .remove 2, .remove 7, .add 4, .remove 1]

section branchDefs

variable {V N H : Type} [Zero V] [DecidableEq V]

/-- Modelled from the spec: the `packer` of a branch, its table of child slots
in slot order; a nil slot is `none`.  The type is declared outside
`branch.go`, which indexes it and ranges over it as an array of `fanout`
nodes. -/
abbrev packer (N : Type) := List (Option N)

/-- `type branch struct { p packer }`. -/
structure branch (N : Type) where
  p : packer N
  deriving DecidableEq, Repr

/-- Modelled from the spec: `p.Get(i)`, the child in slot `i`; an empty slot is
treated as the empty node. -/
def packer.Get (ops : NodeOps V N H) (p : packer N) (i : Nat) : N :=
  match p.getD i none with
  | none => ops.theEmptyNode
  | some n => n

/-- Modelled from the spec: `p.With(i, n)`, the table in which `n` replaces
slot `i`. -/
def packer.With (p : packer N) (i : Nat) (n : Option N) : packer N :=
  p.set i n

/-- The node `branch.Canonical` returns: a leaf made by `newLeaf`, or the branch
itself.  `L` is the type of the leaves `newLeaf` makes. -/
inductive cnode (L N : Type) where
  | leaf (l : L)
  | branch (b : tree.branch N)
  deriving DecidableEq, Repr

/-- The length of a slice; 0 for the nil slice. -/
def sliceLen (dest : Option (elemSlice V)) : Nat :=
  match dest with
  | none => 0
  | some d => d.data.length

/-- The capacity of a slice; 0 for the nil slice. -/
def sliceCap (dest : Option (elemSlice V)) : Nat :=
  match dest with
  | none => 0
  | some d => d.cap

/-- The contents of a slice; none for the nil slice. -/
def sliceData (dest : Option (elemSlice V)) : List V :=
  match dest with
  | none => []
  | some d => d.data

/-- `leaf.AppendTo`. -/
def leaf.AppendTo (l : leaf V) (dest : Option (elemSlice V)) : Option (elemSlice V) :=
  let data := l.slice
  if sliceLen dest + data.length > sliceCap dest then none
  else some ⟨sliceData dest ++ data, sliceCap dest⟩

/-- The loop of `branch.CopyTo` over the child slots: a nil slot is skipped, a
nil result ends the loop. -/
def copyLoop (copyTo : N → Option (elemSlice V) → Option (elemSlice V)) (p : List (Option N))
    (dest : Option (elemSlice V)) : Option (elemSlice V) :=
  match p with
  | [] => dest
  | none :: rest => copyLoop copyTo rest dest
  | some child :: rest =>
    match copyTo child dest with
    | none => none
    | some d => copyLoop copyTo rest (some d)

/-- `branch.CopyTo`, with `child.CopyTo` as `copyTo`. -/
def branch.CopyTo (copyTo : N → Option (elemSlice V) → Option (elemSlice V)) (b : branch N)
    (dest : Option (elemSlice V)) : Option (elemSlice V) :=
  copyLoop copyTo b.p dest

/-- `branch.Canonical`: the elements are copied into an empty buffer of capacity
`maxLeafLen`; if they fit, `newLeaf` makes a leaf of them, otherwise the branch
is returned.  The `newLeaf` that `branch.go` calls takes up to `maxLeafLen`
elements and is not under `src/`: it is the parameter `newLeaf`. -/
def branch.Canonical {L : Type} (copyTo : N → Option (elemSlice V) → Option (elemSlice V))
    (newLeaf : List V → Except Panic L) (maxLeafLen : Nat)
    (b : branch N) (_depth : Int) : Except Panic (cnode L N) :=
  match b.CopyTo copyTo (some ⟨[], maxLeafLen⟩) with
  | some data => (newLeaf data.data).map cnode.leaf
  | none => .ok (.branch b)

/-- Modelled from the spec: `args.Parallel(depth, matches, body)` with the
sequential driver, over the slots `is` still to visit: the bodies run in slot
order on the state `s` (the counter and what the body captures); a body that
returns false suppresses the remaining ones and makes the result false. -/
def parallelOver {σ : Type} (body : Nat → σ → Bool × σ) (slots : List Nat) (s : σ) :
    Bool × σ :=
  match slots with
  | [] => (true, s)
  | i :: rest =>
    let r := body i s
    if r.1 then parallelOver body rest r.2 else (false, r.2)

/-- Modelled from the spec: `args.Parallel` with the sequential driver, over the
slots `0 .. fanout-1`. -/
def Parallel {σ : Type} (fanout : Nat) (body : Nat → σ → Bool × σ) (s : σ) : Bool × σ :=
  parallelOver body (List.range fanout) s

/-- `branch.With`: the branch and the counter afterwards. -/
def branch.With (ops : NodeOps V N H) (b : branch N) (args : CombineArgs V) (v : V)
    (depth : Int) (h : H) (c : Int) : branch N × Int :=
  let i := ops.hash h
  let r := ops.With (b.p.Get ops i) args v (depth + 1) (ops.next h) c
  (⟨b.p.With i r.1⟩, r.2)

/-- `branch.Without`: the canonical form of the branch with the child replaced,
and the counter afterwards. -/
def branch.Without {L : Type} (ops : NodeOps V N H) (newLeaf : List V → Except Panic L)
    (b : branch N) (args : EqArgs V) (v : V)
    (depth : Int) (h : H) (c : Int) : Except Panic (cnode L N) × Int :=
  let i := ops.hash h
  let r := ops.Without (b.p.Get ops i) args v (depth + 1) (ops.next h) c
  (branch.Canonical ops.CopyTo newLeaf ops.maxLeafLen ⟨b.p.With i r.1⟩ depth, r.2)

/-- The `case *branch` arm of `branch.Combine`: the result branch starts with
every slot nil; slot `i` receives `b.p.Get(i).Combine(args, n.p.Get(i),
depth+1, matches)`. -/
def branch.CombineBranch (ops : NodeOps V N H) (b : branch N) (args : CombineArgs V)
    (n : branch N) (depth : Int) (c : Int) : branch N × Int :=
  let r := Parallel ops.fanout (fun i (s : packer N × Int) =>
    let x := ops.Combine (b.p.Get ops i) args (n.p.Get ops i) (depth + 1) s.2
    (true, (s.1.set i x.1, x.2))) (List.replicate ops.fanout none, c)
  (⟨r.2.1⟩, r.2.2)

/-- The `case *branch` arm of `branch.Difference`. -/
def branch.DifferenceBranch {L : Type} (ops : NodeOps V N H)
    (newLeaf : List V → Except Panic L) (b : branch N) (args : EqArgs V)
    (n : branch N) (depth : Int) (c : Int) : Except Panic (cnode L N) × Int :=
  let r := Parallel ops.fanout (fun i (s : packer N × Int) =>
    let x := ops.Difference (b.p.Get ops i) args (n.p.Get ops i) (depth + 1) s.2
    (true, (s.1.set i x.1, x.2))) (List.replicate ops.fanout none, c)
  (branch.Canonical ops.CopyTo newLeaf ops.maxLeafLen ⟨r.2.1⟩ depth, r.2.2)

/-- The `case *branch` arm of `branch.Intersection`. -/
def branch.IntersectionBranch {L : Type} (ops : NodeOps V N H)
    (newLeaf : List V → Except Panic L) (b : branch N) (args : EqArgs V)
    (n : branch N) (depth : Int) (c : Int) : Except Panic (cnode L N) × Int :=
  let r := Parallel ops.fanout (fun i (s : packer N × Int) =>
    let x := ops.Intersection (b.p.Get ops i) args (n.p.Get ops i) (depth + 1) s.2
    (true, (s.1.set i x.1, x.2))) (List.replicate ops.fanout none, c)
  (branch.Canonical ops.CopyTo newLeaf ops.maxLeafLen ⟨r.2.1⟩ depth, r.2.2)

/-- `branch.Equal` against a branch (against any other node it is false). -/
def branch.EqualBranch (ops : NodeOps V N H) (b : branch N) (args : EqArgs V)
    (n : branch N) (depth : Int) : Bool :=
  (Parallel ops.fanout (fun i (s : Unit) =>
    (ops.Equal (b.p.Get ops i) args (n.p.Get ops i) (depth + 1), s)) ()).1

/-- The `case *branch` arm of `branch.SubsetOf`. -/
def branch.SubsetOfBranch (ops : NodeOps V N H) (b : branch N) (args : EqArgs V)
    (n : branch N) (depth : Int) : Bool :=
  (Parallel ops.fanout (fun i (s : Unit) =>
    (ops.SubsetOf (b.p.Get ops i) args (n.p.Get ops i) (depth + 1), s)) ()).1

/-- The elements of a branch's subtree in slot order, `elems` giving those of a
child. -/
def branchElems (elems : N → List V) (b : branch N) : List V :=
  (b.p.filterMap id).flatMap elems

/-- What is assumed of `child.CopyTo`: a nil destination stays nil; into a
destination proper the child's elements are appended when they fit its
capacity, and the result is nil when they do not (a slice is never longer than
its capacity). -/
def CopySpec (copyTo : N → Option (elemSlice V) → Option (elemSlice V)) (elems : N → List V) :
    Prop :=
  ∀ (child : N), copyTo child none = none ∧
    ∀ d : elemSlice V, d.data.length ≤ d.cap → copyTo child (some d) =
      if d.data.length + (elems child).length > d.cap then none
      else some ⟨d.data ++ elems child, d.cap⟩

end branchDefs

/-- Node operations for evaluating `Canonical` on examples: `CopyTo` is the given
function, every other method returns nil and leaves the counter alone. -/
def copyOnlyOps {V N : Type} (copyTo : N → Option (elemSlice V) → Option (elemSlice V))
    (maxLeafLen : Nat) (empty : N) : NodeOps V N Unit where
  fanout := 4
  maxLeafLen := maxLeafLen
  theEmptyNode := empty
  newMutableLeaf := empty
  newHasher := fun _ _ => ()
  hash := fun _ => 0
  next := fun h => h
  Equal := fun _ _ _ _ => false
  SubsetOf := fun _ _ _ _ => false
  CopyTo := copyTo
  Add := fun _ _ _ _ _ c => (none, c)
  Remove := fun _ _ _ _ _ c => (none, c)
  With := fun _ _ _ _ _ c => (none, c)
  Without := fun _ _ _ _ _ c => (none, c)
  Combine := fun _ _ _ _ c => (none, c)
  Difference := fun _ _ _ _ c => (none, c)
  Intersection := fun _ _ _ _ c => (none, c)
  Where := fun _ _ _ c => (none, c)

/-- A branch of branches of leaves: slot 1 holds a branch with the elements
1, 2, 3; the other slots are nil. -/
def loneChild : branch (branch (leaf Nat)) :=
  ⟨[none, some ⟨[some ⟨1, 2⟩, none, some ⟨3, 0⟩, none]⟩, none, none]⟩

/-- A branch of branches of leaves: slot 1 holds a branch with the elements
1, 2; the other slots are nil. -/
def loneSmallChild : branch (branch (leaf Nat)) :=
  ⟨[none, some ⟨[some ⟨1, 0⟩, none, some ⟨2, 0⟩, none]⟩, none, none]⟩

section unLeafDefs

variable {V UB H : Type} [Zero V] [DecidableEq V]

/-- The transient nodes of `unLeaf.go`: an `unLeaf` is a slice of elements with
its capacity, `*unBranch` is the type parameter `UB`, and `unEmptyNode{}`. -/
inductive unNode (V UB : Type) where
  | leaf (l : elemSlice V)
  | branch (b : UB)
  | empty
  deriving DecidableEq, Repr

/-- What `unLeaf.go` uses and does not define: `maxLeafLen`, `maxTreeDepth`,
`newHasher`, `newUnBranch`, and `Add` of `*unBranch`, which updates the branch
in place and adds to the counter (the node it returns is not used); further
the capacity Go's `append` gives a slice that has to grow to a given length. -/
structure UnEnv (V UB H : Type) where
  maxLeafLen : Nat
  maxTreeDepth : Int
  newHasher : V → Int → H
  newUnBranch : UB
  branchAdd : UB → CombineArgs V → V → Int → H → Int → UB × Int
  grownCap : Nat → Nat

/-- `newUnLeaf`: `make(unLeaf, 0, maxLeafLen)`. -/
def newUnLeaf (env : UnEnv V UB H) : elemSlice V :=
  ⟨[], env.maxLeafLen⟩

/-- Go's `append(s, v)`: within the capacity the slice is extended in place,
beyond it the elements move to a new array. -/
def goAppend (grownCap : Nat → Nat) (s : elemSlice V) (v : V) : elemSlice V :=
  if s.data.length < s.cap then ⟨s.data ++ [v], s.cap⟩
  else ⟨s.data ++ [v], grownCap (s.data.length + 1)⟩

/-- The first loop of `unLeaf.Add`: the elements with the first one eq to `v`
replaced by `args.f(e, v)`, or `none` when the loop ends without a match. -/
def replaceFirst (args : CombineArgs V) (v : V) (es : List V) : Option (List V) :=
  match es with
  | [] => none
  | e :: rest =>
    if args.eq e v then some (args.f e v :: rest)
    else (replaceFirst args v rest).map fun r => e :: r

/-- `unLeaf.Add`: the node returned and the counter afterwards. -/
def unLeaf.Add (env : UnEnv V UB H) (l : elemSlice V) (args : CombineArgs V) (v : V)
    (depth : Int) (h : H) (c : Int) : unNode V UB × Int :=
  match replaceFirst args v l.data with
  | some data => (.leaf ⟨data, l.cap⟩, c + 1)
  | none =>
    if l.data.length < l.cap ∨ depth ≥ env.maxTreeDepth then
      (.leaf (goAppend env.grownCap l v), c)
    else
      let r := l.data.foldl
        (fun (s : UB × Int) e => env.branchAdd s.1 args e depth (env.newHasher e depth) s.2)
        (env.newUnBranch, c)
      let r2 := env.branchAdd r.1 args v depth h r.2
      (.branch r2.1, r2.2)

/-- The index of the first element eq to `v`, as the loop of `unLeaf.Remove`
finds it. -/
def firstEq (eq : V → V → Bool) (v : V) (es : List V) : Option Nat :=
  match es with
  | [] => none
  | e :: rest => if eq e v then some 0 else (firstEq eq v rest).map fun i => i + 1

/-- `unLeaf.Remove`: the node returned and the counter afterwards. -/
def unLeaf.Remove (l : elemSlice V) (args : EqArgs V) (v : V) (_depth : Int) (_h : H)
    (c : Int) : unNode V UB × Int :=
  match firstEq args.eq v l.data with
  | some i =>
    let last := l.data.length - 1
    if last = 0 then (.empty, c + 1)
    else if i < last then
      (.leaf ⟨(l.data.set i (l.data.getD last 0)).take last, l.cap⟩, c + 1)
    else (.leaf ⟨l.data.take last, l.cap⟩, c + 1)
  | none => (.leaf l, c)

/-- `unLeaf.Get`. -/
def unLeaf.Get (l : elemSlice V) (args : EqArgs V) (v : V) (_h : H) : Option V :=
  l.data.find? fun e => args.eq e v

/-- `unLeaf.appendTo`: `append(dest, l...)` of nothing to the nil slice is the
nil slice. -/
def unLeaf.appendTo (l : elemSlice V) (dest : Option (elemSlice V)) : Option (elemSlice V) :=
  if sliceLen dest + l.data.length > sliceCap dest then none
  else
    match dest with
    | none => none
    | some d => some ⟨d.data ++ l.data, d.cap⟩

/-- `unLeaf.Freeze`: `newLeaf` of a copy of the elements; the `newLeaf` that
`unLeaf.go` calls is the parameter `newLeaf`, as for `branch.Canonical`. -/
def unLeaf.Freeze {L : Type} (newLeaf : List V → Except Panic L) (l : elemSlice V) :
    Except Panic L :=
  newLeaf l.data

end unLeafDefs

/-- A transient environment for evaluating `unLeaf.go` on examples: an
`unBranch` is the list of the elements added to it, each add counted as no
match. -/
def listUnEnv : UnEnv Nat (List Nat) (Nat × Int) where
  maxLeafLen := 2
  maxTreeDepth := 16
  newHasher := fun v d => (v, d)
  newUnBranch := []
  branchAdd := fun b _ v _ _ c => (b ++ [v], c)
  grownCap := fun n => 2 * n

section unLeafSpecDefs

variable {V UB H : Type}

/-- Adding a sequence of elements, each with its hasher, to an `unBranch` in
order at one depth, the counter passed along. -/
def addSeq (env : UnEnv V UB H) (args : CombineArgs V) (depth : Int) (s : UB × Int) :
    List (V × H) → UB × Int
  | [] => s
  | (e, h) :: rest => addSeq env args depth (env.branchAdd s.1 args e depth h s.2) rest

end unLeafSpecDefs

section mapDefs

variable {V B T H N : Type} [Zero V] [DecidableEq V]

/-- `leaf.Map`: a fresh builder receives `f(e)` for each stored element `e` in
storage order; the result is the root of the finished tree and, as matches,
its count. A panic of `Builder.Add` ends the call. -/
def leaf.Map (env : Env V B T H) (mops : MutOps V B T H) (l : leaf V) (args : CombineArgs V)
    (_depth : Int) (f : V → V) : Except Panic (Option (node V B T) × Int) :=
  (Builder.runFrom env mops args Builder.empty (l.slice.map fun e => Op.add (f e))).map
    fun nb =>
      let t := nb.Finish.1
      (t.root, 0 + t.count)

/-- `Tree.Map` of `tree.go`: the counter the root's `Map` fills, started at 0,
is the count of the new tree. The `Map` of the node interface is the parameter
`nodeMap` (counter in, counter out). -/
def Tree.Map (ops : NodeOps V N H)
    (nodeMap : N → CombineArgs V → Int → Int → (V → V) → Option N × Int)
    (t : Tree N) (args : CombineArgs V) (f : V → V) : Tree N :=
  let count := 0
  let r := nodeMap (t.Root ops) args 0 count f
  newTree r.1 r.2

/-- The number of elements of a list that are eq to no later element: the
number of distinct elements under an equivalence `eq`. -/
def countDistinct (eq : V → V → Bool) : List V → Nat
  | [] => 0
  | x :: xs => (if xs.any (eq x) then 0 else 1) + countDistinct eq xs

end mapDefs

section iteratorDefs

variable {V : Type} [Zero V] [DecidableEq V]

/-- `SliceIterator` of `v2/internal/iterator/slice.go`. The index is a
mathematical integer: a Go `int` would need 2^63 calls of `Next` to wrap. -/
structure SliceIterator (V : Type) where
  slice : List V
  index : Int
  deriving DecidableEq, Repr

/-- `NewSliceIterator`. -/
def NewSliceIterator (slice : List V) : SliceIterator V :=
  ⟨slice, -1⟩

/-- `SliceIterator.Next`: the value returned and the iterator afterwards. -/
def SliceIterator.Next (i : SliceIterator V) : Bool × SliceIterator V :=
  let j : SliceIterator V := ⟨i.slice, i.index + 1⟩
  (decide (j.index < (j.slice.length : Int)), j)

/-- `SliceIterator.Value`: `i.slice[i.index]`; `none` stands for the run-time
panic on an index out of range. -/
def SliceIterator.Value (i : SliceIterator V) : Option V :=
  if i.index < 0 then none else i.slice[i.index.toNat]?

/-- The iterator after `k` calls of `Next`. -/
def SliceIterator.nextN (i : SliceIterator V) : Nat → SliceIterator V
  | 0 => i
  | k + 1 => (i.nextN k).Next.2

/-- `leaf.Iterator`; `newSliceIterator` of package `tree` is the
`NewSliceIterator` above. -/
def leaf.Iterator (l : leaf V) : SliceIterator V :=
  NewSliceIterator l.slice

end iteratorDefs

section branchLeafDefs

variable {V N H L : Type} [Zero V] [DecidableEq V]

/-- Modelled from the spec: the leaf that `branch.go` meets.  Its declaration
is not under `src/` (the methods of the two-slot leaf of `leaf.go` have other
signatures); `branch.go` ranges over its field `data`, the stored elements in
storage order, and builds it with `newLeaf` from up to `maxLeafLen` elements. -/
structure sliceLeaf (V : Type) where
  data : List V
  deriving DecidableEq, Repr

/-- The loop `for _, e := range n.data { ret = ret.With(args, e, depth,
newHasher(e, depth), matches) }` of `branch.Combine`, over the elements still
to visit; `ret.With` is `branch.With` at every step, since `ret` starts as the
branch and `branch.With` returns a branch. -/
def combineLoop (ops : NodeOps V N H) (args : CombineArgs V) (depth : Int) :
    List V → branch N × Int → branch N × Int
  | [], r => r
  | e :: rest, r =>
    combineLoop ops args depth rest (r.1.With ops args e depth (ops.newHasher e depth) r.2)

/-- The `case *leaf` arm of `branch.Combine`. -/
def branch.CombineLeaf (ops : NodeOps V N H) (b : branch N) (args : CombineArgs V)
    (n : sliceLeaf V) (depth : Int) (c : Int) : branch N × Int :=
  combineLoop ops args depth n.data (b, c)

/-- `result.Without(...)` on the node a step of `branch.Difference` holds: on a
branch it is `branch.Without`, on a leaf the `Without` of that leaf, which is
not under `src/` and is the parameter `leafWithout`. -/
def cnode.Without (ops : NodeOps V N H) (newLeaf : List V → Except Panic L)
    (leafWithout : L → EqArgs V → V → Int → H → Int → Except Panic (cnode L N) × Int)
    (r : cnode L N) (args : EqArgs V) (v : V) (depth : Int) (h : H) (c : Int) :
    Except Panic (cnode L N) × Int :=
  match r with
  | .branch b => b.Without ops newLeaf args v depth h c
  | .leaf l => leafWithout l args v depth h c

/-- The loop `for _, e := range n.data { result = result.Without(args, e,
depth, newHasher(e, depth), removed) }` of `branch.Difference`, over the
elements still to visit; a panic ends it. -/
def differenceLoop (ops : NodeOps V N H) (newLeaf : List V → Except Panic L)
    (leafWithout : L → EqArgs V → V → Int → H → Int → Except Panic (cnode L N) × Int)
    (args : EqArgs V) (depth : Int) :
    List V → cnode L N × Int → Except Panic (cnode L N) × Int
  | [], r => (.ok r.1, r.2)
  | e :: rest, r =>
    match cnode.Without ops newLeaf leafWithout r.1 args e depth (ops.newHasher e depth) r.2 with
    | (.ok r1, c1) => differenceLoop ops newLeaf leafWithout args depth rest (r1, c1)
    | (.error p, c1) => (.error p, c1)

/-- The `case *leaf` arm of `branch.Difference`. -/
def branch.DifferenceLeaf (ops : NodeOps V N H) (newLeaf : List V → Except Panic L)
    (leafWithout : L → EqArgs V → V → Int → H → Int → Except Panic (cnode L N) × Int)
    (b : branch N) (args : EqArgs V) (n : sliceLeaf V) (depth : Int) (c : Int) :
    Except Panic (cnode L N) × Int :=
  differenceLoop ops newLeaf leafWithout args depth n.data (.branch b, c)

/-- The left fold of `With` over a list of elements, each at the same depth
with a hasher for that element, the counter passed along. -/
def foldWith (ops : NodeOps V N H) (b : branch N) (args : CombineArgs V) (es : List V)
    (depth : Int) (c : Int) : branch N × Int :=
  es.foldl
    (fun (r : branch N × Int) e => r.1.With ops args e depth (ops.newHasher e depth) r.2)
    (b, c)

/-- The left fold of `Without` over a list of elements, each at the same depth
with a hasher for that element, the counter passed along; once a step has
panicked the panic is the result. -/
def foldWithout (ops : NodeOps V N H) (newLeaf : List V → Except Panic L)
    (leafWithout : L → EqArgs V → V → Int → H → Int → Except Panic (cnode L N) × Int)
    (b : branch N) (args : EqArgs V) (es : List V) (depth : Int) (c : Int) :
    Except Panic (cnode L N) × Int :=
  es.foldl
    (fun (s : Except Panic (cnode L N) × Int) e =>
      match s.1 with
      | .ok r =>
        cnode.Without ops newLeaf leafWithout r args e depth (ops.newHasher e depth) s.2
      | .error p => (.error p, s.2))
    (.ok (.branch b), c)

/-- A node operation only adds to the counter it is handed: run from the counter
`c` it returns the node it returns from 0 and `c` plus what it adds from 0. -/
def AddsToCounter {α : Type} (op : Int → α × Int) : Prop :=
  ∀ c, op c = ((op 0).1, c + (op 0).2)

end branchLeafDefs

section hashDefs

variable {A : Type}

/-- `KeyValue` of `pkg/frozen/map.go`; `A` stands for `interface{}`. -/
structure KeyValue (A : Type) where
  Key : A
  Value : A
  deriving DecidableEq, Repr

/-- A result of `value.Hash` (not under `src/`, the parameter `valueHash`) as
the `uint64` it is. -/
def hash64 (valueHash : A → Nat) (a : A) : Nat :=
  valueHash a % 2 ^ 64

/-- `Map.Hash`: `range` is the sequence of entries `m.Range()` yields; the
arithmetic is that of `uint64`. -/
def Map.Hash (valueHash : A → Nat) (range : List (KeyValue A)) : Nat :=
  range.foldl
    (fun h kv =>
      h ^^^ ((12012876008735959943 * hash64 valueHash kv.Key
        + hash64 valueHash kv.Value) % 2 ^ 64))
    3167960924819262823

/-- The contribution of one entry to the hash of a Map, as the claim words it:
`(12012876008735959943 * Hash(key) + Hash(value)) mod 2^64`. -/
def entryHash (valueHash : A → Nat) (kv : KeyValue A) : Nat :=
  (12012876008735959943 * hash64 valueHash kv.Key + hash64 valueHash kv.Value) % 2 ^ 64

/-- The value 3167960924819262823 XOR-ed with the contribution of every entry
of a list. -/
def xorAll (valueHash : A → Nat) : List (KeyValue A) → Nat
  | [] => 3167960924819262823
  | kv :: rest => xorAll valueHash rest ^^^ entryHash valueHash kv

end hashDefs

section intSetDefs

/-- `intSetIterator` of `intset_iter.go`. `blockIter` is the sequence of
(key, block) entries the `MapIterator` has yet to yield, a block the list of
its cell masks; `block` is the rest of the current block. The field `cell` is
never read or written and is left out. -/
structure intSetIterator where
  blockIter : List (Int × List Nat)
  block : List Nat
  firstIntInCell : Int
  deriving DecidableEq, Repr

/-- The loop `for ; i.block[0] == 0; i.block = i.block[1:] { i.firstIntInCell
+= cellBits }` shared by the first two arms of `Next`: `none` is the run-time
panic of `i.block[0]` on an empty slice. -/
def skipZeroCells (cellBits : Int) : List Nat → Int → Option (List Nat × Int)
  | [], _ => none
  | c :: rest, first =>
    if c = 0 then skipZeroCells cellBits rest (first + cellBits)
    else some (c :: rest, first)

/-- `intSetIterator.Next`: the value returned and the iterator afterwards, or
`none` for a run-time panic. The constants `blockBits` and `cellBits` are not
under `src/` and are parameters. -/
def intSetIterator.Next (blockBits cellBits : Int) (i : intSetIterator) :
    Option (Bool × intSetIterator) :=
  match i.block with
  | [] =>
    match i.blockIter with
    | [] => some (false, i)
    | (key, block) :: more =>
      (skipZeroCells cellBits block (key * blockBits)).map fun r =>
        (true, ⟨more, r.1, r.2⟩)
  | c :: rest =>
    if c = 0 then
      (skipZeroCells cellBits (c :: rest) i.firstIntInCell).map fun r =>
        (true, ⟨i.blockIter, r.1, r.2⟩)
    else
      some (true, ⟨i.blockIter, (c &&& (c - 1)) :: rest, i.firstIntInCell⟩)

/-- `intSetIterator.Value`; `index` stands for `BitIterator(...).Index()`,
which is not under `src/`. -/
def intSetIterator.Value (index : Nat → Int) (i : intSetIterator) : Option Int :=
  match i.block with
  | [] => none
  | c :: _ => some (i.firstIntInCell + index c)

end intSetDefs

section pointerDefs

variable {V B T H N : Type} [Zero V] [DecidableEq V]

/-- A node as `leaf.With` returns it, with the identity of a leaf: the address
of the `leaf` struct and its contents.  Addresses are natural numbers; the
structs in use live below the mark `next`, and `&leaf{...}` takes the address
`next`. -/
inductive pnode (V B T : Type) where
  | leaf (addr : Nat) (l : tree.leaf V)
  | branch (b : B)
  | twig (t : T)
  deriving DecidableEq, Repr

/-- `newLeaf2` with the address of the struct it allocates. -/
def newLeaf2At (next : Nat) (a b : V) : Except Panic (Nat × leaf V) :=
  if a = 0 then .error .WTF else .ok (next, ⟨a, b⟩)

/-- `leaf.With` with the identity of the leaf it returns: every leaf result
comes from `newLeaf2`, hence from `&leaf{...}`. -/
def leaf.WithAt (env : Env V B T H) (next : Nat) (l : leaf V) (args : CombineArgs V) (v : V)
    (depth : Int) (_h : H) : Except Panic (pnode V B T × Nat) :=
  if args.eq l.data0 v then
    (newLeaf2At next (args.f l.data0 v) l.data1).map fun r => (.leaf r.1 r.2, 1)
  else if l.data1 = 0 then
    (newLeaf2At next l.data0 v).map fun r => (.leaf r.1 r.2, 0)
  else if args.eq l.data1 v then
    (newLeaf2At next l.data0 (args.f l.data1 v)).map fun r => (.leaf r.1 r.2, 1)
  else if depth ≥ env.maxTreeDepth then
    .ok (.twig (env.newTwig [l.data0, l.data1, v]), 0)
  else
    .ok (.branch (env.newBranchFrom depth [l.data0, l.data1, v]), 0)

/-- `branch.With` with the identity of the branch it returns: the address of
the struct `&branch{...}` allocates, its contents and the counter. -/
def branch.WithAt {H2 : Type} (ops : NodeOps V N H2) (next : Nat) (b : branch N)
    (args : CombineArgs V) (v : V) (depth : Int) (h : H2) (c : Int) :
    (Nat × branch N) × Int :=
  let r := b.With ops args v depth h c
  ((next, r.1), r.2)

end pointerDefs

section inverseDefs

variable {V N H : Type} [Zero V] [DecidableEq V]

/-- `Tree.Equal`. -/
def Tree.Equal (ops : NodeOps V N H) (t : Tree N) (args : EqArgs V) (u : Tree N) : Bool :=
  ops.Equal (t.Root ops) args (u.Root ops) 0

/-- The node behind a node reference that may be nil, as `Tree.Root` and
`packer.Get` read it: nil stands for the empty node. -/
def nodeOr (ops : NodeOps V N H) (r : Option N) : N :=
  match r with
  | none => ops.theEmptyNode
  | some n => n

/-- Insert then remove at a node `n` that does not hold `v`: `With(v)` returns
`r1` without a match, `Without(v)` on `r1` returns `r2` with one match, and
`r2` is `Equal` to `n`. -/
def RoundTrip (ops : NodeOps V N H) (cargs : CombineArgs V) (eargs : EqArgs V) (v : V)
    (n : N) (depth : Int) (h : H) (r1 r2 : Option N) : Prop :=
  (∀ c, ops.With n cargs v depth h c = (r1, c)) ∧
  (∀ c, ops.Without (nodeOr ops r1) eargs v depth h c = (r2, c + 1)) ∧
  ops.Equal (nodeOr ops r2) eargs n depth = true

/-- The elements behind a child slot; a nil slot has none. -/
def slotElems (elems : N → List V) (x : Option N) : List V :=
  match x with
  | none => []
  | some n => elems n

end inverseDefs

theorem natArgs_equivalence : IsEquivalence natArgs.eq := by
  constructor <;> simp [natArgs]

section leafLemmas

variable {V B T H : Type} [Zero V] [DecidableEq V]

theorem leaf_slice_one (l : leaf V) (h : l.data1 = 0) : l.slice = [l.data0] := by
  simp [leaf.slice, leaf.count, h]

theorem leaf_slice_two (l : leaf V) (h : l.data1 ≠ 0) : l.slice = [l.data0, l.data1] := by
  simp [leaf.slice, leaf.count, h]

theorem leaf_mask_one (l : leaf V) (h : l.data1 = 0) : l.mask = 1 := by
  simp [leaf.mask, h]

theorem leaf_mask_two (l : leaf V) (h : l.data1 ≠ 0) : l.mask = 3 := by
  simp [leaf.mask, h]

theorem leaf_Vet_ok_iff (l : leaf V) : l.Vet = .ok () ↔ l.data0 ≠ 0 := by
  unfold leaf.Vet
  by_cases h : l.data0 = 0 <;> by_cases h1 : l.data1 = 0 <;> simp [h, h1]

theorem Except_map_ok_iff {ε α β : Type} (x : Except ε α) (g : α → β) (y : β) :
    x.map g = .ok y ↔ ∃ a, x = .ok a ∧ g a = y := by
  cases x <;> simp [Except.map]

theorem newLeaf2_ok_iff (a b : V) (r : leaf V) :
    newLeaf2 a b = .ok r ↔ a ≠ 0 ∧ r = ⟨a, b⟩ := by
  unfold newLeaf2
  by_cases h : a = 0 <;> simp [h, eq_comm]

theorem newLeaf2_ok (a b : V) (h : a ≠ 0) : newLeaf2 a b = .ok ⟨a, b⟩ := by
  simp [newLeaf2, h]

end leafLemmas

/-- C1 (the code at the failing input): combining the leaves (1, 2) and (1, 3)
under plain equality counts one match but hands all four elements 1, 2, 1, 3
to `newBranchFrom`; the matched pair is neither merged by `args.f` nor
dropped. -/
theorem leaf_Combine_unmerged_pair :
    leaf.Combine recordingEnv ⟨1, 2⟩ natArgs (.leaf ⟨1, 3⟩) 0
      = .ok (some (.branch (recordingEnv.newBranchFrom 0 [1, 2, 1, 3])), 1) := by
  rfl

/-- The impossibilities that duplicate-freeness and an equivalence `eq` impose
on the four cross comparisons of two leaves. -/
theorem cross_eq_facts {V : Type} (eq : V → V → Bool) (heq : IsEquivalence eq) (l0 l1 n0 n1 : V) :
    (eq l0 n0 = true → eq l0 n1 = true → eq n0 n1 = true) ∧
    (eq l1 n0 = true → eq l1 n1 = true → eq n0 n1 = true) ∧
    (eq l0 n0 = true → eq l1 n0 = true → eq l0 l1 = true) ∧
    (eq l0 n1 = true → eq l1 n1 = true → eq l0 l1 = true) :=
  ⟨fun h h2 => heq.trans _ _ _ (heq.symm _ _ h) h2,
   fun h h2 => heq.trans _ _ _ (heq.symm _ _ h) h2,
   fun h h2 => heq.trans _ _ _ h (heq.symm _ _ h2),
   fun h h2 => heq.trans _ _ _ h (heq.symm _ _ h2)⟩

section leafTheorems

variable {V B T H : Type} [Zero V] [DecidableEq V]

set_option maxHeartbeats 1000000 in
theorem leaf_Combine_matches_of_ok (env : Env V B T H) (args : CombineArgs V)
    (l n : leaf V) (depth : Int) (heq : IsEquivalence args.eq) (hl : l.noDup args.eq)
    (hn : n.noDup args.eq) (r : Option (node V B T)) (m : Nat)
    (h : l.Combine env args (.leaf n) depth = .ok (r, m)) : m = eqPairs args.eq l n := by
  obtain ⟨l0, l1⟩ := l
  obtain ⟨n0, n1⟩ := n
  obtain ⟨c1, c2, c3, c4⟩ := cross_eq_facts args.eq heq l0 l1 n0 n1
  clear heq
  revert h
  by_cases hl1 : l1 = 0 <;> by_cases hn1 : n1 = 0 <;>
    simp [leaf.Combine, leaf.combineLeaves, lr, leaf.mask, hl1, hn1, leaf.noDup, eqPairs,
      leaf.slice, leaf.count, CombineArgs.flip, newLeaf1] at hl hn ⊢
  all_goals
    cases h00 : args.eq l0 n0 <;> cases h01 : args.eq l0 n1 <;>
    cases h10 : args.eq l1 n0 <;> cases h11 : args.eq l1 n1 <;>
    simp_all [List.countP_cons, Except_map_ok_iff, newLeaf2_ok_iff]

set_option maxHeartbeats 1000000 in
theorem leaf_Combine_returns (env : Env V B T H) (args : CombineArgs V)
    (l n : leaf V) (depth : Int) (heq : IsEquivalence args.eq) (hl : l.noDup args.eq)
    (hn : n.noDup args.eq) (hl0 : l.data0 ≠ 0) (hn0 : n.data0 ≠ 0)
    (hf : ∀ a b, a ≠ 0 → b ≠ 0 → args.f a b ≠ 0) :
    ∃ r, l.Combine env args (.leaf n) depth = .ok (r, eqPairs args.eq l n) := by
  obtain ⟨l0, l1⟩ := l
  obtain ⟨n0, n1⟩ := n
  obtain ⟨c1, c2, c3, c4⟩ := cross_eq_facts args.eq heq l0 l1 n0 n1
  clear heq
  have f00 := hf l0 n0 hl0 hn0
  have f01 := hf l0 n1 hl0
  have f10 := fun h => hf l1 n0 h hn0
  have f11 := hf l1 n1
  clear hf
  by_cases hl1 : l1 = 0 <;> by_cases hn1 : n1 = 0 <;>
    simp [leaf.Combine, leaf.combineLeaves, lr, leaf.mask, hl1, hn1, leaf.noDup, eqPairs,
      leaf.slice, leaf.count, CombineArgs.flip, newLeaf1] at hl hn hl0 hn0 ⊢
  all_goals
    cases h00 : args.eq l0 n0 <;> cases h01 : args.eq l0 n1 <;>
    cases h10 : args.eq l1 n0 <;> cases h11 : args.eq l1 n1 <;>
    simp_all [List.countP_cons, Except.map, newLeaf2_ok]

/-- C2: for two duplicate-free leaves and an equivalence `eq`, whenever
`leaf.Combine` returns, its matches value is the number of pairs (a in l, b in
n) with `eq(a, b)`, the swapped 2-element/1-element case included; and it does
return when both leaves pass `Vet` and `args.f` yields no `zero` from non-zero
arguments. -/
theorem leaf_Combine_matches (env : Env V B T H) (args : CombineArgs V) (l n : leaf V)
    (depth : Int) (heq : IsEquivalence args.eq) (hl : l.noDup args.eq)
    (hn : n.noDup args.eq) :
    (∀ r m, l.Combine env args (.leaf n) depth = .ok (r, m) → m = eqPairs args.eq l n) ∧
    (l.Vet = .ok () → n.Vet = .ok () → (∀ a b, a ≠ 0 → b ≠ 0 → args.f a b ≠ 0) →
      ∃ r, l.Combine env args (.leaf n) depth = .ok (r, eqPairs args.eq l n)) :=
  ⟨fun r m h => leaf_Combine_matches_of_ok env args l n depth heq hl hn r m h,
   fun hl0 hn0 hf => leaf_Combine_returns env args l n depth heq hl hn
     ((leaf_Vet_ok_iff l).1 hl0) ((leaf_Vet_ok_iff n).1 hn0) hf⟩

/-- C2, at the leaves (1, 2) and (2): the operands are swapped and the one pair
(2, 2) is counted. -/
theorem leaf_Combine_matches_witness :
    ∃ r, leaf.Combine recordingEnv ⟨1, 2⟩ natArgs (.leaf ⟨2, 0⟩) 0 = .ok (r, 1) :=
  (leaf_Combine_matches recordingEnv natArgs ⟨1, 2⟩ ⟨2, 0⟩ 0 natArgs_equivalence
    (by simp [leaf.noDup, leaf.slice, leaf.count, natArgs])
    (by simp [leaf.noDup, leaf.slice, leaf.count])).2 rfl rfl
    (by intro a b _ hb; simpa [natArgs, UseRHS] using hb)

/-- C3 (as stated, refuted): the leaf (1) receives 1 under a merge function
that returns `zero`; 1 is eq to slot 0, yet `leaf.With` returns no leaf:
`newLeaf2` panics on the `zero` first slot. -/
theorem leaf_With_zero_merge_panics :
    zeroMergeArgs.eq 1 1 = true ∧
    leaf.With recordingEnv ⟨1, 0⟩ zeroMergeArgs 1 0 (1, 0) = .error .WTF :=
  ⟨rfl, rfl⟩

/-- C3 (amended): for a leaf that passes `Vet`, if `v` is eq to slot 0 and
`args.f(l0, v)` is not `zero`, `leaf.With` returns the leaf whose slot 0 holds
`args.f(l0, v)`, slot 1 unchanged, with matches 1; if `v` is not eq to slot 0,
slot 1 is occupied and `v` is eq to it, it returns the leaf whose slot 1 holds
`args.f(l1, v)`, slot 0 unchanged, with matches 1; if `v` is eq to slot 0 and
`args.f(l0, v)` is `zero`, it panics. -/
theorem leaf_With_match (env : Env V B T H) (l : leaf V) (args : CombineArgs V) (v : V)
    (depth : Int) (h : H) (hl : l.Vet = .ok ()) :
    (args.eq l.data0 v = true → args.f l.data0 v ≠ 0 →
      l.With env args v depth h
        = .ok (some (.leaf ⟨args.f l.data0 v, l.data1⟩), 1)) ∧
    (args.eq l.data0 v = false → l.data1 ≠ 0 → args.eq l.data1 v = true →
      l.With env args v depth h
        = .ok (some (.leaf ⟨l.data0, args.f l.data1 v⟩), 1)) ∧
    (args.eq l.data0 v = true → args.f l.data0 v = 0 →
      l.With env args v depth h = .error .WTF) := by
  rw [leaf_Vet_ok_iff] at hl
  refine ⟨fun h0 hf => ?_, fun h0 h1 he => ?_, fun h0 hf => ?_⟩
  · simp [leaf.With, h0, newLeaf2, hf, Except.map]
  · simp [leaf.With, h0, h1, he, newLeaf2, hl, Except.map]
  · simp [leaf.With, h0, newLeaf2, hf, Except.map]

/-- C3 (amended), at the leaf (1, 2): adding 1 merges into slot 0 and adding 2
merges into slot 1, each with matches 1. -/
theorem leaf_With_match_witness :
    leaf.With recordingEnv ⟨1, 2⟩ natArgs 1 0 (1, 0) = .ok (some (.leaf ⟨1, 2⟩), 1) ∧
    leaf.With recordingEnv ⟨1, 2⟩ natArgs 2 0 (2, 0) = .ok (some (.leaf ⟨1, 2⟩), 1) :=
  ⟨(leaf_With_match recordingEnv ⟨1, 2⟩ natArgs 1 0 (1, 0) rfl).1 rfl (by decide),
   (leaf_With_match recordingEnv ⟨1, 2⟩ natArgs 2 0 (2, 0) rfl).2.1 rfl (by decide) rfl⟩

/-- C4: for a leaf that passes `Vet` and a `v` not eq to any stored element,
`leaf.With` reports matches 0 and returns the leaf (l0, v) when the leaf has
one element (a 2-leaf for non-zero `v`), the twig `newTwig(l0, l1, v)` when the
leaf is full and `depth >= maxTreeDepth`, and the branch
`newBranchFrom(depth, l0, l1, v)` when it is full and `depth < maxTreeDepth`. -/
theorem leaf_With_new (env : Env V B T H) (l : leaf V) (args : CombineArgs V) (v : V)
    (depth : Int) (h : H) (hl : l.Vet = .ok ())
    (hv : ∀ e ∈ l.slice, args.eq e v = false) :
    (l.data1 = 0 →
      l.With env args v depth h = .ok (some (.leaf ⟨l.data0, v⟩), 0) ∧
      (v ≠ 0 → leaf.count (⟨l.data0, v⟩ : leaf V) = 2)) ∧
    (l.data1 ≠ 0 → depth ≥ env.maxTreeDepth →
      l.With env args v depth h
        = .ok (some (.twig (env.newTwig [l.data0, l.data1, v])), 0)) ∧
    (l.data1 ≠ 0 → depth < env.maxTreeDepth →
      l.With env args v depth h
        = .ok (some (.branch (env.newBranchFrom depth [l.data0, l.data1, v])), 0)) := by
  rw [leaf_Vet_ok_iff] at hl
  refine ⟨fun h1 => ?_, fun h1 hd => ?_, fun h1 hd => ?_⟩
  · rw [leaf_slice_one l h1] at hv
    simp at hv
    simp [leaf.With, hv, h1, newLeaf2, hl, Except.map, leaf.count]
  · rw [leaf_slice_two l h1] at hv
    simp at hv
    simp [leaf.With, hv, h1, hd]
  · rw [leaf_slice_two l h1] at hv
    simp at hv
    simp [leaf.With, hv, h1, hd]

/-- C4, at depth 3 and at depth 16 = `maxTreeDepth` of the recording
environment: (1) with 2 gives the leaf (1, 2), (1, 2) with 3 gives the twig at
depth 16 and the branch at depth 3. -/
theorem leaf_With_new_witness :
    leaf.With recordingEnv ⟨1, 0⟩ natArgs 2 3 (2, 3) = .ok (some (.leaf ⟨1, 2⟩), 0) ∧
    leaf.With recordingEnv ⟨1, 2⟩ natArgs 3 16 (3, 16)
      = .ok (some (.twig (recordingEnv.newTwig [1, 2, 3])), 0) ∧
    leaf.With recordingEnv ⟨1, 2⟩ natArgs 3 3 (3, 3)
      = .ok (some (.branch (recordingEnv.newBranchFrom 3 [1, 2, 3])), 0) :=
  ⟨((leaf_With_new recordingEnv ⟨1, 0⟩ natArgs 2 3 (2, 3) rfl (by decide)).1 rfl).1,
   (leaf_With_new recordingEnv ⟨1, 2⟩ natArgs 3 16 (3, 16) rfl (by decide)).2.1
     (by decide) (by decide),
   (leaf_With_new recordingEnv ⟨1, 2⟩ natArgs 3 3 (3, 3) rfl (by decide)).2.2
     (by decide) (by decide)⟩

/-- C5: for a leaf that passes `Vet`, `leaf.Without` returns nil with matches 1
when the only element is eq to `v`; the 1-leaf of the other element with
matches 1 when the leaf has two elements and one of them is eq to `v` (slot 0
is tried first); and the receiver itself with matches 0 when no stored element
is eq to `v`. -/
theorem leaf_Without_cases (l : leaf V) (args : EqArgs V) (v : V) (depth : Int) (h : H)
    (hl : l.Vet = .ok ()) :
    (l.data1 = 0 → args.eq l.data0 v = true →
      (l.Without args v depth h : Except Panic (Option (node V B T) × Nat))
        = .ok (none, 1)) ∧
    (l.data1 ≠ 0 → args.eq l.data0 v = true →
      (l.Without args v depth h : Except Panic (Option (node V B T) × Nat))
        = .ok (some (.leaf ⟨l.data1, 0⟩), 1)) ∧
    (l.data1 ≠ 0 → args.eq l.data0 v = false → args.eq l.data1 v = true →
      (l.Without args v depth h : Except Panic (Option (node V B T) × Nat))
        = .ok (some (.leaf ⟨l.data0, 0⟩), 1)) ∧
    ((∀ e ∈ l.slice, args.eq e v = false) →
      (l.Without args v depth h : Except Panic (Option (node V B T) × Nat))
        = .ok (some (.leaf l), 0)) := by
  rw [leaf_Vet_ok_iff] at hl
  refine ⟨fun h1 h0 => ?_, fun h1 h0 => ?_, fun h1 h0 he => ?_, fun hv => ?_⟩
  · simp [leaf.Without, h0, leaf.mask, h1, leaf.whereMask, Except.map]
  · simp [leaf.Without, h0, leaf.mask, h1, leaf.whereMask, Except.map, newLeaf1, newLeaf2]
  · simp [leaf.Without, h0, he, leaf.mask, h1, leaf.whereMask, Except.map, newLeaf1,
      newLeaf2, hl]
  · by_cases h1 : l.data1 = 0
    · rw [leaf_slice_one l h1] at hv
      simp at hv
      simp [leaf.Without, hv, leaf.mask, h1, leaf.whereMask, Except.map]
    · rw [leaf_slice_two l h1] at hv
      simp at hv
      simp [leaf.Without, hv, leaf.mask, h1, leaf.whereMask, Except.map]

/-- C5, at the leaves (1) and (1, 2): removing the only element gives nil,
removing either of two elements leaves the other, removing an absent element
returns the receiver. -/
theorem leaf_Without_cases_witness :
    (leaf.Without ⟨1, 0⟩ natEqArgs 1 0 (1, (0 : Int))
      : Except Panic (Option (node Nat (Int × List Nat) (List Nat)) × Nat)) = .ok (none, 1) ∧
    (leaf.Without ⟨1, 2⟩ natEqArgs 1 0 (1, (0 : Int))
      : Except Panic (Option (node Nat (Int × List Nat) (List Nat)) × Nat))
        = .ok (some (.leaf ⟨2, 0⟩), 1) ∧
    (leaf.Without ⟨1, 2⟩ natEqArgs 2 0 (2, (0 : Int))
      : Except Panic (Option (node Nat (Int × List Nat) (List Nat)) × Nat))
        = .ok (some (.leaf ⟨1, 0⟩), 1) ∧
    (leaf.Without ⟨1, 2⟩ natEqArgs 3 0 (3, (0 : Int))
      : Except Panic (Option (node Nat (Int × List Nat) (List Nat)) × Nat))
        = .ok (some (.leaf ⟨1, 2⟩), 0) :=
  ⟨(leaf_Without_cases ⟨1, 0⟩ natEqArgs 1 0 (1, (0 : Int)) rfl).1 rfl rfl,
   (leaf_Without_cases ⟨1, 2⟩ natEqArgs 1 0 (1, (0 : Int)) rfl).2.1 (by decide) rfl,
   (leaf_Without_cases ⟨1, 2⟩ natEqArgs 2 0 (2, (0 : Int)) rfl).2.2.1 (by decide) rfl rfl,
   (leaf_Without_cases ⟨1, 2⟩ natEqArgs 3 0 (3, (0 : Int)) rfl).2.2.2 (by decide)⟩

/-- C6: for a leaf that passes `Vet` and a node `n`, `leaf.Intersection` returns
exactly the elements of `l` that `n.Get` finds, in storage order: nil when
there are none, the receiver when all are kept, otherwise the 1-leaf of the
single kept element; and matches is the number of elements kept. -/
theorem leaf_Intersection_spec (env : Env V B T H) (l : leaf V) (args : EqArgs V)
    (n : node V B T) (depth : Int) (hl : l.Vet = .ok ()) :
    ∃ r, l.Intersection env args n depth = .ok (r, (l.foundIn env args n depth).length) ∧
      (l.foundIn env args n depth = [] → r = none) ∧
      (l.foundIn env args n depth = l.slice → r = some (.leaf l)) ∧
      (l.foundIn env args n depth ≠ [] → l.foundIn env args n depth ≠ l.slice →
        ∃ e, l.foundIn env args n depth = [e] ∧ r = some (.leaf ⟨e, 0⟩)) := by
  rw [leaf_Vet_ok_iff] at hl
  obtain ⟨l0, l1⟩ := l
  simp only at hl
  by_cases h1 : l1 = 0 <;>
    cases g0 : (n.Get env args l0 (env.newHasher l0 depth)).isSome <;>
    cases g1 : (n.Get env args l1 (env.newHasher l1 depth)).isSome <;>
    simp [leaf.Intersection, leaf.foundIn, leaf.slice, leaf.count, leaf.whereMask, h1, g0, g1,
      List.filter_cons, Except.map, newLeaf1, newLeaf2, hl]

/-- C6, at the leaf (1, 2) against the leaf (2, 3): only 2 is found. -/
theorem leaf_Intersection_spec_witness :
    ∃ r, leaf.Intersection recordingEnv ⟨1, 2⟩ natEqArgs (.leaf ⟨2, 3⟩) 0
        = .ok (r, (leaf.foundIn recordingEnv ⟨1, 2⟩ natEqArgs (.leaf ⟨2, 3⟩) 0).length) ∧
      (leaf.foundIn recordingEnv ⟨1, 2⟩ natEqArgs (.leaf ⟨2, 3⟩) 0 = [] → r = none) ∧
      (leaf.foundIn recordingEnv ⟨1, 2⟩ natEqArgs (.leaf ⟨2, 3⟩) 0 = leaf.slice ⟨1, 2⟩ →
        r = some (.leaf ⟨1, 2⟩)) ∧
      (leaf.foundIn recordingEnv ⟨1, 2⟩ natEqArgs (.leaf ⟨2, 3⟩) 0 ≠ [] →
        leaf.foundIn recordingEnv ⟨1, 2⟩ natEqArgs (.leaf ⟨2, 3⟩) 0 ≠ leaf.slice ⟨1, 2⟩ →
        ∃ e, leaf.foundIn recordingEnv ⟨1, 2⟩ natEqArgs (.leaf ⟨2, 3⟩) 0 = [e] ∧
          r = some (.leaf ⟨e, 0⟩)) :=
  leaf_Intersection_spec recordingEnv ⟨1, 2⟩ natEqArgs (.leaf ⟨2, 3⟩) 0 rfl

/-- C7: for a leaf that passes `Vet` and a node `n`, `leaf.Difference` returns
exactly the elements of `l` that `n.Get` does not find (nil when none remain,
the receiver when none is found, otherwise the 1-leaf of the single remaining
element), matches is the number of elements dropped, and the count of the
difference is the count of `l` minus the count of `leaf.Intersection`. -/
theorem leaf_Difference_spec (env : Env V B T H) (l : leaf V) (args : EqArgs V)
    (n : node V B T) (depth : Int) (hl : l.Vet = .ok ()) :
    ∃ d i : Option (leaf V),
      l.Difference env args n depth
        = .ok (d.map .leaf, (l.foundIn env args n depth).length) ∧
      l.Intersection env args n depth
        = .ok (i.map .leaf, (l.foundIn env args n depth).length) ∧
      (l.notFoundIn env args n depth = [] → d = none) ∧
      (l.foundIn env args n depth = [] → d = some l) ∧
      (l.notFoundIn env args n depth ≠ [] → l.foundIn env args n depth ≠ [] →
        ∃ e, l.notFoundIn env args n depth = [e] ∧ d = some ⟨e, 0⟩) ∧
      countOf d = (l.notFoundIn env args n depth).length ∧
      countOf i = (l.foundIn env args n depth).length ∧
      countOf d = l.count - countOf i := by
  rw [leaf_Vet_ok_iff] at hl
  refine ⟨leafOf (l.notFoundIn env args n depth), leafOf (l.foundIn env args n depth), ?_⟩
  obtain ⟨l0, l1⟩ := l
  simp only at hl
  by_cases h1 : l1 = 0 <;>
    cases g0 : n.Get env args l0 (env.newHasher l0 depth) <;>
    cases g1 : n.Get env args l1 (env.newHasher l1 depth) <;>
    simp [leaf.Intersection, leaf.Difference, leaf.foundIn, leaf.notFoundIn, leaf.slice,
      leaf.count, leaf.mask, andNot, leaf.whereMask, h1, g0, g1, List.filter_cons, Except.map,
      newLeaf1, newLeaf2, hl, leafOf, countOf]

/-- C7, at the leaf (1, 2) against the leaf (2, 3): 2 is dropped and the 1-leaf
of 1 remains. -/
theorem leaf_Difference_spec_witness :
    leaf.Vet (⟨1, 2⟩ : leaf Nat) = .ok () ∧
    ∃ d i : Option (leaf Nat),
      leaf.Difference recordingEnv ⟨1, 2⟩ natEqArgs (.leaf ⟨2, 3⟩) 0
        = .ok (d.map .leaf, 1) ∧
      leaf.Intersection recordingEnv ⟨1, 2⟩ natEqArgs (.leaf ⟨2, 3⟩) 0
        = .ok (i.map .leaf, 1) ∧
      countOf d = 1 ∧ countOf i = 1 := by
  refine ⟨rfl, ?_⟩
  obtain ⟨d, i, hd, hi, -, -, -, cd, ci, -⟩ :=
    leaf_Difference_spec recordingEnv ⟨1, 2⟩ natEqArgs (.leaf ⟨2, 3⟩) 0 rfl
  exact ⟨d, i, hd, hi, cd, ci⟩

/-- Two-element lists are permutations of each other exactly when they agree in
order or crosswise. -/
theorem pair_perm_iff {α : Type} (x y a b : α) :
    [x, y].Perm [a, b] ↔ (x = a ∧ y = b) ∨ (x = b ∧ y = a) := by
  constructor
  · intro h
    have hx : x ∈ [a, b] := h.subset (by simp)
    have hy : y ∈ [a, b] := h.subset (by simp)
    have ha : a ∈ [x, y] := h.symm.subset (by simp)
    have hb : b ∈ [x, y] := h.symm.subset (by simp)
    simp at hx hy ha hb
    rcases hx with rfl | rfl <;> rcases hy with rfl | rfl <;> simp_all
  · rintro (⟨rfl, rfl⟩ | ⟨rfl, rfl⟩)
    · exact List.Perm.refl _
    · exact List.Perm.swap _ _ _

/-- C9: `leaf.Equal(l, n)` is true exactly when `n` is a leaf with as many
elements as `l` whose elements, in some order, are pairwise eq to those of `l`
(a one-to-one pairing, storage order irrelevant); it is false for every branch
and every twig. -/
theorem leaf_Equal_iff (l : leaf V) (args : EqArgs V) (n : node V B T) (depth : Int) :
    (l.Equal args n depth = true ↔
      ∃ m : leaf V, n = .leaf m ∧ m.count = l.count ∧
        ∃ p : List V, p.Perm m.slice ∧
          List.Forall₂ (fun a b => args.eq a b = true) l.slice p) ∧
    (∀ b : B, l.Equal args (.branch b : node V B T) depth = false) ∧
    (∀ t : T, l.Equal args (.twig t : node V B T) depth = false) := by
  refine ⟨?_, fun b => rfl, fun t => rfl⟩
  obtain ⟨l0, l1⟩ := l
  cases n with
  | branch b => simp [leaf.Equal]
  | twig t => simp [leaf.Equal]
  | leaf m =>
    obtain ⟨m0, m1⟩ := m
    by_cases h1 : l1 = 0 <;> by_cases k1 : m1 = 0 <;>
      simp [leaf.Equal, leaf.mask, leaf.slice, leaf.count, h1, k1, List.forall₂_cons_left_iff]
    constructor
    · rintro (⟨h, k⟩ | ⟨h, k⟩)
      · exact ⟨[m0, m1], List.Perm.refl _, m0, h, [m1], ⟨m1, k, rfl⟩, rfl⟩
      · exact ⟨[m1, m0], List.Perm.swap _ _ _, m1, h, [m0], ⟨m0, k, rfl⟩, rfl⟩
    · rintro ⟨p, hp, x, hx, q, ⟨y, hy, rfl⟩, rfl⟩
      rcases (pair_perm_iff x y m0 m1).1 hp with ⟨rfl, rfl⟩ | ⟨rfl, rfl⟩
      · exact Or.inl ⟨hx, hy⟩
      · exact Or.inr ⟨hx, hy⟩

/-- C8: `leaf.SubsetOf(l, n, depth)` is true exactly when `n.Get` with the
hasher `newHasher(e, depth)` is non-nil for every element `e` that `l`
stores. -/
theorem leaf_SubsetOf_iff (env : Env V B T H) (l : leaf V) (args : EqArgs V)
    (n : node V B T) (depth : Int) :
    l.SubsetOf env args n depth = true ↔
      ∀ e ∈ l.slice, n.Get env args e (env.newHasher e depth) ≠ none := by
  obtain ⟨l0, l1⟩ := l
  by_cases h1 : l1 = 0 <;>
    cases g0 : n.Get env args l0 (env.newHasher l0 depth) <;>
    cases g1 : n.Get env args l1 (env.newHasher l1 depth) <;>
    simp [leaf.SubsetOf, leaf.slice, leaf.count, h1, g0, g1]

set_option maxHeartbeats 1000000 in
/-- C10: for duplicate-free leaves `x` and `y` that pass `Vet`, an equivalence
`eq` and a merge function that returns a non-zero element eq to its (eq)
arguments, `x.Combine(y)` returns a node, and `x.SubsetOf(y)` holds exactly
when that node is `Equal` to `y`; a node made by `newBranchFrom` is a branch
and `branch.Equal` is false against a leaf. -/
theorem leaf_SubsetOf_iff_Combine_Equal (env : Env V B T H) (args : CombineArgs V)
    (x y : leaf V) (depth : Int) (heq : IsEquivalence args.eq)
    (hx : x.noDup args.eq) (hy : y.noDup args.eq)
    (hxv : x.Vet = .ok ()) (hyv : y.Vet = .ok ())
    (hf0 : ∀ a b, a ≠ 0 → b ≠ 0 → args.f a b ≠ 0)
    (hfe : ∀ a b, args.eq a b = true → args.eq (args.f a b) b = true) :
    ∃ r m, x.Combine env args (.leaf y) depth = .ok (some r, m) ∧
      (x.SubsetOf env args.toEqArgs (.leaf y) depth = true ↔
        r.Equal env args.toEqArgs (.leaf y) depth = true) := by
  rw [leaf_Vet_ok_iff] at hxv hyv
  obtain ⟨x0, x1⟩ := x
  obtain ⟨y0, y1⟩ := y
  simp only at hxv hyv
  obtain ⟨c1, c2, c3, c4⟩ := cross_eq_facts args.eq heq x0 x1 y0 y1
  have s00 : args.eq y0 x0 = args.eq x0 y0 :=
    Bool.eq_iff_iff.2 ⟨heq.symm _ _, heq.symm _ _⟩
  have s01 : args.eq y1 x0 = args.eq x0 y1 :=
    Bool.eq_iff_iff.2 ⟨heq.symm _ _, heq.symm _ _⟩
  have s10 : args.eq y0 x1 = args.eq x1 y0 :=
    Bool.eq_iff_iff.2 ⟨heq.symm _ _, heq.symm _ _⟩
  have s11 : args.eq y1 x1 = args.eq x1 y1 :=
    Bool.eq_iff_iff.2 ⟨heq.symm _ _, heq.symm _ _⟩
  have r0 := heq.refl y0
  have r1 := heq.refl y1
  have f00 := hf0 x0 y0 hxv hyv
  have f01 := hf0 x0 y1 hxv
  have f10 := fun h => hf0 x1 y0 h hyv
  have f11 := hf0 x1 y1
  have e00 := hfe x0 y0
  have e01 := hfe x0 y1
  have e10 := hfe x1 y0
  have e11 := hfe x1 y1
  clear hf0 hfe heq
  by_cases hx1 : x1 = 0 <;> by_cases hy1 : y1 = 0 <;>
    simp [leaf.Combine, leaf.combineLeaves, lr, leaf.mask, hx1, hy1, leaf.noDup,
      leaf.slice, leaf.count, CombineArgs.flip, newLeaf1, leaf.SubsetOf, node.Get, leaf.Get,
      CombineArgs.toEqArgs, s00, s01, s10, s11, List.find?_cons] at hx hy ⊢
  all_goals
    cases h00 : args.eq x0 y0 <;> cases h01 : args.eq x0 y1 <;>
    cases h10 : args.eq x1 y0 <;> cases h11 : args.eq x1 y1 <;>
    simp_all [Except.map, newLeaf2_ok, node.Equal, leaf.Equal, leaf.mask, branch_Equal]

/-- C10, at the leaves (1) and (1, 2) under plain equality with use-right. -/
theorem leaf_SubsetOf_iff_Combine_Equal_witness :
    ∃ r m, leaf.Combine recordingEnv ⟨1, 0⟩ natArgs (.leaf ⟨1, 2⟩) 0 = .ok (some r, m) ∧
      (leaf.SubsetOf recordingEnv ⟨1, 0⟩ natArgs.toEqArgs (.leaf ⟨1, 2⟩) 0 = true ↔
        r.Equal recordingEnv natArgs.toEqArgs (.leaf ⟨1, 2⟩) 0 = true) :=
  leaf_SubsetOf_iff_Combine_Equal recordingEnv natArgs ⟨1, 0⟩ ⟨1, 2⟩ 0 natArgs_equivalence
    (by simp [leaf.noDup, leaf.slice, leaf.count])
    (by simp [leaf.noDup, leaf.slice, leaf.count, natArgs])
    rfl rfl
    (by intro a b _ hb; simpa [natArgs, UseRHS] using hb)
    (by intro a b _; simp [natArgs, UseRHS])

end leafTheorems

section leafTheorems2

variable {V B T H : Type} [Zero V] [DecidableEq V]

/-- C12: for a leaf that passes `Vet`, `leaf.Where` returns exactly the elements
of `l` that satisfy `Pred`, in storage order: nil when none does, the receiver
when all do, otherwise the 1-leaf of the single satisfying element; and matches
is the number of elements kept. -/
theorem leaf_Where_spec (l : leaf V) (args : WhereArgs V) (depth : Int)
    (hl : l.Vet = .ok ()) :
    ∃ r : Option (node V B T),
      l.Where args depth = .ok (r, (l.slice.filter args.Pred).length) ∧
      (l.slice.filter args.Pred = [] → r = none) ∧
      (l.slice.filter args.Pred = l.slice → r = some (.leaf l)) ∧
      (l.slice.filter args.Pred ≠ [] → l.slice.filter args.Pred ≠ l.slice →
        ∃ e, l.slice.filter args.Pred = [e] ∧ r = some (.leaf ⟨e, 0⟩)) := by
  rw [leaf_Vet_ok_iff] at hl
  obtain ⟨l0, l1⟩ := l
  simp only at hl
  by_cases h1 : l1 = 0 <;> cases g0 : args.Pred l0 <;> cases g1 : args.Pred l1 <;>
    simp [leaf.Where, leaf.slice, leaf.count, leaf.whereMask, h1, g0, g1,
      List.filter_cons, Except.map, newLeaf1, newLeaf2, hl]

/-- C12, at the leaf (1, 2) with the predicate "is 2": the 1-leaf of 2 with
matches 1. -/
theorem leaf_Where_spec_witness :
    leaf.Vet (⟨1, 2⟩ : leaf Nat) = .ok () ∧
    (leaf.Where ⟨1, 2⟩ ⟨fun e => e == 2⟩ 0
      : Except Panic (Option (node Nat (Int × List Nat) (List Nat)) × Nat))
      = .ok (some (.leaf ⟨2, 0⟩), 1) := by
  refine ⟨rfl, ?_⟩
  obtain ⟨r, hr, -, -, h3⟩ :=
    leaf_Where_spec (V := Nat) (B := Int × List Nat) (T := List Nat) ⟨1, 2⟩
      ⟨fun e => e == 2⟩ 0 rfl
  obtain ⟨e, he, hre⟩ := h3 (by decide) (by decide)
  have he2 : e = 2 := by
    have : List.filter (fun e => e == 2) (leaf.slice (⟨1, 2⟩ : leaf Nat)) = [2] := by decide
    rw [this] at he
    simpa using he.symm
  subst he2
  rw [hr, hre]
  rfl

end leafTheorems2

section treeTheorems

variable {V N H : Type}

/-- C13: the cardinality arithmetic of the tree façade.  Whenever the root
operation adds `m` to the counter it is handed, `Tree.With` and `Tree.Add`
yield count `t.count + 1 - m`, `Tree.Without`, `Tree.Remove` and
`Tree.Difference` yield `t.count - m`, `Tree.Combine` yields
`t.count + u.count - m`, and `Tree.Intersection` (on the operands as it orders
them, swapped and with `args.flip` when the receiver is the larger) and
`Tree.Where` yield `m`; the negated counter does not show. -/
theorem Tree_count_arithmetic (ops : NodeOps V N H) (t u : Tree N) (cargs : CombineArgs V)
    (eargs : EqArgs V) (wargs : WhereArgs V) (v : V) (m : Int) :
    ((∀ c, (ops.With (t.Root ops) cargs v 0 (ops.newHasher v 0) c).2 = c + m) →
      (t.With ops cargs v).Count = t.count + 1 - m) ∧
    ((∀ c, (ops.Without (t.Root ops) eargs v 0 (ops.newHasher v 0) c).2 = c + m) →
      (t.Without ops eargs v).Count = t.count - m) ∧
    ((∀ c, (ops.Combine (t.Root ops) cargs (u.Root ops) 0 c).2 = c + m) →
      (t.Combine ops cargs u).Count = t.count + u.count - m) ∧
    ((∀ c, (ops.Difference (t.Root ops) eargs (u.Root ops) 0 c).2 = c + m) →
      (t.Difference ops eargs u).Count = t.count - m) ∧
    (¬ t.count > u.count →
      (∀ c, (ops.Intersection (t.Root ops) eargs (u.Root ops) 0 c).2 = c + m) →
      (t.Intersection ops eargs u).Count = m) ∧
    (t.count > u.count →
      (∀ c, (ops.Intersection (u.Root ops) eargs.flip (t.Root ops) 0 c).2 = c + m) →
      (t.Intersection ops eargs u).Count = m) ∧
    ((∀ c, (ops.Where (t.Root ops) wargs 0 c).2 = c + m) →
      (t.Where ops wargs).Count = m) ∧
    ((∀ c, (ops.Add (t.MutableRoot ops) cargs v 0 (ops.newHasher v 0) c).2 = c + m) →
      (t.Add ops cargs v).Count = t.count + 1 - m) ∧
    ((∀ c, (ops.Remove (t.MutableRoot ops) eargs v 0 (ops.newHasher v 0) c).2 = c + m) →
      (t.Remove ops eargs v).Count = t.count - m) := by
  refine ⟨fun h => ?_, fun h => ?_, fun h => ?_, fun h => ?_, fun hs h => ?_,
    fun hs h => ?_, fun h => ?_, fun h => ?_, fun h => ?_⟩
  · simp only [Tree.With, Tree.Count, newTreeNeg, h]; ring
  · simp only [Tree.Without, Tree.Count, newTreeNeg, h]; ring
  · simp only [Tree.Combine, Tree.Count, newTreeNeg, h]; ring
  · simp only [Tree.Difference, Tree.Count, newTreeNeg, h]; ring
  · simp [Tree.Intersection, Tree.Count, newTree, hs, h]
  · simp [Tree.Intersection, Tree.Count, newTree, hs, h]
  · simp [Tree.Where, Tree.Count, newTree, h]
  · simp only [Tree.Add, Tree.Count, h]; ring
  · simp only [Tree.Remove, Tree.Count, h]; ring

/-- C13, on list-backed nodes: adding 2 to the tree of 1, 2, 3 meets one match
and keeps the count 3; combining it with the tree of 3, 4 meets one match and
gives count 4. -/
theorem Tree_count_arithmetic_witness :
    (Tree.With listNodeOps ⟨some [1, 2, 3], 3⟩ natArgs 2).Count = 3 ∧
    (Tree.Combine listNodeOps ⟨some [1, 2, 3], 3⟩ natArgs ⟨some [3, 4], 2⟩).Count = 4 :=
  ⟨(Tree_count_arithmetic listNodeOps ⟨some [1, 2, 3], 3⟩ ⟨some [3, 4], 2⟩ natArgs natEqArgs
      ⟨fun _ => true⟩ 2 1).1 (fun _ => rfl),
   (Tree_count_arithmetic listNodeOps ⟨some [1, 2, 3], 3⟩ ⟨some [3, 4], 2⟩ natArgs natEqArgs
      ⟨fun _ => true⟩ 2 1).2.2.1 (fun _ => rfl)⟩

end treeTheorems

section builderLemmas

set_option linter.unusedSectionVars false

variable {V B T H : Type} [Zero V] [DecidableEq V]

theorem eq_false_symm {eq : V → V → Bool} (heq : IsEquivalence eq) {a b : V}
    (h : eq a b = false) : eq b a = false := by
  cases hb : eq b a
  · rfl
  · rw [heq.symm _ _ hb] at h
    exact absurd h (by simp)

theorem wellFormed_perm {eq : V → V → Bool} (heq : IsEquivalence eq) {S S' : List V}
    (h : S.Perm S') (hw : wellFormed eq S) : wellFormed eq S' := by
  refine ⟨fun e he => hw.1 e (h.mem_iff.2 he), ?_⟩
  exact (List.Perm.pairwise_iff (fun hab => eq_false_symm heq hab) h).1 hw.2

theorem specAdd_perm (args : CombineArgs V) {S S' : List V} (h : S.Perm S') (v : V) :
    (specAdd args S v).Perm (specAdd args S' v) := by
  have hany : S.any (fun e => args.eq e v) = S'.any (fun e => args.eq e v) := by
    rw [Bool.eq_iff_iff]
    simp only [List.any_eq_true]
    exact ⟨fun ⟨e, he, hp⟩ => ⟨e, h.mem_iff.1 he, hp⟩, fun ⟨e, he, hp⟩ => ⟨e, h.mem_iff.2 he, hp⟩⟩
  unfold specAdd
  rw [hany]
  split
  · exact h.map _
  · exact h.append_right _

theorem specRemove_perm (eq : V → V → Bool) {S S' : List V} (h : S.Perm S') (v : V) :
    (specRemove eq S v).Perm (specRemove eq S' v) :=
  h.filter _

theorem wellFormed_specAdd (args : CombineArgs V) (heq : IsEquivalence args.eq)
    (hf0 : ∀ a b, a ≠ 0 → b ≠ 0 → args.f a b ≠ 0)
    (hfe : ∀ a b, args.eq a b = true → args.eq (args.f a b) a = true)
    {S : List V} (hw : wellFormed args.eq S) {v : V} (hv : v ≠ 0) :
    wellFormed args.eq (specAdd args S v) := by
  unfold specAdd
  split
  · refine ⟨?_, ?_⟩
    · intro e he
      obtain ⟨a, ha, rfl⟩ := List.mem_map.1 he
      split
      · exact hf0 a v (hw.1 a ha) hv
      · exact hw.1 a ha
    · refine List.Pairwise.map _ ?_ hw.2
      intro a b hab
      have ga : args.eq (if args.eq a v = true then args.f a v else a) a = true := by
        split
        · exact hfe a v ‹_›
        · exact heq.refl a
      have gb : args.eq (if args.eq b v = true then args.f b v else b) b = true := by
        split
        · exact hfe b v ‹_›
        · exact heq.refl b
      cases hc : args.eq (if args.eq a v = true then args.f a v else a)
          (if args.eq b v = true then args.f b v else b)
      · rfl
      · have := heq.trans _ _ _ (heq.trans _ _ _ (heq.symm _ _ ga) hc) gb
        rw [this] at hab
        exact absurd hab (by simp)
  · rename_i hany
    refine ⟨?_, ?_⟩
    · intro e he
      rcases List.mem_append.1 he with he | he
      · exact hw.1 e he
      · simp at he
        exact he ▸ hv
    · rw [List.pairwise_append]
      refine ⟨hw.2, List.pairwise_singleton _ _, ?_⟩
      intro a ha b hb
      simp at hb
      subst hb
      cases hc : args.eq a b
      · rfl
      · exact absurd (List.any_eq_true.2 ⟨a, ha, hc⟩) hany

theorem wellFormed_specRemove (eq : V → V → Bool) {S : List V} (hw : wellFormed eq S)
    (v : V) : wellFormed eq (specRemove eq S v) :=
  ⟨fun e he => hw.1 e (List.mem_filter.1 he).1, hw.2.sublist (List.filter_sublist _)⟩

theorem wellFormed_slice (eq : V → V → Bool) (l : leaf V) :
    wellFormed eq l.slice ↔ l.data0 ≠ 0 ∧ l.noDup eq := by
  obtain ⟨l0, l1⟩ := l
  by_cases h1 : l1 = 0 <;>
    simp [wellFormed, leaf.noDup, leaf.slice, leaf.count, h1]

theorem leaf_Add_refines (env : Env V B T H) (mops : MutOps V B T H)
    (args : CombineArgs V) (elems : node V B T → List V)
    (hc : MutContract env mops args elems) (heq : IsEquivalence args.eq)
    (hf0 : ∀ a b, a ≠ 0 → b ≠ 0 → args.f a b ≠ 0)
    (l : leaf V) (v : V) (h : H) (hw : wellFormed args.eq l.slice) (hv : v ≠ 0) :
    ∃ r, l.Add env args v 0 h
        = (some r, if l.slice.any (fun e => args.eq e v) then 1 else 0) ∧
      (elemsOf elems r).Perm (specAdd args l.slice v) := by
  have hd : ¬ (0 : Int) ≥ env.maxTreeDepth := not_le.2 hc.depth
  obtain ⟨l0, l1⟩ := l
  by_cases h1 : l1 = 0
  · simp [wellFormed, leaf.slice, leaf.count, h1] at hw
    cases h0 : args.eq l0 v
    · refine ⟨.leaf ⟨l0, v⟩, ?_, ?_⟩
      · simp [leaf.Add, leaf.slice, leaf.count, h1, h0]
      · simp [elemsOf, specAdd, leaf.slice, leaf.count, h1, h0, hv]
    · refine ⟨.leaf ⟨args.f l0 v, l1⟩, ?_, ?_⟩
      · simp [leaf.Add, leaf.slice, leaf.count, h1, h0]
      · simp [elemsOf, specAdd, leaf.slice, leaf.count, h1, h0]
  · simp [wellFormed, leaf.slice, leaf.count, h1] at hw
    obtain ⟨hl0, hl01⟩ := hw
    cases h0 : args.eq l0 v
    · cases h1v : args.eq l1 v
      · refine ⟨.branch (env.newBranchFrom 0 [l0, l1, v]), ?_, ?_⟩
        · simp [leaf.Add, leaf.slice, leaf.count, h1, h0, h1v, hd]
        · have hp := hc.newBranch l0 l1 v (by
            simp [wellFormed, hl0, h1, hv, hl01, h0, h1v])
          simpa [elemsOf, specAdd, leaf.slice, leaf.count, h1, h0, h1v] using hp
      · refine ⟨.leaf ⟨l0, args.f l1 v⟩, ?_, ?_⟩
        · simp [leaf.Add, leaf.slice, leaf.count, h1, h0, h1v]
        · simp [elemsOf, specAdd, leaf.slice, leaf.count, h1, h0, h1v, hf0 l1 v h1 hv]
    · have h1v : args.eq l1 v = false := by
        cases hc1 : args.eq l1 v
        · rfl
        · have := heq.trans _ _ _ h0 (heq.symm _ _ hc1)
          rw [this] at hl01
          exact absurd hl01 (by simp)
      refine ⟨.leaf ⟨args.f l0 v, l1⟩, ?_, ?_⟩
      · simp [leaf.Add, leaf.slice, leaf.count, h1, h0]
      · simp [elemsOf, specAdd, leaf.slice, leaf.count, h1, h0, h1v]

theorem leaf_Remove_refines (args : EqArgs V) (elems : node V B T → List V)
    (heq : IsEquivalence args.eq) (l : leaf V) (v : V) (h : H)
    (hw : wellFormed args.eq l.slice) :
    ∃ r : Option (node V B T), l.Remove args v 0 h
        = (r, l.slice.length - (specRemove args.eq l.slice v).length) ∧
      (heldBy elems r).Perm (specRemove args.eq l.slice v) ∧
      (r = none ↔ specRemove args.eq l.slice v = []) := by
  obtain ⟨l0, l1⟩ := l
  by_cases h1 : l1 = 0
  · cases h0 : args.eq l0 v
    · refine ⟨some (.leaf ⟨l0, l1⟩), ?_, ?_, ?_⟩ <;>
        simp [leaf.Remove, heldBy, elemsOf, specRemove, leaf.slice, leaf.count, h1, h0]
    · refine ⟨none, ?_, ?_, ?_⟩ <;>
        simp [leaf.Remove, heldBy, elemsOf, specRemove, leaf.slice, leaf.count, h1, h0]
  · simp [wellFormed, leaf.slice, leaf.count, h1] at hw
    obtain ⟨hl0, hl01⟩ := hw
    cases h0 : args.eq l0 v
    · cases h1v : args.eq l1 v
      · refine ⟨some (.leaf ⟨l0, l1⟩), ?_, ?_, ?_⟩ <;>
          simp [leaf.Remove, heldBy, elemsOf, specRemove, leaf.slice, leaf.count, h1, h0, h1v]
      · refine ⟨some (.leaf ⟨l0, 0⟩), ?_, ?_, ?_⟩ <;>
          simp [leaf.Remove, heldBy, elemsOf, specRemove, leaf.slice, leaf.count, h1, h0, h1v]
    · have h1v : args.eq l1 v = false := by
        cases hc1 : args.eq l1 v
        · rfl
        · have := heq.trans _ _ _ h0 (heq.symm _ _ hc1)
          rw [this] at hl01
          exact absurd hl01 (by simp)
      refine ⟨some (.leaf ⟨l1, 0⟩), ?_, ?_, ?_⟩ <;>
        simp [leaf.Remove, heldBy, elemsOf, specRemove, leaf.slice, leaf.count, h1, h0, h1v]

theorem leaf_slice_ne_nil (l : leaf V) : l.slice ≠ [] := by
  obtain ⟨l0, l1⟩ := l
  by_cases h1 : l1 = 0 <;> simp [leaf.slice, leaf.count, h1]

theorem node_Add_refines (env : Env V B T H) (mops : MutOps V B T H)
    (args : CombineArgs V) (elems : node V B T → List V)
    (hc : MutContract env mops args elems) (heq : IsEquivalence args.eq)
    (hf0 : ∀ a b, a ≠ 0 → b ≠ 0 → args.f a b ≠ 0)
    (n : node V B T) (v : V) (hw : wellFormed args.eq (elemsOf elems n))
    (hne : elemsOf elems n ≠ []) (hv : v ≠ 0) :
    ∃ r, n.Add env mops args v 0 (env.newHasher v 0)
        = .ok (some r, if (elemsOf elems n).any (fun e => args.eq e v) then 1 else 0) ∧
      (elemsOf elems r).Perm (specAdd args (elemsOf elems n) v) := by
  cases n with
  | leaf l =>
    obtain ⟨r, hr, hp⟩ := leaf_Add_refines env mops args elems hc heq hf0 l v
      (env.newHasher v 0) hw hv
    exact ⟨r, by simp [node.Add, hr, elemsOf], hp⟩
  | branch b => exact hc.add (.branch b) v trivial hw hne hv
  | twig t => exact hc.add (.twig t) v trivial hw hne hv

theorem node_Remove_refines (env : Env V B T H) (mops : MutOps V B T H)
    (args : CombineArgs V) (elems : node V B T → List V)
    (hc : MutContract env mops args elems) (heq : IsEquivalence args.eq)
    (n : node V B T) (v : V) (hw : wellFormed args.eq (elemsOf elems n))
    (hne : elemsOf elems n ≠ []) :
    ∃ r, n.Remove mops args.toEqArgs v 0 (env.newHasher v 0)
        = .ok (r, (elemsOf elems n).length
            - (specRemove args.eq (elemsOf elems n) v).length) ∧
      (heldBy elems r).Perm (specRemove args.eq (elemsOf elems n) v) ∧
      (r = none ↔ specRemove args.eq (elemsOf elems n) v = []) := by
  cases n with
  | leaf l =>
    obtain ⟨r, hr, hp⟩ := leaf_Remove_refines args.toEqArgs elems heq l v
      (env.newHasher v 0) hw
    refine ⟨r, ?_, hp⟩
    simp only [node.Remove, elemsOf]
    exact congrArg Except.ok hr
  | branch b => exact hc.remove (.branch b) v trivial hw hne
  | twig t => exact hc.remove (.twig t) v trivial hw hne

theorem Builder_Add_refines (env : Env V B T H) (mops : MutOps V B T H)
    (args : CombineArgs V) (elems : node V B T → List V)
    (hc : MutContract env mops args elems) (heq : IsEquivalence args.eq)
    (hf0 : ∀ a b, a ≠ 0 → b ≠ 0 → args.f a b ≠ 0)
    (hfe : ∀ a b, args.eq a b = true → args.eq (args.f a b) a = true)
    (b : Builder V B T) (S : List V) (hb : b.holds args elems S) (v : V) (hv : v ≠ 0) :
    ∃ b1, b.Add env mops args v = .ok b1 ∧ b1.holds args elems (specAdd args S v) := by
  obtain ⟨hp, hw, hcnt, hnil⟩ := hb
  have hw' := wellFormed_specAdd args heq hf0 hfe hw hv
  have hne' : specAdd args S v ≠ [] := by
    unfold specAdd
    split
    · rename_i hany
      obtain ⟨e, he, -⟩ := List.any_eq_true.1 hany
      intro hm
      have := List.map_eq_nil_iff.1 hm
      rw [this] at he
      simp at he
    · simp
  obtain ⟨⟨root, count⟩⟩ := b
  cases root with
  | none =>
    have hS : S = [] := hnil.1 rfl
    subst hS
    refine ⟨⟨⟨some (.leaf ⟨v, 0⟩), 1⟩⟩, ?_, ?_, hw', ?_, ?_⟩
    · simp [Builder.Add, newLeaf1, newLeaf2, hv, Except.map]
    · simp [heldBy, elemsOf, specAdd, leaf.slice, leaf.count]
    · simp [specAdd]
    · simp [specAdd]
  | some n =>
    have hwn : wellFormed args.eq (elemsOf elems n) := wellFormed_perm heq hp.symm hw
    have hnn : elemsOf elems n ≠ [] := by
      intro hn
      have hS : S = [] := by
        have := hp.length_eq
        simp [heldBy, hn] at this
        exact List.length_eq_zero.1 this.symm
      exact absurd (hnil.2 hS) (by simp)
    obtain ⟨r, hr, hpr⟩ := node_Add_refines env mops args elems hc heq hf0 n v hwn hnn hv
    have hpS : (elemsOf elems r).Perm (specAdd args S v) := hpr.trans (specAdd_perm args hp v)
    have hany : (elemsOf elems n).any (fun e => args.eq e v) = S.any (fun e => args.eq e v) := by
      rw [Bool.eq_iff_iff]
      simp only [List.any_eq_true]
      exact ⟨fun ⟨e, he, hq⟩ => ⟨e, hp.mem_iff.1 he, hq⟩,
        fun ⟨e, he, hq⟩ => ⟨e, hp.mem_iff.2 he, hq⟩⟩
    refine ⟨⟨⟨some r, count + (1 - ((if (elemsOf elems n).any (fun e => args.eq e v)
      then 1 else 0 : Nat) : Int))⟩⟩, ?_, hpS, hw', ?_, ?_⟩
    · simp [Builder.Add, hr, Except.map]
    · simp only at hcnt
      rw [hany, hcnt]
      unfold specAdd
      split <;> simp
    · simp [hne']

theorem Builder_Remove_refines (env : Env V B T H) (mops : MutOps V B T H)
    (args : CombineArgs V) (elems : node V B T → List V)
    (hc : MutContract env mops args elems) (heq : IsEquivalence args.eq)
    (b : Builder V B T) (S : List V) (hb : b.holds args elems S) (v : V) :
    ∃ b1, b.Remove env mops args.toEqArgs v = .ok b1 ∧
      b1.holds args elems (specRemove args.eq S v) := by
  obtain ⟨hp, hw, hcnt, hnil⟩ := hb
  have hw' := wellFormed_specRemove args.eq hw v
  obtain ⟨⟨root, count⟩⟩ := b
  cases root with
  | none =>
    have hS : S = [] := hnil.1 rfl
    subst hS
    refine ⟨⟨⟨none, count⟩⟩, ?_, ?_, hw', ?_, ?_⟩
    · simp [Builder.Remove]
    · simp [heldBy, specRemove]
    · simpa [specRemove] using hcnt
    · simp [specRemove]
  | some n =>
    have hwn : wellFormed args.eq (elemsOf elems n) := wellFormed_perm heq hp.symm hw
    have hnn : elemsOf elems n ≠ [] := by
      intro hn
      have hS : S = [] := by
        have := hp.length_eq
        simp [heldBy, hn] at this
        exact List.length_eq_zero.1 this.symm
      exact absurd (hnil.2 hS) (by simp)
    obtain ⟨r, hr, hpr, hrn⟩ := node_Remove_refines env mops args elems hc heq n v hwn hnn
    have hpf : (specRemove args.eq (elemsOf elems n) v).Perm (specRemove args.eq S v) :=
      specRemove_perm args.eq hp v
    refine ⟨⟨⟨r, count - (((elemsOf elems n).length
      - (specRemove args.eq (elemsOf elems n) v).length : Nat) : Int)⟩⟩, ?_,
      hpr.trans hpf, hw', ?_, ?_⟩
    · simp [Builder.Remove, hr, Except.map]
    · simp only at hcnt
      have h1 : (elemsOf elems n).length = S.length := hp.length_eq
      have h2 := hpf.length_eq
      have h3 : (specRemove args.eq S v).length ≤ S.length := List.length_filter_le _ _
      show count - (((elemsOf elems n).length
        - (specRemove args.eq (elemsOf elems n) v).length : Nat) : Int)
          = ((specRemove args.eq S v).length : Int)
      rw [h1, h2, hcnt]
      omega
    · simp only
      rw [hrn]
      constructor
      · intro h0
        exact List.length_eq_zero.1 (by rw [← hpf.length_eq, h0]; rfl)
      · intro h0
        exact List.length_eq_zero.1 (by rw [hpf.length_eq, h0]; rfl)

theorem Builder_runFrom_refines (env : Env V B T H) (mops : MutOps V B T H)
    (args : CombineArgs V) (elems : node V B T → List V)
    (hc : MutContract env mops args elems) (heq : IsEquivalence args.eq)
    (hf0 : ∀ a b, a ≠ 0 → b ≠ 0 → args.f a b ≠ 0)
    (hfe : ∀ a b, args.eq a b = true → args.eq (args.f a b) a = true)
    (ops : List (Op V)) (hops : addsNonZero ops) (b : Builder V B T) (S : List V)
    (hb : b.holds args elems S) :
    ∃ b1, Builder.runFrom env mops args b ops = .ok b1 ∧
      b1.holds args elems (specRun args S ops) := by
  induction ops generalizing b S with
  | nil => exact ⟨b, rfl, hb⟩
  | cons o rest ih =>
    have hrest : addsNonZero rest := fun v hv => hops v (List.mem_cons_of_mem _ hv)
    cases o with
    | add v =>
      obtain ⟨b1, h1, hb1⟩ := Builder_Add_refines env mops args elems hc heq hf0 hfe b S hb v
        (hops v (List.mem_cons_self _ _))
      obtain ⟨b2, h2, hb2⟩ := ih hrest b1 _ hb1
      exact ⟨b2, by simp [Builder.runFrom, Builder.step, h1, h2], hb2⟩
    | remove v =>
      obtain ⟨b1, h1, hb1⟩ := Builder_Remove_refines env mops args elems hc heq b S hb v
      obtain ⟨b2, h2, hb2⟩ := ih hrest b1 _ hb1
      exact ⟨b2, by simp [Builder.runFrom, Builder.step, h1, h2], hb2⟩

theorem Builder_empty_holds (args : CombineArgs V) (elems : node V B T → List V) :
    (Builder.empty : Builder V B T).holds args elems [] := by
  simp [Builder.holds, Builder.empty, heldBy, wellFormed]

theorem Builder_run_refines (env : Env V B T H) (mops : MutOps V B T H)
    (args : CombineArgs V) (elems : node V B T → List V)
    (hc : MutContract env mops args elems) (heq : IsEquivalence args.eq)
    (hf0 : ∀ a b, a ≠ 0 → b ≠ 0 → args.f a b ≠ 0)
    (hfe : ∀ a b, args.eq a b = true → args.eq (args.f a b) a = true)
    (ops : List (Op V)) (hops : addsNonZero ops) :
    ∃ b, Builder.run env mops args ops = .ok b ∧
      b.holds args elems (specRun args [] ops) :=
  Builder_runFrom_refines env mops args elems hc heq hf0 hfe ops hops _ _
    (Builder_empty_holds args elems)

theorem exists_eq_specAdd (args : CombineArgs V) (heq : IsEquivalence args.eq)
    (hfe : ∀ a b, args.eq a b = true → args.eq (args.f a b) a = true)
    (S : List V) (v x : V) :
    (∃ e ∈ specAdd args S v, args.eq e x = true) ↔
      args.eq v x = true ∨ ∃ e ∈ S, args.eq e x = true := by
  unfold specAdd
  split
  · rename_i hany
    obtain ⟨e0, he0, h0⟩ := List.any_eq_true.1 hany
    constructor
    · rintro ⟨e, he, hx⟩
      obtain ⟨a, ha, rfl⟩ := List.mem_map.1 he
      by_cases hav : args.eq a v = true
      · rw [if_pos hav] at hx
        exact Or.inr ⟨a, ha, heq.trans _ _ _ (heq.symm _ _ (hfe a v hav)) hx⟩
      · rw [if_neg hav] at hx
        exact Or.inr ⟨a, ha, hx⟩
    · rintro (hv | ⟨a, ha, hx⟩)
      · refine ⟨_, List.mem_map.2 ⟨e0, he0, rfl⟩, ?_⟩
        rw [if_pos h0]
        exact heq.trans _ _ _ (hfe e0 v h0) (heq.trans _ _ _ h0 hv)
      · refine ⟨_, List.mem_map.2 ⟨a, ha, rfl⟩, ?_⟩
        by_cases hav : args.eq a v = true
        · rw [if_pos hav]
          exact heq.trans _ _ _ (hfe a v hav) hx
        · rw [if_neg hav]
          exact hx
  · constructor
    · rintro ⟨e, he, hx⟩
      rcases List.mem_append.1 he with he | he
      · exact Or.inr ⟨e, he, hx⟩
      · simp at he
        subst he
        exact Or.inl hx
    · rintro (hv | ⟨a, ha, hx⟩)
      · exact ⟨v, by simp, hv⟩
      · exact ⟨a, List.mem_append_left _ ha, hx⟩

theorem exists_eq_specRemove (eq : V → V → Bool) (heq : IsEquivalence eq)
    (S : List V) (v x : V) :
    (∃ e ∈ specRemove eq S v, eq e x = true) ↔
      (∃ e ∈ S, eq e x = true) ∧ eq v x = false := by
  unfold specRemove
  constructor
  · rintro ⟨e, he, hx⟩
    obtain ⟨hS, hev⟩ := List.mem_filter.1 he
    refine ⟨⟨e, hS, hx⟩, ?_⟩
    cases hvx : eq v x
    · rfl
    · have := heq.trans _ _ _ hx (heq.symm _ _ hvx)
      simp [this] at hev
  · rintro ⟨⟨e, hS, hx⟩, hvx⟩
    refine ⟨e, List.mem_filter.2 ⟨hS, ?_⟩, hx⟩
    cases hev : eq e v
    · rfl
    · have := heq.trans _ _ _ (heq.symm _ _ hev) hx
      rw [this] at hvx
      exact absurd hvx (by simp)

theorem latestFrom_isSome (args : CombineArgs V) (heq : IsEquivalence args.eq)
    (hfe : ∀ a b, args.eq a b = true → args.eq (args.f a b) a = true)
    (x : V) (ops : List (Op V)) (S : List V) (acc : Option V)
    (h : acc.isSome = true ↔ ∃ e ∈ S, args.eq e x = true) :
    (latestFrom args.eq acc ops x).isSome = true ↔
      ∃ e ∈ specRun args S ops, args.eq e x = true := by
  induction ops generalizing S acc with
  | nil => exact h
  | cons o rest ih =>
    cases o with
    | add v =>
      simp only [latestFrom, specRun, specStep]
      apply ih
      rw [exists_eq_specAdd args heq hfe]
      by_cases hv : args.eq v x = true
      · simp [hv]
      · simp [hv, h]
    | remove v =>
      simp only [latestFrom, specRun, specStep]
      apply ih
      rw [exists_eq_specRemove args.eq heq]
      by_cases hv : args.eq v x = true
      · simp [hv]
      · simp [hv, h]

theorem latestFrom_useRHS (args : CombineArgs V) (heq : IsEquivalence args.eq)
    (hf : args.f = UseRHS) (x : V) (ops : List (Op V)) (S : List V) (acc : Option V)
    (h : ∀ e ∈ S, args.eq e x = true → acc = some e) :
    ∀ e ∈ specRun args S ops, args.eq e x = true → latestFrom args.eq acc ops x = some e := by
  induction ops generalizing S acc with
  | nil => exact h
  | cons o rest ih =>
    cases o with
    | add v =>
      simp only [latestFrom, specRun, specStep]
      apply ih
      intro e he hx
      have hcase : e = v ∨ (e ∈ S ∧ args.eq e v = false) := by
        unfold specAdd at he
        split at he
        · obtain ⟨a, ha, rfl⟩ := List.mem_map.1 he
          by_cases hav : args.eq a v = true
          · left
            simp [hav, hf, UseRHS]
          · right
            simp only [hav]
            exact ⟨ha, by simpa using hav⟩
        · rename_i hany
          rcases List.mem_append.1 he with he | he
          · right
            refine ⟨he, ?_⟩
            cases hc : args.eq e v
            · rfl
            · exact absurd (List.any_eq_true.2 ⟨e, he, hc⟩) hany
          · left
            simpa using he
      rcases hcase with rfl | ⟨heS, hev⟩
      · simp [hx]
      · have hvx : args.eq v x = false := by
          cases hc : args.eq v x
          · rfl
          · have := heq.trans _ _ _ hx (heq.symm _ _ hc)
            rw [this] at hev
            exact absurd hev (by simp)
        simp [hvx, h e heS hx]
    | remove v =>
      simp only [latestFrom, specRun, specStep]
      apply ih
      intro e he hx
      obtain ⟨heS, hev⟩ := List.mem_filter.1 he
      have hvx : args.eq v x = false := by
        cases hc : args.eq v x
        · rfl
        · have := heq.trans _ _ _ hx (heq.symm _ _ hc)
          simp [this] at hev
      simp [hvx, h e heS hx]

theorem node_Get_sound (env : Env V B T H) (args : CombineArgs V)
    (elems : node V B T → List V) (hget : GetContract env args elems)
    (n : node V B T) (x : V) (hw : wellFormed args.eq (elemsOf elems n)) :
    (∀ e, n.Get env args.toEqArgs x (env.newHasher x 0) = some e →
      e ∈ elemsOf elems n ∧ args.eq e x = true) ∧
    (n.Get env args.toEqArgs x (env.newHasher x 0) = none →
      ∀ e ∈ elemsOf elems n, args.eq e x = false) := by
  cases n with
  | leaf l =>
    simp only [node.Get, leaf.Get, elemsOf, CombineArgs.toEqArgs]
    refine ⟨fun e he => ⟨List.mem_of_find?_eq_some he, ?_⟩, fun hn e he => ?_⟩
    · simpa using List.find?_some he
    · have := List.find?_eq_none.1 hn e he
      simpa using this
  | branch b =>
    have hg := hget (.branch b) x trivial hw
    refine ⟨fun e he => ?_, fun hn => ?_⟩
    · rw [he] at hg
      exact hg
    · rw [hn] at hg
      exact hg
  | twig t =>
    have hg := hget (.twig t) x trivial hw
    refine ⟨fun e he => ?_, fun hn => ?_⟩
    · rw [he] at hg
      exact hg
    · rw [hn] at hg
      exact hg

theorem Builder_Get_of_holds (env : Env V B T H) (args : CombineArgs V)
    (elems : node V B T → List V) (hget : GetContract env args elems)
    (b : Builder V B T) (S : List V) (hb : b.holds args elems S) (x : V)
    (heq : IsEquivalence args.eq) :
    (∀ e, b.Get env args.toEqArgs x = some e → e ∈ S ∧ args.eq e x = true) ∧
    (b.Get env args.toEqArgs x = none → ∀ e ∈ S, args.eq e x = false) := by
  obtain ⟨hp, hw, -, hnil⟩ := hb
  obtain ⟨⟨root, count⟩⟩ := b
  cases root with
  | none =>
    have hS : S = [] := hnil.1 rfl
    subst hS
    simp [Builder.Get, Tree.Get]
  | some n =>
    have hwn : wellFormed args.eq (elemsOf elems n) := wellFormed_perm heq hp.symm hw
    obtain ⟨h1, h2⟩ := node_Get_sound env args elems hget n x hwn
    refine ⟨fun e he => ?_, fun hn e he => ?_⟩
    · obtain ⟨hm, hx⟩ := h1 e he
      exact ⟨hp.mem_iff.1 hm, hx⟩
    · exact h2 hn e (hp.mem_iff.2 he)

end builderLemmas

theorem recording_MutContract (args : CombineArgs Nat) :
    MutContract recordingEnv recordingMutOps args recordingElems where
  depth := by decide
  newBranch := fun a b c _ => List.Perm.refl _
  add := by
    intro n v hn _ _ _
    cases n with
    | leaf l => exact absurd hn (by simp [node.notLeaf])
    | branch b => exact ⟨_, rfl, List.Perm.refl _⟩
    | twig t => exact ⟨_, rfl, List.Perm.refl _⟩
  remove := by
    intro n v hn _ _
    cases n with
    | leaf l => exact absurd hn (by simp [node.notLeaf])
    | branch b =>
      refine ⟨_, rfl, ?_, ?_⟩
      · simp only [recordedRemove, CombineArgs.toEqArgs]
        split <;> simp_all [heldBy, elemsOf, recordingElems]
      · simp only [recordedRemove, CombineArgs.toEqArgs]
        split <;> simp_all [recordingElems]
    | twig t =>
      refine ⟨_, rfl, ?_, ?_⟩
      · simp only [recordedRemove, CombineArgs.toEqArgs]
        split <;> simp_all [heldBy, elemsOf, recordingElems]
      · simp only [recordedRemove, CombineArgs.toEqArgs]
        split <;> simp_all [recordingElems]

theorem recording_GetContract (args : CombineArgs Nat) :
    GetContract recordingEnv args recordingElems := by
  intro n x hn _
  cases n with
  | leaf l => exact absurd hn (by simp [node.notLeaf])
  | branch b =>
    have hg : node.Get recordingEnv (node.branch b) args.toEqArgs x
        (recordingEnv.newHasher x 0) = b.2.find? (fun e => args.eq e x) := rfl
    rw [hg]
    split
    · rename_i e hf
      exact ⟨List.mem_of_find?_eq_some hf, by simpa using List.find?_some hf⟩
    · rename_i hf
      intro e he
      simpa using List.find?_eq_none.1 hf e he
  | twig t =>
    have hg : node.Get recordingEnv (node.twig t) args.toEqArgs x
        (recordingEnv.newHasher x 0) = t.find? (fun e => args.eq e x) := rfl
    rw [hg]
    split
    · rename_i e hf
      exact ⟨List.mem_of_find?_eq_some hf, by simpa using List.find?_some hf⟩
    · rename_i hf
      intro e he
      simpa using List.find?_eq_none.1 hf e he

theorem redundantCalls_addsNonZero : addsNonZero redundantCalls := by
  intro v hv
  simp [redundantCalls] at hv
  omega

theorem natArgs_nonzero : ∀ a b : Nat, a ≠ 0 → b ≠ 0 → natArgs.f a b ≠ 0 := by
  intro a b _ hb
  simpa [natArgs, UseRHS] using hb

theorem natArgs_merge_eq : ∀ a b : Nat, natArgs.eq a b = true →
    natArgs.eq (natArgs.f a b) a = true := by
  intro a b h
  simp [natArgs, UseRHS] at h ⊢
  exact h.symm

theorem addThenRemove_addsNonZero : addsNonZero addThenRemove := by
  intro v hv
  simp [addThenRemove] at hv
  obtain ⟨i, -, rfl⟩ := hv
  simp

section builderTheorems

set_option linter.unusedSectionVars false

variable {V B T H : Type} [Zero V] [DecidableEq V]

/-- C14: for every sequence of `Builder.Add` and `Builder.Remove` calls from the
empty builder (adding elements proper, `eq` an equivalence, `args.f` returning
a non-zero element eq to its arguments, and the branch and twig code behaving
as `MutContract` says), the calls all return, `Count()` is the number of
elements the root holds, these are pairwise not eq, and the count is 0 exactly
when the root is nil.  Step by step: `Add` on a nil root makes the 1-leaf of `v`
with count 1, every other `Add` changes the count by `1 - matches`, every
`Remove` by `-matches`, and `Remove` on a nil root changes nothing. -/
theorem Builder_count_invariant (env : Env V B T H) (mops : MutOps V B T H)
    (args : CombineArgs V) (elems : node V B T → List V)
    (hc : MutContract env mops args elems) (heq : IsEquivalence args.eq)
    (hf0 : ∀ a b, a ≠ 0 → b ≠ 0 → args.f a b ≠ 0)
    (hfe : ∀ a b, args.eq a b = true → args.eq (args.f a b) a = true)
    (ops : List (Op V)) (hops : addsNonZero ops) :
    (∃ b, Builder.run env mops args ops = .ok b ∧
      b.Count = (heldBy elems b.t.root).length ∧
      wellFormed args.eq (heldBy elems b.t.root) ∧
      (b.Count = 0 ↔ b.t.root = none)) ∧
    (∀ (count : Int) (v : V), v ≠ 0 →
      Builder.Add env mops ⟨⟨none, count⟩⟩ args v = .ok ⟨⟨some (.leaf ⟨v, 0⟩), 1⟩⟩) ∧
    (∀ (root : node V B T) (count : Int) (v : V) (r : Option (node V B T)) (m : Nat),
      root.Add env mops args v 0 (env.newHasher v 0) = .ok (r, m) →
      Builder.Add env mops ⟨⟨some root, count⟩⟩ args v = .ok ⟨⟨r, count + (1 - m)⟩⟩) ∧
    (∀ (root : node V B T) (count : Int) (v : V) (r : Option (node V B T)) (m : Nat),
      root.Remove mops args.toEqArgs v 0 (env.newHasher v 0) = .ok (r, m) →
      Builder.Remove env mops ⟨⟨some root, count⟩⟩ args.toEqArgs v = .ok ⟨⟨r, count - m⟩⟩) ∧
    (∀ (count : Int) (v : V),
      Builder.Remove env mops ⟨⟨none, count⟩⟩ args.toEqArgs v = .ok ⟨⟨none, count⟩⟩) := by
  refine ⟨?_, ?_, ?_, ?_, ?_⟩
  · obtain ⟨b, hrun, hp, hw, hcnt, hnil⟩ :=
      Builder_run_refines env mops args elems hc heq hf0 hfe ops hops
    refine ⟨b, hrun, ?_, wellFormed_perm heq hp.symm hw, ?_⟩
    · rw [Builder.Count, hcnt, hp.length_eq]
    · rw [Builder.Count, hcnt, hnil]
      simp
  · intro count v hv
    simp [Builder.Add, newLeaf1, newLeaf2, hv, Except.map]
  · intro root count v r m h
    simp [Builder.Add, h, Except.map]
  · intro root count v r m h
    simp [Builder.Remove, h, Except.map]
  · intro count v
    simp [Builder.Remove]

/-- C15: for every sequence of `Add` and `Remove` calls on a builder (adding
elements proper, `eq` an equivalence, `args.f` returning a non-zero element eq
to its arguments, the branch and twig code behaving as `MutContract` and
`GetContract` say), after every number `k` of calls the calls have returned
and, for every `x`, `Get(x)` finds an element exactly when the most recent call
on an element eq to `x` was an `Add`; with the use-right merge function the
element found is the one that `Add` supplied; and the finished tree answers
`Get` as the builder does. -/
theorem Builder_Get_latest (env : Env V B T H) (mops : MutOps V B T H)
    (args : CombineArgs V) (elems : node V B T → List V)
    (hc : MutContract env mops args elems) (hget : GetContract env args elems)
    (heq : IsEquivalence args.eq)
    (hf0 : ∀ a b, a ≠ 0 → b ≠ 0 → args.f a b ≠ 0)
    (hfe : ∀ a b, args.eq a b = true → args.eq (args.f a b) a = true)
    (ops : List (Op V)) (hops : addsNonZero ops) (k : Nat) :
    ∃ b, Builder.run env mops args (ops.take k) = .ok b ∧ ∀ x,
      ((b.Get env args.toEqArgs x).isSome = (latest args.eq (ops.take k) x).isSome) ∧
      (args.f = UseRHS → b.Get env args.toEqArgs x = latest args.eq (ops.take k) x) ∧
      b.Finish.1.Get env args.toEqArgs x = b.Get env args.toEqArgs x := by
  have hk : addsNonZero (ops.take k) := fun v hv => hops v (List.mem_of_mem_take hv)
  obtain ⟨b, hrun, hb⟩ := Builder_run_refines env mops args elems hc heq hf0 hfe _ hk
  refine ⟨b, hrun, fun x => ?_⟩
  obtain ⟨h1, h2⟩ := Builder_Get_of_holds env args elems hget b _ hb x heq
  have hsome := latestFrom_isSome args heq hfe x (ops.take k) [] none (by simp)
  refine ⟨?_, fun hf => ?_, rfl⟩
  · rw [Bool.eq_iff_iff, latest, hsome]
    constructor
    · intro hg
      obtain ⟨e, he⟩ := Option.isSome_iff_exists.1 hg
      exact ⟨e, h1 e he⟩
    · rintro ⟨e, he, hx⟩
      cases hg : b.Get env args.toEqArgs x with
      | some e1 => rfl
      | none =>
        have := h2 hg e he
        rw [this] at hx
        exact absurd hx (by simp)
  · cases hg : b.Get env args.toEqArgs x with
    | some e =>
      obtain ⟨he, hx⟩ := h1 e hg
      exact (latestFrom_useRHS args heq hf x (ops.take k) [] none (by simp) e he hx).symm
    | none =>
      cases hl : latest args.eq (ops.take k) x with
      | none => rfl
      | some e1 =>
        have hs : (latestFrom args.eq none (ops.take k) x).isSome = true := by
          rw [← latest, hl]
          rfl
        obtain ⟨e, he, hx⟩ := hsome.1 hs
        have := h2 hg e he
        rw [this] at hx
        exact absurd hx (by simp)

/-- C14, on the calls of `TestSetBuilderRemove` in the recording environment:
fifteen adds and five removes leave count 10 and a non-nil root. -/
theorem Builder_count_invariant_witness :
    ∃ b, Builder.run recordingEnv recordingMutOps natArgs addThenRemove = .ok b ∧
      b.Count = 10 ∧ b.Count = (heldBy recordingElems b.t.root).length ∧
      (b.Count = 0 ↔ b.t.root = none) := by
  obtain ⟨b, hrun, hcount, -, hnil⟩ :=
    (Builder_count_invariant recordingEnv recordingMutOps natArgs recordingElems
      (recording_MutContract natArgs) natArgs_equivalence natArgs_nonzero natArgs_merge_eq
      addThenRemove addThenRemove_addsNonZero).1
  refine ⟨b, hrun, ?_, hcount, hnil⟩
  have hten : (Builder.run recordingEnv recordingMutOps natArgs addThenRemove).map
      Builder.Count = .ok 10 := by rfl
  rw [hrun] at hten
  simpa [Except.map] using hten

/-- C15, on `redundantCalls` in the recording environment: after six calls 1 and
3 are found, and 2, removed after its second add, and the absent 7 are not. -/
theorem Builder_Get_latest_witness :
    ∃ b, Builder.run recordingEnv recordingMutOps natArgs (redundantCalls.take 6) = .ok b ∧
      b.Get recordingEnv natArgs.toEqArgs 1 = some 1 ∧
      b.Get recordingEnv natArgs.toEqArgs 3 = some 3 ∧
      b.Get recordingEnv natArgs.toEqArgs 2 = none ∧
      b.Get recordingEnv natArgs.toEqArgs 7 = none := by
  obtain ⟨b, hrun, h⟩ :=
    Builder_Get_latest recordingEnv recordingMutOps natArgs recordingElems
      (recording_MutContract natArgs) (recording_GetContract natArgs) natArgs_equivalence
      natArgs_nonzero natArgs_merge_eq redundantCalls redundantCalls_addsNonZero 6
  refine ⟨b, hrun, ?_, ?_, ?_, ?_⟩
  · rw [(h 1).2.1 rfl]; rfl
  · rw [(h 3).2.1 rfl]; rfl
  · rw [(h 2).2.1 rfl]; rfl
  · rw [(h 7).2.1 rfl]; rfl

end builderTheorems

section sharingTheorems

set_option linter.unusedSectionVars false

variable {V B T H N H2 : Type} [Zero V] [DecidableEq V]

/-- C16: `Builder.Finish` returns the tree `Borrow` returns (same root, same
count) and leaves the empty builder (`Count()` 0, nil root), from which later
calls start afresh; finishing the empty builder gives the empty tree. -/
theorem Builder_Finish_spec (b : Builder V B T) :
    b.Finish.1 = b.Borrow ∧ b.Finish.1.root = b.t.root ∧ b.Finish.1.count = b.t.count ∧
    b.Finish.2.Count = 0 ∧ b.Finish.2.t.root = none ∧
    b.Finish.2 = (Builder.empty : Builder V B T) ∧
    (Builder.empty : Builder V B T).Finish.1 = ⟨none, 0⟩ := by
  simp [Builder.Finish, Builder.Borrow, Builder.Count, Builder.empty]

theorem packer_set_self (p : packer N) (i : Nat) (x : Option N)
    (h : p[i]? = some x) : p.set i x = p := by
  apply List.ext_getElem?
  intro j
  by_cases hj : i = j
  · subst hj
    rw [List.getElem?_set]
    have hi : i < p.length := by
      by_contra hn
      rw [List.getElem?_eq_none (not_lt.1 hn)] at h
      exact absurd h (by simp)
    simp [hi, h]
  · rw [List.getElem?_set]
    simp [hj]

theorem packer_Get_of_some (ops : NodeOps V N H2) (p : packer N) (i : Nat) (child : N)
    (h : p[i]? = some (some child)) : p.Get ops i = child := by
  simp [packer.Get, List.getD_eq_getElem?_getD, h]

/-- C17 (as stated, refuted): the leaf (1, 2) lives at address 0 and the next
free address is 1; with the use-left merge function, `With(2)` returns a leaf
with the contents (1, 2) at the new address 1, not the receiver at address 0.
Likewise `branch.With` returns a branch at the new address. -/
theorem With_useLHS_allocates :
    leaf.WithAt recordingEnv 1 ⟨1, 2⟩ ⟨fun a b => a == b, UseLHS⟩ 2 0 (2, 0)
      = .ok (.leaf 1 ⟨1, 2⟩, 1) ∧
    (∀ p, p < 1 →
      leaf.WithAt recordingEnv 1 ⟨1, 2⟩ ⟨fun a b => a == b, UseLHS⟩ 2 0 (2, 0)
        ≠ .ok (.leaf p ⟨1, 2⟩, 1)) ∧
    branch.WithAt listNodeOps 1 ⟨[some [1, 2], none, none, none]⟩
      ⟨fun a b => a == b, UseLHS⟩ 2 0 () 0
      = ((1, ⟨[some [1, 2], none, none, none]⟩), 1) := by
  refine ⟨rfl, fun p hp h => ?_, rfl⟩
  have h1 : leaf.WithAt recordingEnv 1 ⟨1, 2⟩ ⟨fun a b => a == b, UseLHS⟩ 2 0 (2, 0)
      = .ok (.leaf 1 ⟨1, 2⟩, 1) := rfl
  rw [h1] at h
  injection h with h
  injection h with h
  injection h with h
  omega

/-- C17 (amended): redundant insert with the use-left merge function returns a
node with the contents of the receiver and matches 1, in a newly allocated
struct.  For a leaf that passes `Vet` and holds an element eq to `v`,
`leaf.With` returns a leaf with the receiver's contents, at the address
`newLeaf2` allocates.  For a branch whose slot `h.hash()` holds `child`,
whenever `child.With` returns that same child and adds 1 to the counter,
`branch.With` returns a branch with the receiver's contents and the counter
raised by 1, at the address `&branch{...}` allocates. -/
theorem With_useLHS_shares (env : Env V B T H) (ops : NodeOps V N H2) :
    (∀ (l : leaf V) (args : CombineArgs V) (v : V) (depth : Int) (h : H),
      l.Vet = .ok () → args.f = UseLHS → (∃ e ∈ l.slice, args.eq e v = true) →
      l.With env args v depth h = .ok (some (.leaf l), 1)) ∧
    (∀ (b : branch N) (args : CombineArgs V) (v : V) (depth : Int) (h : H2) (c : Int)
      (child : N), b.p[ops.hash h]? = some (some child) →
      ops.With child args v (depth + 1) (ops.next h) c = (some child, c + 1) →
      b.With ops args v depth h c = (b, c + 1)) ∧
    (∀ (next : Nat) (l : leaf V) (args : CombineArgs V) (v : V) (depth : Int) (h : H),
      l.Vet = .ok () → args.f = UseLHS → (∃ e ∈ l.slice, args.eq e v = true) →
      l.WithAt env next args v depth h = .ok (.leaf next l, 1)) ∧
    (∀ (next : Nat) (b : branch N) (args : CombineArgs V) (v : V) (depth : Int) (h : H2)
      (c : Int) (child : N), b.p[ops.hash h]? = some (some child) →
      ops.With child args v (depth + 1) (ops.next h) c = (some child, c + 1) →
      b.WithAt ops next args v depth h c = ((next, b), c + 1)) := by
  have hbranch : ∀ (b : branch N) (args : CombineArgs V) (v : V) (depth : Int) (h : H2)
      (c : Int) (child : N), b.p[ops.hash h]? = some (some child) →
      ops.With child args v (depth + 1) (ops.next h) c = (some child, c + 1) →
      b.With ops args v depth h c = (b, c + 1) := by
    intro b args v depth h c child hslot hw
    obtain ⟨p⟩ := b
    simp only [branch.With, packer_Get_of_some ops p _ child hslot, hw, packer.With,
      packer_set_self p _ _ hslot]
  refine ⟨?_, hbranch, ?_, ?_⟩
  · intro l args v depth h hl hf hpres
    rw [leaf_Vet_ok_iff] at hl
    obtain ⟨l0, l1⟩ := l
    simp only at hl
    by_cases h1 : l1 = 0
    · simp [leaf.slice, leaf.count, h1] at hpres
      simp [leaf.With, hpres, hf, UseLHS, newLeaf2, hl, Except.map]
    · simp [leaf.slice, leaf.count, h1] at hpres
      cases h0 : args.eq l0 v
      · simp [h0] at hpres
        simp [leaf.With, h0, h1, hpres, hf, UseLHS, newLeaf2, hl, Except.map]
      · simp [leaf.With, h0, hf, UseLHS, newLeaf2, hl, Except.map]
  · intro next l args v depth h hl hf hpres
    rw [leaf_Vet_ok_iff] at hl
    obtain ⟨l0, l1⟩ := l
    simp only at hl
    by_cases h1 : l1 = 0
    · simp [leaf.slice, leaf.count, h1] at hpres
      simp [leaf.WithAt, hpres, hf, UseLHS, newLeaf2At, hl, Except.map]
    · simp [leaf.slice, leaf.count, h1] at hpres
      cases h0 : args.eq l0 v
      · simp [h0] at hpres
        simp [leaf.WithAt, h0, h1, hpres, hf, UseLHS, newLeaf2At, hl, Except.map]
      · simp [leaf.WithAt, h0, hf, UseLHS, newLeaf2At, hl, Except.map]
  · intro next b args v depth h c child hslot hw
    simp only [branch.WithAt, hbranch b args v depth h c child hslot hw]

/-- C17 (amended), at the leaf (1, 2) with 2 added again, and at the
list-backed branch whose slot 0 holds the node 1, 2 with 2 added again; the
next free address is 7. -/
theorem With_useLHS_shares_witness :
    leaf.With recordingEnv ⟨1, 2⟩ ⟨fun a b => a == b, UseLHS⟩ 2 0 (2, 0)
      = .ok (some (.leaf ⟨1, 2⟩), 1) ∧
    branch.With listNodeOps ⟨[some [1, 2], none, none, none]⟩ ⟨fun a b => a == b, UseLHS⟩
      2 0 () 0 = (⟨[some [1, 2], none, none, none]⟩, 1) ∧
    leaf.WithAt recordingEnv 7 ⟨1, 2⟩ ⟨fun a b => a == b, UseLHS⟩ 2 0 (2, 0)
      = .ok (.leaf 7 ⟨1, 2⟩, 1) ∧
    branch.WithAt listNodeOps 7 ⟨[some [1, 2], none, none, none]⟩
      ⟨fun a b => a == b, UseLHS⟩ 2 0 () 0
      = ((7, ⟨[some [1, 2], none, none, none]⟩), 1) :=
  ⟨(With_useLHS_shares recordingEnv listNodeOps).1 ⟨1, 2⟩ ⟨fun a b => a == b, UseLHS⟩ 2 0
      (2, 0) rfl rfl ⟨2, by decide, by decide⟩,
   (With_useLHS_shares recordingEnv listNodeOps).2.1 ⟨[some [1, 2], none, none, none]⟩
      ⟨fun a b => a == b, UseLHS⟩ 2 0 () 0 [1, 2] rfl rfl,
   (With_useLHS_shares recordingEnv listNodeOps).2.2.1 7 ⟨1, 2⟩
      ⟨fun a b => a == b, UseLHS⟩ 2 0 (2, 0) rfl rfl ⟨2, by decide, by decide⟩,
   (With_useLHS_shares recordingEnv listNodeOps).2.2.2 7 ⟨[some [1, 2], none, none, none]⟩
      ⟨fun a b => a == b, UseLHS⟩ 2 0 () 0 [1, 2] rfl rfl⟩

end sharingTheorems

theorem listNodeOps_CopySpec : CopySpec listNodeOps.CopyTo (fun (n : List Nat) => n) := by
  intro n
  exact ⟨rfl, fun d _ => rfl⟩

section canonicalTheorems

set_option linter.unusedSectionVars false

variable {V N H : Type} [Zero V] [DecidableEq V]

theorem copyLoop_nil_dest (copyTo : N → Option (elemSlice V) → Option (elemSlice V))
    (elems : N → List V) (hc : CopySpec copyTo elems) (p : List (Option N)) :
    copyLoop copyTo p none = none := by
  induction p with
  | nil => rfl
  | cons x rest ih =>
    cases x with
    | none => simpa [copyLoop] using ih
    | some child => simp [copyLoop, (hc child).1]

theorem filterMap_flatMap_cons (elems : N → List V) (child : N) (rest : List (Option N)) :
    ((some child :: rest).filterMap id).flatMap elems
      = elems child ++ (rest.filterMap id).flatMap elems := by
  simp [List.flatMap_cons]

theorem copyLoop_spec (copyTo : N → Option (elemSlice V) → Option (elemSlice V))
    (elems : N → List V) (hc : CopySpec copyTo elems) (p : List (Option N))
    (d : elemSlice V) (hd : d.data.length ≤ d.cap) :
    copyLoop copyTo p (some d) =
      if d.data.length + ((p.filterMap id).flatMap elems).length > d.cap then none
      else some ⟨d.data ++ (p.filterMap id).flatMap elems, d.cap⟩ := by
  induction p generalizing d with
  | nil =>
    simp [copyLoop, hd]
  | cons x rest ih =>
    cases x with
    | none => simpa [copyLoop] using ih d hd
    | some child =>
      rw [filterMap_flatMap_cons, List.length_append]
      unfold copyLoop
      rw [(hc child).2 d hd]
      by_cases h1 : d.data.length + (elems child).length > d.cap
      · rw [if_pos h1, if_pos (by omega)]
      · rw [if_neg h1]
        simp only []
        rw [ih ⟨d.data ++ elems child, d.cap⟩ (by simp only [List.length_append]; omega)]
        simp only [List.length_append, List.append_assoc]
        by_cases h2 : d.data.length + (elems child).length +
            ((rest.filterMap id).flatMap elems).length > d.cap
        · rw [if_pos h2, if_pos (by omega)]
        · rw [if_neg h2, if_neg (by omega)]

theorem newLeaf_slice (l : leaf V) (hl : l.data0 ≠ 0) : newLeaf l.slice = .ok l := by
  obtain ⟨l0, l1⟩ := l
  by_cases h1 : l1 = 0
  · simp only at hl
    simp [newLeaf, newLeaf1, newLeaf2, leaf.slice, leaf.count, h1, hl]
  · simp only at hl
    simp [newLeaf, newLeaf2, leaf.slice, leaf.count, h1, hl]

theorem leaf_slice_length (l : leaf V) : l.slice.length = l.count := by
  obtain ⟨l0, l1⟩ := l
  by_cases h1 : l1 = 0 <;> simp [leaf.slice, leaf.count, h1]

theorem branch_Canonical_cases {L : Type}
    (copyTo : N → Option (elemSlice V) → Option (elemSlice V))
    (elems : N → List V) (hc : CopySpec copyTo elems) (newLeaf : List V → Except Panic L)
    (maxLeafLen : Nat) (b : branch N) (depth : Int) :
    (maxLeafLen < (branchElems elems b).length →
      b.Canonical copyTo newLeaf maxLeafLen depth = .ok (.branch b)) ∧
    ((branchElems elems b).length ≤ maxLeafLen →
      b.Canonical copyTo newLeaf maxLeafLen depth
        = (newLeaf (branchElems elems b)).map cnode.leaf) := by
  constructor
  · intro h
    have h' : (⟨[], maxLeafLen⟩ : elemSlice V).data.length
        + ((b.p.filterMap id).flatMap elems).length > (⟨[], maxLeafLen⟩ : elemSlice V).cap := by
      simpa [branchElems] using h
    unfold branch.Canonical branch.CopyTo
    rw [copyLoop_spec copyTo elems hc b.p _ (Nat.zero_le _), if_pos h']
  · intro hlen
    have hlen' : ¬ (⟨[], maxLeafLen⟩ : elemSlice V).data.length
        + ((b.p.filterMap id).flatMap elems).length > (⟨[], maxLeafLen⟩ : elemSlice V).cap := by
      simpa [branchElems] using not_lt.2 hlen
    unfold branch.Canonical branch.CopyTo
    rw [copyLoop_spec copyTo elems hc b.p _ (Nat.zero_le _), if_neg hlen']
    simp [branchElems]

theorem branch_Canonical_leaf (copyTo : N → Option (elemSlice V) → Option (elemSlice V))
    (elems : N → List V) (hc : CopySpec copyTo elems) (maxLeafLen : Nat) (b : branch N)
    (depth : Int) (l : leaf V) (hl : l.Vet = .ok ()) (hs : branchElems elems b = l.slice)
    (hle : l.count ≤ maxLeafLen) :
    b.Canonical copyTo newLeaf maxLeafLen depth = .ok (.leaf l) := by
  rw [leaf_Vet_ok_iff] at hl
  have hlen : (branchElems elems b).length ≤ maxLeafLen := by
    rw [hs, leaf_slice_length]
    exact hle
  rw [(branch_Canonical_cases copyTo elems hc newLeaf maxLeafLen b depth).2 hlen, hs,
    newLeaf_slice l hl]
  rfl

theorem leaf_AppendTo_CopySpec :
    CopySpec (leaf.AppendTo : leaf V → Option (elemSlice V) → Option (elemSlice V))
      leaf.slice := by
  intro l
  refine ⟨?_, fun d _ => ?_⟩
  · have := leaf_slice_ne_nil l
    have hpos : 0 < l.slice.length := List.length_pos.2 this
    simp [leaf.AppendTo, sliceLen, sliceCap, hpos]
  · simp [leaf.AppendTo, sliceLen, sliceCap, sliceData]

theorem branch_CopyTo_CopySpec (copyTo : N → Option (elemSlice V) → Option (elemSlice V))
    (elems : N → List V) (hc : CopySpec copyTo elems) :
    CopySpec (fun (b : branch N) dest => b.CopyTo copyTo dest) (branchElems elems) := by
  intro b
  exact ⟨copyLoop_nil_dest copyTo elems hc b.p,
    fun d hd => copyLoop_spec copyTo elems hc b.p d hd⟩

/-- C18: with children whose `CopyTo` appends their elements when they fit,
`branch.Canonical` hands all elements of the subtree, in slot order, to
`newLeaf` and returns the leaf made of them when the subtree holds at most
`maxLeafLen` elements (a leaf holding exactly these elements, `newLeaf` being
the constructor of leaves of up to `maxLeafLen` elements), and returns the
branch itself when it holds more.  `branch.CopyTo` and `leaf.AppendTo` into a
destination return nil exactly when the elements do not fit its capacity, and
otherwise the destination with the elements appended; the nil destination
comes back as nil. -/
theorem branch_Canonical_spec {L : Type}
    (copyTo : N → Option (elemSlice V) → Option (elemSlice V))
    (elems : N → List V) (hc : CopySpec copyTo elems) (newLeaf : List V → Except Panic L)
    (leafElems : L → List V) (maxLeafLen : Nat) (b : branch N) (depth : Int) :
    ((branchElems elems b).length ≤ maxLeafLen →
      b.Canonical copyTo newLeaf maxLeafLen depth
          = (newLeaf (branchElems elems b)).map cnode.leaf ∧
        ((∀ es : List V, es.length ≤ maxLeafLen →
            ∃ l, newLeaf es = .ok l ∧ leafElems l = es) →
          ∃ l, b.Canonical copyTo newLeaf maxLeafLen depth = .ok (.leaf l) ∧
            leafElems l = branchElems elems b)) ∧
    (maxLeafLen < (branchElems elems b).length →
      b.Canonical copyTo newLeaf maxLeafLen depth = .ok (.branch b)) ∧
    (∀ d : elemSlice V, d.data.length ≤ d.cap →
      (b.CopyTo copyTo (some d) = none ↔
        d.cap < d.data.length + (branchElems elems b).length) ∧
      (d.data.length + (branchElems elems b).length ≤ d.cap →
        b.CopyTo copyTo (some d) = some ⟨d.data ++ branchElems elems b, d.cap⟩)) ∧
    b.CopyTo copyTo none = none ∧
    (∀ (l : leaf V) (d : elemSlice V),
      (l.AppendTo (some d) = none ↔ d.cap < d.data.length + l.slice.length) ∧
      (d.data.length + l.slice.length ≤ d.cap →
        l.AppendTo (some d) = some ⟨d.data ++ l.slice, d.cap⟩) ∧
      l.AppendTo none = none) := by
  obtain ⟨h1, h2⟩ := branch_Canonical_cases copyTo elems hc newLeaf maxLeafLen b depth
  refine ⟨fun hle => ⟨h2 hle, fun hnl => ?_⟩, h1, fun d hd => ?_,
    copyLoop_nil_dest copyTo elems hc b.p, fun l d => ?_⟩
  · obtain ⟨l, hl, he⟩ := hnl (branchElems elems b) hle
    exact ⟨l, by rw [h2 hle, hl]; rfl, he⟩
  · have hs := copyLoop_spec copyTo elems hc b.p d hd
    constructor
    · unfold branch.CopyTo
      rw [hs]
      unfold branchElems
      by_cases hfit : d.data.length + ((b.p.filterMap id).flatMap elems).length > d.cap
      · simp [hfit]
      · simp [hfit]
    · intro hfit
      unfold branch.CopyTo
      rw [hs, if_neg (by unfold branchElems at hfit; omega)]
      rfl
  · refine ⟨?_, ?_, (leaf_AppendTo_CopySpec l).1⟩
    · by_cases hfit : d.data.length + l.slice.length > d.cap
      · simp [leaf.AppendTo, sliceLen, sliceCap, hfit]
      · simp [leaf.AppendTo, sliceLen, sliceCap, hfit]
    · intro hfit
      have : ¬ d.data.length + l.slice.length > d.cap := by omega
      simp [leaf.AppendTo, sliceLen, sliceCap, sliceData, this]

/-- C18, on branches whose children are lists of elements, with `maxLeafLen` 4
and leaves that are the list of their elements: the branch holding 1, 2, 3
becomes the leaf of 1, 2, 3; the branch holding 1, 2, 3, 4, 5 stays; copying
1, 2, 3 into an empty destination of capacity 2 gives nil. -/
theorem branch_Canonical_spec_witness :
    (∃ l, branch.Canonical listNodeOps.CopyTo (fun es => Except.ok es) 4
        (⟨[some [1, 2], none, some [3], none]⟩ : branch (List Nat)) 0 = .ok (.leaf l) ∧
      (fun (l : List Nat) => l) l = branchElems (fun (n : List Nat) => n)
        (⟨[some [1, 2], none, some [3], none]⟩ : branch (List Nat))) ∧
    branch.Canonical listNodeOps.CopyTo (fun es => (Except.ok es : Except Panic (List Nat))) 4
      (⟨[some [1, 2], none, some [3, 4, 5], none]⟩ : branch (List Nat)) 0
        = .ok (.branch ⟨[some [1, 2], none, some [3, 4, 5], none]⟩) ∧
    (branch.CopyTo listNodeOps.CopyTo
        (⟨[some [1, 2], none, some [3], none]⟩ : branch (List Nat)) (some ⟨[], 2⟩) = none ↔
      (⟨[], 2⟩ : elemSlice Nat).cap < (⟨[], 2⟩ : elemSlice Nat).data.length +
        (branchElems (fun (n : List Nat) => n)
          (⟨[some [1, 2], none, some [3], none]⟩ : branch (List Nat))).length) :=
  ⟨((branch_Canonical_spec listNodeOps.CopyTo (fun (n : List Nat) => n) listNodeOps_CopySpec
      (fun es => Except.ok es) (fun (l : List Nat) => l) 4
      ⟨[some [1, 2], none, some [3], none]⟩ 0).1 (by decide)).2
      (fun es _ => ⟨es, rfl, rfl⟩),
   (branch_Canonical_spec listNodeOps.CopyTo (fun (n : List Nat) => n) listNodeOps_CopySpec
      (fun es => (Except.ok es : Except Panic (List Nat))) (fun (l : List Nat) => l) 4
      ⟨[some [1, 2], none, some [3, 4, 5], none]⟩ 0).2.1 (by decide),
   ((branch_Canonical_spec listNodeOps.CopyTo (fun (n : List Nat) => n) listNodeOps_CopySpec
      (fun es => (Except.ok es : Except Panic (List Nat))) (fun (l : List Nat) => l) 4
      ⟨[some [1, 2], none, some [3], none]⟩ 0).2.2.1 ⟨[], 2⟩ (by decide)).1⟩

/-- C19 (as stated, refuted): the branch `loneChild` has exactly one non-empty
slot, whose child holds the three elements 1, 2, 3; with `maxLeafLen` = 2,
`branch.Canonical` returns the branch itself, not that child. -/
theorem branch_Canonical_keeps_lone_child :
    (loneChild.p.filterMap id).length = 1 ∧
    branch.Canonical (fun (c : branch (leaf Nat)) dest => c.CopyTo leaf.AppendTo dest)
      newLeaf 2 loneChild 0 = .ok (.branch loneChild) :=
  ⟨rfl, rfl⟩

/-- C19 (amended): for a branch with exactly one non-empty slot (children whose
`CopyTo` appends their elements when they fit), `branch.Canonical` returns the
branch itself when the child holds more than `maxLeafLen` elements, and a leaf
holding the child's elements when these are the one or two elements of a leaf
passing `Vet` and at most `maxLeafLen`; `branch.Without` returns the canonical
form of the branch with the child replaced, hence the branch itself when that
is left with one non-empty slot holding more than `maxLeafLen` elements. -/
theorem branch_Canonical_single_slot (ops : NodeOps V N H) (elems : N → List V)
    (hc : CopySpec ops.CopyTo elems) (b : branch N) (child : N) (depth : Int)
    (hone : b.p.filterMap id = [child]) :
    (ops.maxLeafLen < (elems child).length →
      b.Canonical ops.CopyTo newLeaf ops.maxLeafLen depth = .ok (.branch b)) ∧
    (∀ l : leaf V, l.Vet = .ok () → elems child = l.slice → l.count ≤ ops.maxLeafLen →
      b.Canonical ops.CopyTo newLeaf ops.maxLeafLen depth = .ok (.leaf l)) ∧
    (∀ (b0 : branch N) (args : EqArgs V) (v : V) (h : H) (c : Int),
      b0.p.With (ops.hash h)
        (ops.Without (b0.p.Get ops (ops.hash h)) args v (depth + 1) (ops.next h) c).1 = b.p →
      ops.maxLeafLen < (elems child).length →
      (b0.Without ops newLeaf args v depth h c).1 = .ok (.branch b)) := by
  have he : branchElems elems b = elems child := by
    simp [branchElems, hone]
  have h1 := (branch_Canonical_cases ops.CopyTo elems hc (newLeaf (V := V)) ops.maxLeafLen b
    depth).1
  rw [he] at h1
  refine ⟨h1, fun l hl hs hle =>
    branch_Canonical_leaf ops.CopyTo elems hc ops.maxLeafLen b depth l hl (he.trans hs) hle, ?_⟩
  intro b0 args v h c hp hlt
  simp only [branch.Without, hp]
  exact h1 hlt

/-- C19 (amended), on branches of branches of leaves with `maxLeafLen` = 2: the
lone child holding 1, 2 is replaced by the leaf (1, 2); the lone child holding
1, 2, 3 stays under its branch. -/
theorem branch_Canonical_single_slot_witness :
    branch.Canonical (fun (c : branch (leaf Nat)) dest => c.CopyTo leaf.AppendTo dest)
      newLeaf 2 loneSmallChild 0 = .ok (.leaf ⟨1, 2⟩) ∧
    branch.Canonical (fun (c : branch (leaf Nat)) dest => c.CopyTo leaf.AppendTo dest)
      newLeaf 2 loneChild 0 = .ok (.branch loneChild) :=
  ⟨(branch_Canonical_single_slot
      (copyOnlyOps (fun (c : branch (leaf Nat)) dest => c.CopyTo leaf.AppendTo dest) 2 ⟨[]⟩)
      (branchElems leaf.slice)
      (branch_CopyTo_CopySpec leaf.AppendTo leaf.slice leaf_AppendTo_CopySpec)
      loneSmallChild ⟨[some ⟨1, 0⟩, none, some ⟨2, 0⟩, none]⟩ 0 rfl).2.1 ⟨1, 2⟩ rfl rfl
      (by decide),
   (branch_Canonical_single_slot
      (copyOnlyOps (fun (c : branch (leaf Nat)) dest => c.CopyTo leaf.AppendTo dest) 2 ⟨[]⟩)
      (branchElems leaf.slice)
      (branch_CopyTo_CopySpec leaf.AppendTo leaf.slice leaf_AppendTo_CopySpec)
      loneChild ⟨[some ⟨1, 2⟩, none, some ⟨3, 0⟩, none]⟩ 0 rfl).1 (by decide)⟩

end canonicalTheorems

section slotwiseTheorems

set_option linter.unusedSectionVars false

variable {V N H : Type} [Zero V] [DecidableEq V]

theorem parallelOver_set (op : Nat → Int → Option N × Int) (res : Nat → Option N)
    (m : Nat → Int) (slots : List Nat)
    (hres : ∀ i ∈ slots, ∀ c, op i c = (res i, c + m i)) (hnd : slots.Nodup)
    (p : packer N) (c : Int) (hlen : ∀ i ∈ slots, i < p.length) :
    (parallelOver (fun i (s : packer N × Int) =>
        (true, (s.1.set i (op i s.2).1, (op i s.2).2))) slots (p, c)).1 = true ∧
    (parallelOver (fun i (s : packer N × Int) =>
        (true, (s.1.set i (op i s.2).1, (op i s.2).2))) slots (p, c)).2.2
      = c + (slots.map m).sum ∧
    (parallelOver (fun i (s : packer N × Int) =>
        (true, (s.1.set i (op i s.2).1, (op i s.2).2))) slots (p, c)).2.1.length
      = p.length ∧
    ∀ j, (parallelOver (fun i (s : packer N × Int) =>
        (true, (s.1.set i (op i s.2).1, (op i s.2).2))) slots (p, c)).2.1[j]?
      = if j ∈ slots then some (res j) else p[j]? := by
  induction slots generalizing p c with
  | nil => simp [parallelOver]
  | cons i rest ih =>
    have hi := hres i (List.mem_cons_self _ _) c
    have hnd' := (List.nodup_cons.1 hnd)
    have hrest : ∀ k ∈ rest, ∀ c, op k c = (res k, c + m k) :=
      fun k hk => hres k (List.mem_cons_of_mem _ hk)
    have hlen' : ∀ k ∈ rest, k < (p.set i (res i)).length := by
      intro k hk
      simpa using hlen k (List.mem_cons_of_mem _ hk)
    obtain ⟨h1, h2, h3, h4⟩ := ih hrest hnd'.2 (p.set i (res i)) (c + m i) hlen'
    simp only [parallelOver, hi, if_true]
    refine ⟨h1, ?_, ?_, ?_⟩
    · rw [h2]
      simp [add_assoc]
    · rw [h3]
      simp
    · intro j
      rw [h4]
      by_cases hj : j ∈ rest
      · simp [hj]
      · by_cases hji : j = i
        · subst hji
          have : j < p.length := hlen j (List.mem_cons_self _ _)
          simp [hj, List.getElem?_set, this]
        · have hij : ¬ i = j := fun h => hji h.symm
          simp [hj, hji, List.getElem?_set, hij]

theorem slotwise_packer (op : Nat → Int → Option N × Int) (res : Nat → Option N)
    (m : Nat → Int) (fanout : Nat)
    (hres : ∀ i < fanout, ∀ c, op i c = (res i, c + m i)) (c : Int) :
    (Parallel fanout (fun i (s : packer N × Int) =>
        (true, (s.1.set i (op i s.2).1, (op i s.2).2))) (List.replicate fanout none, c)).2
      = ((List.range fanout).map res, c + ((List.range fanout).map m).sum) := by
  obtain ⟨-, h2, h3, h4⟩ := parallelOver_set op res m (List.range fanout)
    (fun i hi => hres i (List.mem_range.1 hi)) (List.nodup_range fanout)
    (List.replicate fanout none) c (fun i hi => by simpa using List.mem_range.1 hi)
  refine Prod.ext ?_ h2
  apply List.ext_getElem?
  intro j
  show (parallelOver _ (List.range fanout) (List.replicate fanout none, c)).2.1[j]? = _
  rw [h4]
  by_cases hj : j < fanout
  · simp [hj, List.getElem?_range]
  · have h1 : (List.replicate fanout (none : Option N))[j]? = none :=
      List.getElem?_eq_none (by simpa using not_lt.1 hj)
    have h2 : (List.range fanout)[j]? = none :=
      List.getElem?_eq_none (by simpa using not_lt.1 hj)
    simp [hj, h1, h2]

theorem parallelOver_all (body : Nat → Bool) (slots : List Nat) :
    (parallelOver (fun i (s : Unit) => (body i, s)) slots ()).1 = true ↔
      ∀ i ∈ slots, body i = true := by
  induction slots with
  | nil => simp [parallelOver]
  | cons i rest ih =>
    simp only [parallelOver]
    cases hb : body i
    · simp [hb]
    · simp [hb, ih]

/-- C20: binary operations on two branches are slot-wise under the sequential
driver.  If for every slot `i` the child operation at depth+1 yields `res i`
and adds `m i` to the counter, `Combine` returns the branch whose slot `i` is
`res i` and adds the sum of the `m i`; `Intersection` and `Difference` return
the `Canonical` form of the branch built in the same way; `Equal` and
`SubsetOf` are true exactly when the child comparison is true in every slot. -/
theorem branch_binary_slotwise {L : Type} (ops : NodeOps V N H)
    (newLeaf : List V → Except Panic L) (b n : branch N)
    (cargs : CombineArgs V) (eargs : EqArgs V) (depth : Int) (c : Int)
    (res : Nat → Option N) (m : Nat → Int) :
    ((∀ i < ops.fanout, ∀ c1,
        ops.Combine (b.p.Get ops i) cargs (n.p.Get ops i) (depth + 1) c1
          = (res i, c1 + m i)) →
      b.CombineBranch ops cargs n depth c
        = (⟨(List.range ops.fanout).map res⟩, c + ((List.range ops.fanout).map m).sum)) ∧
    ((∀ i < ops.fanout, ∀ c1,
        ops.Intersection (b.p.Get ops i) eargs (n.p.Get ops i) (depth + 1) c1
          = (res i, c1 + m i)) →
      b.IntersectionBranch ops newLeaf eargs n depth c
        = (branch.Canonical ops.CopyTo newLeaf ops.maxLeafLen
            ⟨(List.range ops.fanout).map res⟩ depth,
          c + ((List.range ops.fanout).map m).sum)) ∧
    ((∀ i < ops.fanout, ∀ c1,
        ops.Difference (b.p.Get ops i) eargs (n.p.Get ops i) (depth + 1) c1
          = (res i, c1 + m i)) →
      b.DifferenceBranch ops newLeaf eargs n depth c
        = (branch.Canonical ops.CopyTo newLeaf ops.maxLeafLen
            ⟨(List.range ops.fanout).map res⟩ depth,
          c + ((List.range ops.fanout).map m).sum)) ∧
    (b.EqualBranch ops eargs n depth = true ↔
      ∀ i < ops.fanout,
        ops.Equal (b.p.Get ops i) eargs (n.p.Get ops i) (depth + 1) = true) ∧
    (b.SubsetOfBranch ops eargs n depth = true ↔
      ∀ i < ops.fanout,
        ops.SubsetOf (b.p.Get ops i) eargs (n.p.Get ops i) (depth + 1) = true) := by
  refine ⟨fun h => ?_, fun h => ?_, fun h => ?_, ?_, ?_⟩
  · have hs := slotwise_packer
      (fun i c1 => ops.Combine (b.p.Get ops i) cargs (n.p.Get ops i) (depth + 1) c1)
      res m ops.fanout h c
    simp only [branch.CombineBranch]
    rw [hs]
  · have hs := slotwise_packer
      (fun i c1 => ops.Intersection (b.p.Get ops i) eargs (n.p.Get ops i) (depth + 1) c1)
      res m ops.fanout h c
    simp only [branch.IntersectionBranch]
    rw [hs]
  · have hs := slotwise_packer
      (fun i c1 => ops.Difference (b.p.Get ops i) eargs (n.p.Get ops i) (depth + 1) c1)
      res m ops.fanout h c
    simp only [branch.DifferenceBranch]
    rw [hs]
  · simp only [branch.EqualBranch, Parallel]
    rw [parallelOver_all]
    simp [List.mem_range]
  · simp only [branch.SubsetOfBranch, Parallel]
    rw [parallelOver_all]
    simp [List.mem_range]

/-- C20, on list-backed children with fan-out 4: combining the branches with
slots (1 | - | 2, 3 | -) and (1 | 4 | 3 | -) gives the slots
(1 | 4 | 2, 3 | -) and two matches. -/
theorem branch_binary_slotwise_witness :
    branch.CombineBranch listNodeOps ⟨[some [1], none, some [2, 3], none]⟩ natArgs
      ⟨[some [1], some [4], some [3], none]⟩ 0 0
      = (⟨[some [1], some [4], some [2, 3], some []]⟩, 2) :=
  (branch_binary_slotwise listNodeOps (newLeaf : List Nat → Except Panic (leaf Nat))
    ⟨[some [1], none, some [2, 3], none]⟩
    ⟨[some [1], some [4], some [3], none]⟩ natArgs natEqArgs 0 0
    (fun i => (listNodeOps.Combine
      (packer.Get listNodeOps [some [1], none, some [2, 3], none] i) natArgs
      (packer.Get listNodeOps [some [1], some [4], some [3], none] i) 1 0).1)
    (fun i => (listNodeOps.Combine
      (packer.Get listNodeOps [some [1], none, some [2, 3], none] i) natArgs
      (packer.Get listNodeOps [some [1], some [4], some [3], none] i) 1 0).2)).1
    (fun i _ c1 => by simp [listNodeOps])

end slotwiseTheorems

section unLeafTheorems

set_option linter.unusedSectionVars false

variable {V UB H : Type} [Zero V] [DecidableEq V]

theorem exists_first_eq (p : V → Bool) (es : List V) (h : ∃ x ∈ es, p x = true) :
    ∃ pre e post, es = pre ++ e :: post ∧ (∀ x ∈ pre, p x = false) ∧ p e = true := by
  induction es with
  | nil => simp at h
  | cons x xs ih =>
    cases hx : p x with
    | true => exact ⟨[], x, xs, rfl, by simp, hx⟩
    | false =>
      have h2 : ∃ y ∈ xs, p y = true := by
        obtain ⟨y, hy, hpy⟩ := h
        rcases List.mem_cons.1 hy with rfl | hy
        · rw [hx] at hpy; cases hpy
        · exact ⟨y, hy, hpy⟩
      obtain ⟨pre, e, post, h1, h3, h4⟩ := ih h2
      refine ⟨x :: pre, e, post, by rw [h1]; rfl, ?_, h4⟩
      intro y hy
      rcases List.mem_cons.1 hy with rfl | hy
      · exact hx
      · exact h3 y hy

theorem replaceFirst_split (args : CombineArgs V) (v : V) (pre : List V) (e : V)
    (post : List V) (hpre : ∀ x ∈ pre, args.eq x v = false) (he : args.eq e v = true) :
    replaceFirst args v (pre ++ e :: post) = some (pre ++ args.f e v :: post) := by
  induction pre with
  | nil => simp [replaceFirst, he]
  | cons x xs ih =>
    have hx := hpre x (List.mem_cons_self _ _)
    have h2 := ih (fun y hy => hpre y (List.mem_cons_of_mem _ hy))
    simp [replaceFirst, hx, h2]

theorem replaceFirst_none (args : CombineArgs V) (v : V) (es : List V)
    (h : ∀ x ∈ es, args.eq x v = false) : replaceFirst args v es = none := by
  induction es with
  | nil => rfl
  | cons x xs ih =>
    have hx := h x (List.mem_cons_self _ _)
    have h2 := ih (fun y hy => h y (List.mem_cons_of_mem _ hy))
    simp [replaceFirst, hx, h2]

theorem firstEq_split (eq : V → V → Bool) (v : V) (pre : List V) (e : V)
    (post : List V) (hpre : ∀ x ∈ pre, eq x v = false) (he : eq e v = true) :
    firstEq eq v (pre ++ e :: post) = some pre.length := by
  induction pre with
  | nil => simp [firstEq, he]
  | cons x xs ih =>
    have hx := hpre x (List.mem_cons_self _ _)
    have h2 := ih (fun y hy => hpre y (List.mem_cons_of_mem _ hy))
    simp [firstEq, hx, h2]

theorem firstEq_none (eq : V → V → Bool) (v : V) (es : List V)
    (h : ∀ x ∈ es, eq x v = false) : firstEq eq v es = none := by
  induction es with
  | nil => rfl
  | cons x xs ih =>
    have hx := h x (List.mem_cons_self _ _)
    have h2 := ih (fun y hy => h y (List.mem_cons_of_mem _ hy))
    simp [firstEq, hx, h2]

theorem addSeq_append (env : UnEnv V UB H) (args : CombineArgs V) (depth : Int)
    (s : UB × Int) (xs ys : List (V × H)) :
    addSeq env args depth s (xs ++ ys) = addSeq env args depth (addSeq env args depth s xs) ys := by
  induction xs generalizing s with
  | nil => rfl
  | cons x xs ih => obtain ⟨e, h⟩ := x; simp [addSeq, ih]

theorem foldl_branchAdd_eq_addSeq (env : UnEnv V UB H) (args : CombineArgs V) (depth : Int)
    (s : UB × Int) (es : List V) :
    es.foldl (fun (s : UB × Int) e =>
        env.branchAdd s.1 args e depth (env.newHasher e depth) s.2) s
      = addSeq env args depth s (es.map fun e => (e, env.newHasher e depth)) := by
  induction es generalizing s with
  | nil => rfl
  | cons x xs ih => simp [addSeq, ih]

theorem eq_nil_or_snoc (xs : List V) : xs = [] ∨ ∃ init z, xs = init ++ [z] := by
  rcases List.eq_nil_or_concat xs with h | ⟨init, z, h⟩
  · exact Or.inl h
  · exact Or.inr ⟨init, z, by rw [h, List.concat_eq_append]⟩

theorem moved_last_perm (post : List V) :
    (post.getLast?.toList ++ post.dropLast).Perm post := by
  rcases eq_nil_or_snoc post with rfl | ⟨init, z, rfl⟩
  · simp
  · have h1 : (init ++ [z]).getLast? = some z := by simp
    have h2 : (init ++ [z]).dropLast = init := by simp
    rw [h1, h2]
    exact (List.perm_append_comm : ([z] ++ init).Perm (init ++ [z]))

/-- The element list left by the removal at the first match: the last element
moved into the position of the removed one. -/
theorem remove_at_split (pre : List V) (e : V) (post : List V) (hne : pre ++ post ≠ []) :
    (if pre.length < (pre ++ e :: post).length - 1 then
        ((pre ++ e :: post).set pre.length
          ((pre ++ e :: post).getD ((pre ++ e :: post).length - 1) 0)).take
            ((pre ++ e :: post).length - 1)
      else (pre ++ e :: post).take ((pre ++ e :: post).length - 1))
      = pre ++ (post.getLast?.toList ++ post.dropLast) := by
  rcases eq_nil_or_snoc post with rfl | ⟨init, z, rfl⟩
  · simp
  · have hlen : (pre ++ e :: (init ++ [z])).length - 1 = pre.length + (init.length + 1) := by
      simp
    rw [hlen]
    have hlt : pre.length < pre.length + (init.length + 1) := by omega
    rw [if_pos hlt]
    have hget : (pre ++ e :: (init ++ [z])).getD (pre.length + (init.length + 1)) 0 = z := by
      rw [List.getD_eq_getElem?_getD, List.getElem?_append_right (by omega)]
      simp
    rw [hget]
    have hset : (pre ++ e :: (init ++ [z])).set pre.length z = pre ++ z :: (init ++ [z]) := by
      rw [List.set_append_right _ _ (le_refl _)]
      simp
    rw [hset, List.take_append_eq_append_take]
    simp [List.take_of_length_le]

/-- C22: `unLeaf.Add` when the leaf does not split. If some stored element is
eq to `v`, the first such element `e` is replaced in place by `args.f(e, v)`,
the other elements, the length and the capacity stay as they were and matches
goes up by exactly one. If no stored element is eq to `v` and the leaf has
spare capacity or `depth >= maxTreeDepth`, `v` is appended and matches is
unchanged. -/
theorem unLeaf_Add_spec (env : UnEnv V UB H) (l : elemSlice V) (args : CombineArgs V)
    (v : V) (depth : Int) (h : H) (c : Int) :
    ((∃ x ∈ l.data, args.eq x v = true) →
      ∃ pre e post, l.data = pre ++ e :: post ∧ (∀ x ∈ pre, args.eq x v = false) ∧
        args.eq e v = true ∧
        unLeaf.Add env l args v depth h c
          = (.leaf ⟨pre ++ args.f e v :: post, l.cap⟩, c + 1) ∧
        (pre ++ args.f e v :: post).length = l.data.length) ∧
    ((∀ x ∈ l.data, args.eq x v = false) →
      (l.data.length < l.cap ∨ env.maxTreeDepth ≤ depth) →
      unLeaf.Add env l args v depth h c = (.leaf (goAppend env.grownCap l v), c) ∧
        (goAppend env.grownCap l v).data = l.data ++ [v]) := by
  constructor
  · intro hex
    obtain ⟨pre, e, post, h1, h2, h3⟩ := exists_first_eq (fun x => args.eq x v) l.data hex
    refine ⟨pre, e, post, h1, h2, h3, ?_, by simp [h1]⟩
    simp only [unLeaf.Add, h1, replaceFirst_split args v pre e post h2 h3]
  · intro hno hroom
    constructor
    · simp only [unLeaf.Add, replaceFirst_none args v l.data hno]
      rw [if_pos (by simpa [ge_iff_le] using hroom)]
    · unfold goAppend
      split <;> rfl

/-- C22, on the leaf [1, 2] of capacity 2: adding 2 replaces the second element
and counts one match; on the leaf [1] of capacity 2, adding 3 appends it; on
the full leaf [1, 2] at depth 16, adding 3 appends it. -/
theorem unLeaf_Add_spec_witness :
    (∃ pre e post, [1, 2] = pre ++ e :: post ∧ (∀ x ∈ pre, natArgs.eq x 2 = false) ∧
        natArgs.eq e 2 = true ∧
        unLeaf.Add listUnEnv ⟨[1, 2], 2⟩ natArgs 2 0 (2, 0) 0
          = (.leaf ⟨pre ++ natArgs.f e 2 :: post, 2⟩, 0 + 1) ∧
        (pre ++ natArgs.f e 2 :: post).length = 2) ∧
    (unLeaf.Add listUnEnv ⟨[1], 2⟩ natArgs 3 0 (3, 0) 0
        = (.leaf (goAppend listUnEnv.grownCap ⟨[1], 2⟩ 3), 0) ∧
      (goAppend listUnEnv.grownCap ⟨[1], 2⟩ 3).data = [1] ++ [3]) ∧
    (unLeaf.Add listUnEnv ⟨[1, 2], 2⟩ natArgs 3 16 (3, 16) 0
        = (.leaf (goAppend listUnEnv.grownCap ⟨[1, 2], 2⟩ 3), 0) ∧
      (goAppend listUnEnv.grownCap ⟨[1, 2], 2⟩ 3).data = [1, 2] ++ [3]) :=
  ⟨(unLeaf_Add_spec listUnEnv ⟨[1, 2], 2⟩ natArgs 2 0 (2, 0) 0).1 ⟨2, by decide, by decide⟩,
   (unLeaf_Add_spec listUnEnv ⟨[1], 2⟩ natArgs 3 0 (3, 0) 0).2 (by decide)
     (Or.inl (by decide)),
   (unLeaf_Add_spec listUnEnv ⟨[1, 2], 2⟩ natArgs 3 16 (3, 16) 0).2 (by decide)
     (Or.inr (by decide))⟩

/-- C23 fails: on the leaf [1], removing the absent 2 leaves matches at 0 and
removing the stored 1 raises it to 1. -/
theorem unLeaf_Remove_counts_present :
    (unLeaf.Remove ⟨[1], 2⟩ natEqArgs 2 0 (2, (0 : Int)) 0
        : unNode Nat (List Nat) × Int) = (.leaf ⟨[1], 2⟩, 0) ∧
    (unLeaf.Remove ⟨[1], 2⟩ natEqArgs 1 0 (1, (0 : Int)) 0
        : unNode Nat (List Nat) × Int) = (.empty, 1) :=
  ⟨rfl, rfl⟩

/-- C23, amended: `unLeaf.Remove` adds one to matches when some stored element
is eq to `v` (an element was removed) and leaves matches unchanged when no
stored element is eq to `v`. -/
theorem unLeaf_Remove_matches (l : elemSlice V) (args : EqArgs V) (v : V) (depth : Int)
    (h : H) (c : Int) :
    ((∃ x ∈ l.data, args.eq x v = true) →
      (unLeaf.Remove l args v depth h c : unNode V UB × Int).2 = c + 1) ∧
    ((∀ x ∈ l.data, args.eq x v = false) →
      (unLeaf.Remove l args v depth h c : unNode V UB × Int).2 = c) := by
  constructor
  · intro hex
    obtain ⟨pre, e, post, h1, h2, h3⟩ := exists_first_eq (fun x => args.eq x v) l.data hex
    simp only [unLeaf.Remove, h1, firstEq_split args.eq v pre e post h2 h3]
    split
    · rfl
    · split <;> rfl
  · intro hno
    simp only [unLeaf.Remove, firstEq_none args.eq v l.data hno]

/-- C23, amended, on the leaf [1, 2]: removing 2 counts one match, removing 3
counts none. -/
theorem unLeaf_Remove_matches_witness :
    (unLeaf.Remove ⟨[1, 2], 2⟩ natEqArgs 2 0 (2, (0 : Int)) 5
        : unNode Nat (List Nat) × Int).2 = 5 + 1 ∧
    (unLeaf.Remove ⟨[1, 2], 2⟩ natEqArgs 3 0 (3, (0 : Int)) 5
        : unNode Nat (List Nat) × Int).2 = 5 :=
  ⟨(unLeaf_Remove_matches ⟨[1, 2], 2⟩ natEqArgs 2 0 (2, (0 : Int)) 5).1
     ⟨2, by decide, by decide⟩,
   (unLeaf_Remove_matches ⟨[1, 2], 2⟩ natEqArgs 3 0 (3, (0 : Int)) 5).2 (by decide)⟩

/-- C24: for a full `unLeaf` (length = capacity = `maxLeafLen`) and `v` eq to
none of its elements: at `depth < maxTreeDepth`, `unLeaf.Add` returns the
`unBranch` obtained from `newUnBranch()` by adding each stored element in
storage order, hashed anew at `depth`, and then `v` with the hasher handed in,
all at the same depth, the counter passed through these adds; at
`depth >= maxTreeDepth` it returns the leaf with `v` appended, longer than
`maxLeafLen`. -/
theorem unLeaf_Add_full (env : UnEnv V UB H) (l : elemSlice V) (args : CombineArgs V)
    (v : V) (depth : Int) (h : H) (c : Int)
    (hno : ∀ x ∈ l.data, args.eq x v = false)
    (hfull : l.data.length = env.maxLeafLen) (hcap : l.cap = env.maxLeafLen) :
    (depth < env.maxTreeDepth →
      unLeaf.Add env l args v depth h c
        = (.branch (addSeq env args depth (env.newUnBranch, c)
              ((l.data.map fun e => (e, env.newHasher e depth)) ++ [(v, h)])).1,
            (addSeq env args depth (env.newUnBranch, c)
              ((l.data.map fun e => (e, env.newHasher e depth)) ++ [(v, h)])).2)) ∧
    (env.maxTreeDepth ≤ depth →
      ∃ cap, unLeaf.Add env l args v depth h c = (.leaf ⟨l.data ++ [v], cap⟩, c) ∧
        env.maxLeafLen < (l.data ++ [v]).length) := by
  constructor
  · intro hd
    simp only [unLeaf.Add, replaceFirst_none args v l.data hno]
    rw [if_neg (by rw [hfull, hcap]; simp; exact hd)]
    simp only [foldl_branchAdd_eq_addSeq, addSeq_append, addSeq]
  · intro hd
    refine ⟨env.grownCap (l.data.length + 1), ?_, by simp [hfull]⟩
    simp only [unLeaf.Add, replaceFirst_none args v l.data hno]
    rw [if_pos (Or.inr hd)]
    simp [goAppend, hfull, hcap]

/-- C24, on the full leaf [1, 2] with 3 added: at depth 0 the result is the
branch that received 1, 2 and 3 in this order; at depth 16 the leaf grows. -/
theorem unLeaf_Add_full_witness :
    unLeaf.Add listUnEnv ⟨[1, 2], 2⟩ natArgs 3 0 (3, 0) 0
        = (.branch (addSeq listUnEnv natArgs 0 (listUnEnv.newUnBranch, 0)
              (([1, 2].map fun e => (e, listUnEnv.newHasher e 0)) ++ [(3, (3, 0))])).1,
            (addSeq listUnEnv natArgs 0 (listUnEnv.newUnBranch, 0)
              (([1, 2].map fun e => (e, listUnEnv.newHasher e 0)) ++ [(3, (3, 0))])).2) ∧
    (∃ cap, unLeaf.Add listUnEnv ⟨[1, 2], 2⟩ natArgs 3 16 (3, 16) 0
        = (.leaf ⟨[1, 2] ++ [3], cap⟩, 0) ∧
      listUnEnv.maxLeafLen < ([1, 2] ++ [3]).length) :=
  ⟨(unLeaf_Add_full listUnEnv ⟨[1, 2], 2⟩ natArgs 3 0 (3, 0) 0 (by decide) rfl rfl).1
     (by decide),
   (unLeaf_Add_full listUnEnv ⟨[1, 2], 2⟩ natArgs 3 16 (3, 16) 0 (by decide) rfl rfl).2
     (by decide)⟩

/-- C28: `unLeaf.Remove` on the element list `pre ++ e :: post`, where `e` is
the first element eq to `v` (the only one in a duplicate-free leaf): when `e`
is the only element the result is `unEmptyNode`; otherwise it is the leaf whose
elements are `pre` followed by the last element moved into the place of `e`
and the rest of `post`, a permutation of the other elements, one shorter;
matches goes up by one. If no stored element is eq to `v`, the leaf and matches
are unchanged. -/
theorem unLeaf_Remove_spec (l : elemSlice V) (args : EqArgs V) (v : V) (depth : Int)
    (h : H) (c : Int) :
    ((∃ x ∈ l.data, args.eq x v = true) →
      ∃ pre e post, l.data = pre ++ e :: post ∧ (∀ x ∈ pre, args.eq x v = false) ∧
        args.eq e v = true ∧
        (pre ++ post = [] →
          (unLeaf.Remove l args v depth h c : unNode V UB × Int) = (.empty, c + 1)) ∧
        (pre ++ post ≠ [] →
          (unLeaf.Remove l args v depth h c : unNode V UB × Int)
            = (.leaf ⟨pre ++ (post.getLast?.toList ++ post.dropLast), l.cap⟩, c + 1) ∧
          (pre ++ (post.getLast?.toList ++ post.dropLast)).Perm (pre ++ post) ∧
          (pre ++ (post.getLast?.toList ++ post.dropLast)).length + 1 = l.data.length)) ∧
    ((∀ x ∈ l.data, args.eq x v = false) →
      (unLeaf.Remove l args v depth h c : unNode V UB × Int) = (.leaf l, c)) := by
  constructor
  · intro hex
    obtain ⟨pre, e, post, h1, h2, h3⟩ := exists_first_eq (fun x => args.eq x v) l.data hex
    refine ⟨pre, e, post, h1, h2, h3, ?_, ?_⟩
    · intro hnil
      have hp : pre = [] := (List.append_eq_nil.1 hnil).1
      have hq : post = [] := (List.append_eq_nil.1 hnil).2
      subst hp; subst hq
      simp [unLeaf.Remove, h1, firstEq, h3]
    · intro hne
      have hperm := moved_last_perm post
      refine ⟨?_, hperm.append_left pre, ?_⟩
      · have hlast : (pre ++ e :: post).length - 1 ≠ 0 := by
          have : 0 < (pre ++ post).length := List.length_pos.2 hne
          rw [List.length_append] at this
          simp only [List.length_append, List.length_cons]
          omega
        have hr := remove_at_split pre e post hne
        simp only [unLeaf.Remove, h1, firstEq_split args.eq v pre e post h2 h3, if_neg hlast]
        split
        · rename_i hlt; rw [if_pos hlt] at hr; rw [hr]
        · rename_i hlt; rw [if_neg hlt] at hr; rw [hr]
      · rw [(hperm.append_left pre).length_eq, h1]
        simp only [List.length_append, List.length_cons]
        omega
  · intro hno
    simp only [unLeaf.Remove, firstEq_none args.eq v l.data hno]

/-- C28, on the leaf [1, 2, 3]: removing 1 moves 3 into its place; on the leaf
[1]: removing 1 gives `unEmptyNode`; on the leaf [1, 2]: removing 3 changes
nothing. -/
theorem unLeaf_Remove_spec_witness :
    (∃ pre e post, [1, 2, 3] = pre ++ e :: post ∧ (∀ x ∈ pre, natEqArgs.eq x 1 = false) ∧
        natEqArgs.eq e 1 = true ∧
        (pre ++ post = [] →
          (unLeaf.Remove ⟨[1, 2, 3], 3⟩ natEqArgs 1 0 (1, (0 : Int)) 0
            : unNode Nat (List Nat) × Int) = (.empty, 0 + 1)) ∧
        (pre ++ post ≠ [] →
          (unLeaf.Remove ⟨[1, 2, 3], 3⟩ natEqArgs 1 0 (1, (0 : Int)) 0
            : unNode Nat (List Nat) × Int)
            = (.leaf ⟨pre ++ (post.getLast?.toList ++ post.dropLast), 3⟩, 0 + 1) ∧
          (pre ++ (post.getLast?.toList ++ post.dropLast)).Perm (pre ++ post) ∧
          (pre ++ (post.getLast?.toList ++ post.dropLast)).length + 1 = 3)) ∧
    (unLeaf.Remove ⟨[1, 2], 2⟩ natEqArgs 3 0 (3, (0 : Int)) 0
        : unNode Nat (List Nat) × Int) = (.leaf ⟨[1, 2], 2⟩, 0) :=
  ⟨(unLeaf_Remove_spec ⟨[1, 2, 3], 3⟩ natEqArgs 1 0 (1, (0 : Int)) 0).1
     ⟨1, by decide, by decide⟩,
   (unLeaf_Remove_spec ⟨[1, 2], 2⟩ natEqArgs 3 0 (3, (0 : Int)) 0).2 (by decide)⟩

end unLeafTheorems

section leafTheorems3

set_option linter.unusedSectionVars false

variable {V B T H : Type} [Zero V] [DecidableEq V]

/-- C25 fails: on the leaf (1, 2) with the identity as `f` there is no
collision, so the claimed matches is count(l) minus the two distinct mapped
elements, 0; `leaf.Map` reports 2, the count of the tree built. -/
theorem leaf_Map_reports_count :
    leaf.Map recordingEnv recordingMutOps ⟨1, 2⟩ natArgs 0 (fun e => e)
        = .ok (some (.leaf ⟨1, 2⟩), 2) ∧
    ((leaf.count (⟨1, 2⟩ : leaf Nat) : Int)
        - (countDistinct natArgs.eq ([1, 2].map fun e => e) : Int) = 0) :=
  ⟨rfl, rfl⟩

/-- C25, amended: for a leaf `l` and `f` non-zero on its stored elements,
`leaf.Map` returns the root of the tree built by adding `f(e)` for each stored
element `e`, in storage order, to a fresh builder, and reports as matches the
count of that tree, which is the number of distinct mapped elements (not the
number of collisions); `Tree.Map` takes the counter its root's `Map` fills as
the count of the new tree. -/
theorem leaf_Map_spec {N M : Type} (env : Env V B T H) (mops : MutOps V B T H) (l : leaf V)
    (args : CombineArgs V) (depth : Int) (f : V → V)
    (hf : ∀ e ∈ l.slice, f e ≠ 0) :
    (∃ nb, Builder.run env mops args (l.slice.map fun e => Op.add (f e)) = .ok nb ∧
      l.Map env mops args depth f = .ok (nb.t.root, nb.t.count) ∧
      nb.t.count = (countDistinct args.eq (l.slice.map f) : Int)) ∧
    (∀ (ops : NodeOps V N M)
        (nodeMap : N → CombineArgs V → Int → Int → (V → V) → Option N × Int) (t : Tree N),
      (Tree.Map ops nodeMap t args f).count = (nodeMap (t.Root ops) args 0 0 f).2) := by
  refine ⟨?_, fun _ _ _ => rfl⟩
  obtain ⟨l0, l1⟩ := l
  by_cases h1 : l1 = 0
  · rw [leaf_slice_one ⟨l0, l1⟩ h1] at hf ⊢
    have f0 : f l0 ≠ 0 := hf l0 (by simp)
    simp [Builder.run, Builder.runFrom, Builder.step, Builder.Add, Builder.empty, newLeaf1,
      newLeaf2, f0, Except.map, leaf.Map, leaf.slice, leaf.count, h1, Builder.Finish,
      Builder.Borrow, countDistinct]
  · rw [leaf_slice_two ⟨l0, l1⟩ h1] at hf ⊢
    have f0 : f l0 ≠ 0 := hf l0 (by simp)
    cases he : args.eq (f l0) (f l1) <;>
      simp [Builder.run, Builder.runFrom, Builder.step, Builder.Add, Builder.empty, newLeaf1,
        newLeaf2, f0, Except.map, leaf.Map, leaf.slice, leaf.count, h1, Builder.Finish,
        Builder.Borrow, countDistinct, node.Add, leaf.Add, he]

/-- C25, amended, on the leaf (1, 2) with `f` sending every element to 7: the
tree built holds one element and matches is 1; and `Tree.Map` on the empty
tree of list nodes, with a root `Map` that reports 1. -/
theorem leaf_Map_spec_witness :
    (∃ nb, Builder.run recordingEnv recordingMutOps natArgs
          ((leaf.slice ⟨1, 2⟩).map fun e => Op.add ((fun _ => 7) e)) = .ok nb ∧
      leaf.Map recordingEnv recordingMutOps ⟨1, 2⟩ natArgs 0 (fun _ => 7)
        = .ok (nb.t.root, nb.t.count) ∧
      nb.t.count = (countDistinct natArgs.eq ((leaf.slice ⟨1, 2⟩).map fun _ => 7) : Int)) ∧
    (Tree.Map listNodeOps (fun _ _ _ c _ => (some [7], c + 1)) ⟨none, 0⟩ natArgs
        (fun _ => 7)).count = 1 :=
  ⟨(leaf_Map_spec (N := List Nat) (M := Unit) recordingEnv recordingMutOps ⟨1, 2⟩ natArgs 0
      (fun _ => 7) (by decide)).1,
   (leaf_Map_spec recordingEnv recordingMutOps ⟨1, 2⟩ natArgs 0 (fun _ => 7) (by decide)).2
      listNodeOps (fun _ _ _ c _ => (some [7], c + 1)) ⟨none, 0⟩⟩

theorem SliceIterator_nextN_fresh (s : List V) (k : Nat) :
    (NewSliceIterator s).nextN k = ⟨s, (k : Int) - 1⟩ := by
  induction k with
  | zero => simp [SliceIterator.nextN, NewSliceIterator]
  | succ k ih =>
    simp only [SliceIterator.nextN, ih, SliceIterator.Next]
    congr 1
    push_cast
    ring

/-- C26: for every slice `s`, the call number `k + 1` of `Next` on a fresh
`SliceIterator` returns true exactly when `k < len(s)`, so the first `len(s)`
calls return true and every later call returns false; after a call that
returned true, `Value()` is `s[k]`, within bounds. `leaf.Iterator` is the
iterator over the occupied slots of the leaf: slot 0, and slot 1 when it is
not `zero`. -/
theorem SliceIterator_spec (s : List V) (k : Nat) (l : leaf V) :
    ((NewSliceIterator s).nextN k).Next.1 = decide (k < s.length) ∧
    (∀ hk : k < s.length, ((NewSliceIterator s).nextN k).Next.2.Value = some s[k]) ∧
    (l.Iterator.nextN k).Next.1 = decide (k < l.count) ∧
    ((l.Iterator.nextN 0).Next.2.Value = some l.data0) ∧
    (l.data1 ≠ 0 → (l.Iterator.nextN 1).Next.2.Value = some l.data1) := by
  have key : ∀ (s : List V) (k : Nat),
      ((NewSliceIterator s).nextN k).Next.1 = decide (k < s.length) ∧
      (∀ hk : k < s.length, ((NewSliceIterator s).nextN k).Next.2.Value = some s[k]) := by
    intro s k
    rw [SliceIterator_nextN_fresh]
    constructor
    · simp [SliceIterator.Next]
    · intro hk
      have h0 : ¬ ((k : Int) - 1 + 1 < 0) := by omega
      have h2 : ((k : Int) - 1 + 1).toNat = k := by omega
      simp only [SliceIterator.Next, SliceIterator.Value, if_neg h0, h2]
      exact List.getElem?_eq_getElem hk
  refine ⟨(key s k).1, (key s k).2, ?_, ?_, ?_⟩
  · have h := (key l.slice k).1
    rw [leaf_slice_length] at h
    exact h
  · have h := (key l.slice 0).2 (by rw [leaf_slice_length]; unfold leaf.count; split <;> omega)
    rw [leaf.Iterator, h]
    unfold leaf.slice leaf.count
    split <;> simp
  · intro h1
    have h := (key l.slice 1).2 (by rw [leaf_slice_length]; simp [leaf.count, h1])
    rw [leaf.Iterator, h]
    simp [leaf.slice, leaf.count, h1]

/-- C26, on the slice [5, 6, 7] and the leaf (1, 2): the third call of `Next`
returns true with value 7, the third call on the leaf returns false, and the
values of the leaf are 1 and 2. -/
theorem SliceIterator_spec_witness :
    ((NewSliceIterator [5, 6, 7]).nextN 2).Next.1 = decide (2 < [5, 6, 7].length) ∧
    ((NewSliceIterator [5, 6, 7]).nextN 2).Next.2.Value = some 7 ∧
    ((leaf.Iterator (⟨1, 2⟩ : leaf Nat)).nextN 2).Next.1
      = decide (2 < leaf.count (⟨1, 2⟩ : leaf Nat)) ∧
    (((leaf.Iterator (⟨1, 2⟩ : leaf Nat)).nextN 0).Next.2.Value = some 1) ∧
    (((leaf.Iterator (⟨1, 2⟩ : leaf Nat)).nextN 1).Next.2.Value = some 2) :=
  ⟨(SliceIterator_spec [5, 6, 7] 2 ⟨1, 2⟩).1,
   (SliceIterator_spec [5, 6, 7] 2 ⟨1, 2⟩).2.1 (by decide),
   (SliceIterator_spec [5, 6, 7] 2 ⟨1, 2⟩).2.2.1,
   (SliceIterator_spec [5, 6, 7] 2 ⟨1, 2⟩).2.2.2.1,
   (SliceIterator_spec [5, 6, 7] 2 ⟨1, 2⟩).2.2.2.2 (by decide)⟩

theorem leaf_With_keeps_Vet (env : Env V B T H) (l : leaf V) (args : CombineArgs V) (v : V)
    (depth : Int) (h : H) (hl : l.data0 ≠ 0) (hv : v ≠ 0)
    (hf : ∀ a b, a ≠ 0 → b ≠ 0 → args.f a b ≠ 0) :
    ∃ (r : Option (node V B T)) (m : Nat), l.With env args v depth h = .ok (r, m) ∧
      ∀ k, r = some (.leaf k) → k.data0 ≠ 0 := by
  obtain ⟨l0, l1⟩ := l
  simp only at hl
  have f0 := hf l0 v hl hv
  clear hf
  by_cases h1 : l1 = 0 <;> cases e0 : args.eq l0 v <;> cases e1 : args.eq l1 v <;>
    by_cases hd : depth ≥ env.maxTreeDepth <;>
    simp [leaf.With, newLeaf2, Except.map, h1, e0, e1, hd, hl, f0]

theorem leaf_whereMask_keeps_Vet (l : leaf V) (mask : Nat) (hl : l.data0 ≠ 0)
    (hm : mask = 2 → l.data1 ≠ 0) :
    ∃ (r : Option (node V B T)), l.whereMask mask = .ok r ∧
      ∀ k, r = some (.leaf k) → k.data0 ≠ 0 := by
  obtain ⟨l0, l1⟩ := l
  simp only at hl hm
  match mask, hm with
  | 0, _ => simp [leaf.whereMask]
  | 1, _ => by_cases h1 : l1 = 0 <;> simp [leaf.whereMask, h1, newLeaf1, newLeaf2, hl, Except.map]
  | 2, hm =>
    have h1 := hm rfl
    simp [leaf.whereMask, h1, newLeaf1, newLeaf2, Except.map]
  | n + 3, _ => simp [leaf.whereMask, hl]

theorem leaf_Without_keeps_Vet (l : leaf V) (args : EqArgs V) (v : V) (depth : Int) (h : H)
    (hl : l.data0 ≠ 0) :
    ∃ (r : Option (node V B T)) (m : Nat), l.Without args v depth h = .ok (r, m) ∧
      ∀ k, r = some (.leaf k) → k.data0 ≠ 0 := by
  have key : ∀ (mask m : Nat), (mask = 2 → l.data1 ≠ 0) →
      ∃ (r : Option (node V B T)) (m2 : Nat),
        ((l.whereMask mask).map fun r => (r, m) : Except Panic (Option (node V B T) × Nat))
          = .ok (r, m2) ∧ ∀ k, r = some (.leaf k) → k.data0 ≠ 0 := by
    intro mask m hm
    obtain ⟨r, hr, hk⟩ := leaf_whereMask_keeps_Vet (B := B) (T := T) l mask hl hm
    exact ⟨r, m, by rw [hr]; rfl, hk⟩
  unfold leaf.Without
  by_cases h1 : l.data1 = 0
  · split
    · exact key _ 1 (by simp [leaf.mask, h1])
    · simp only [h1, ne_eq, not_true_eq_false, if_false]
      exact key _ 0 (by simp [leaf.mask, h1])
  · split
    · exact key _ 1 (fun _ => h1)
    · split
      · exact key _ 1 (fun _ => h1)
      · exact key _ 0 (fun _ => h1)

theorem leaf_Where_keeps_Vet (l : leaf V) (args : WhereArgs V) (depth : Int)
    (hl : l.data0 ≠ 0) :
    ∃ (r : Option (node V B T)) (m : Nat), l.Where args depth = .ok (r, m) ∧
      ∀ k, r = some (.leaf k) → k.data0 ≠ 0 := by
  obtain ⟨l0, l1⟩ := l
  simp only at hl
  by_cases h1 : l1 = 0 <;> cases p0 : args.Pred l0 <;> cases p1 : args.Pred l1 <;>
    simp [leaf.Where, leaf.whereMask, newLeaf1, newLeaf2, Except.map, h1, p0, p1, hl]

theorem leaf_Intersection_keeps_Vet (env : Env V B T H) (l : leaf V) (args : EqArgs V)
    (n : node V B T) (depth : Int) (hl : l.data0 ≠ 0) :
    ∃ (r : Option (node V B T)) (m : Nat), l.Intersection env args n depth = .ok (r, m) ∧
      ∀ k, r = some (.leaf k) → k.data0 ≠ 0 := by
  obtain ⟨l0, l1⟩ := l
  simp only at hl
  by_cases h1 : l1 = 0 <;>
    cases g0 : (n.Get env args l0 (env.newHasher l0 depth)).isSome <;>
    cases g1 : (n.Get env args l1 (env.newHasher l1 depth)).isSome <;>
    simp [leaf.Intersection, leaf.whereMask, newLeaf1, newLeaf2, Except.map, h1, g0, g1, hl]

theorem leaf_Difference_keeps_Vet (env : Env V B T H) (l : leaf V) (args : EqArgs V)
    (n : node V B T) (depth : Int) (hl : l.data0 ≠ 0) :
    ∃ (r : Option (node V B T)) (m : Nat), l.Difference env args n depth = .ok (r, m) ∧
      ∀ k, r = some (.leaf k) → k.data0 ≠ 0 := by
  obtain ⟨l0, l1⟩ := l
  simp only at hl
  by_cases h1 : l1 = 0 <;>
    cases g0 : (n.Get env args l0 (env.newHasher l0 depth)).isSome <;>
    cases g1 : (n.Get env args l1 (env.newHasher l1 depth)).isSome <;>
    simp [leaf.Difference, leaf.mask, andNot, leaf.whereMask, newLeaf1, newLeaf2, Except.map,
      h1, g0, g1, hl]

theorem leaf_Add_keeps_Vet (env : Env V B T H) (l : leaf V) (args : CombineArgs V) (v : V)
    (depth : Int) (h : H) (hl : l.data0 ≠ 0) (hv : v ≠ 0)
    (hf : ∀ a b, a ≠ 0 → b ≠ 0 → args.f a b ≠ 0) :
    ∀ k, (l.Add env args v depth h).1 = some (.leaf k) → k.data0 ≠ 0 := by
  obtain ⟨l0, l1⟩ := l
  simp only at hl
  have f0 := hf l0 v hl hv
  clear hf
  intro k
  by_cases h1 : l1 = 0 <;> cases e0 : args.eq l0 v <;> cases e1 : args.eq l1 v <;>
    by_cases hd : depth ≥ env.maxTreeDepth <;>
    simp [leaf.Add, h1, e0, e1, hd] <;> intro hk <;> subst hk <;> assumption

theorem leaf_Remove_keeps_Vet (l : leaf V) (args : EqArgs V) (v : V) (depth : Int) (h : H)
    (hl : l.data0 ≠ 0) :
    ∀ k, (l.Remove args v depth h : Option (node V B T) × Nat).1 = some (.leaf k) →
      k.data0 ≠ 0 := by
  obtain ⟨l0, l1⟩ := l
  simp only at hl
  intro k
  by_cases h1 : l1 = 0 <;> cases e0 : args.eq l0 v <;> cases e1 : args.eq l1 v <;>
    simp [leaf.Remove, h1, e0, e1] <;> intro hk <;> subst hk <;> assumption

theorem newLeaf_panics_iff (data : List V) :
    (∃ e, newLeaf data = .error e) ↔
      (data.length ≠ 1 ∧ data.length ≠ 2) ∨ data.head? = some 0 := by
  match data with
  | [] => simp [newLeaf]
  | [a] => by_cases ha : a = 0 <;> simp [newLeaf, newLeaf1, newLeaf2, ha]
  | [a, b] => by_cases ha : a = 0 <;> simp [newLeaf, newLeaf2, ha]
  | a :: b :: c :: rest => simp [newLeaf]

/-- C27: for a leaf that passes `Vet`, a non-zero `v` and a merge function with
non-zero results on non-zero elements, `With`, `Without`, `Where`,
`Intersection` and `Difference` return without a panic and `Add` and `Remove`
return, and every leaf any of the seven returns passes `Vet` again, so none of
them returns a leaf without elements (the empty result is nil). `newLeaf2`
panics exactly when its first element is `zero`, and `newLeaf` exactly when
the number of elements is not 1 or 2 or the first element is `zero`. -/
theorem leaf_wellFormed_preserved (env : Env V B T H) (l : leaf V) (cargs : CombineArgs V)
    (eargs : EqArgs V) (wargs : WhereArgs V) (v : V) (n : node V B T) (depth : Int) (h : H)
    (hl : l.Vet = .ok ()) (hv : v ≠ 0)
    (hf : ∀ a b, a ≠ 0 → b ≠ 0 → cargs.f a b ≠ 0) :
    (∃ (r : Option (node V B T)) (m : Nat), l.With env cargs v depth h = .ok (r, m) ∧
      ∀ k, r = some (.leaf k) → k.Vet = .ok ()) ∧
    (∃ (r : Option (node V B T)) (m : Nat), l.Without eargs v depth h = .ok (r, m) ∧
      ∀ k, r = some (.leaf k) → k.Vet = .ok ()) ∧
    (∃ (r : Option (node V B T)) (m : Nat), l.Where wargs depth = .ok (r, m) ∧
      ∀ k, r = some (.leaf k) → k.Vet = .ok ()) ∧
    (∃ (r : Option (node V B T)) (m : Nat), l.Intersection env eargs n depth = .ok (r, m) ∧
      ∀ k, r = some (.leaf k) → k.Vet = .ok ()) ∧
    (∃ (r : Option (node V B T)) (m : Nat), l.Difference env eargs n depth = .ok (r, m) ∧
      ∀ k, r = some (.leaf k) → k.Vet = .ok ()) ∧
    (∀ k, (l.Add env cargs v depth h).1 = some (.leaf k) → k.Vet = .ok ()) ∧
    (∀ k, (l.Remove eargs v depth h : Option (node V B T) × Nat).1 = some (.leaf k) →
      k.Vet = .ok ()) ∧
    (∀ a b : V, (∃ e, newLeaf2 a b = .error e) ↔ a = 0) ∧
    (∀ data : List V, (∃ e, newLeaf data = .error e) ↔
      (data.length ≠ 1 ∧ data.length ≠ 2) ∨ data.head? = some 0) := by
  rw [leaf_Vet_ok_iff] at hl
  simp only [leaf_Vet_ok_iff]
  refine ⟨leaf_With_keeps_Vet env l cargs v depth h hl hv hf,
    leaf_Without_keeps_Vet l eargs v depth h hl,
    leaf_Where_keeps_Vet l wargs depth hl,
    leaf_Intersection_keeps_Vet env l eargs n depth hl,
    leaf_Difference_keeps_Vet env l eargs n depth hl,
    leaf_Add_keeps_Vet env l cargs v depth h hl hv hf,
    leaf_Remove_keeps_Vet l eargs v depth h hl, ?_, newLeaf_panics_iff⟩
  intro a b
  by_cases ha : a = 0 <;> simp [newLeaf2, ha]

/-- C27, on the leaf (1, 2) with 2 given to `With`, `Without`, `Add` and
`Remove`, the predicate "is 2" to `Where` and the leaf (2, 3) to
`Intersection` and `Difference`. -/
theorem leaf_wellFormed_preserved_witness :
    (∃ (r : Option (node Nat (Int × List Nat) (List Nat))) (m : Nat),
      leaf.With recordingEnv ⟨1, 2⟩ natArgs 2 0 (2, 0) = .ok (r, m) ∧
      ∀ k, r = some (.leaf k) → k.Vet = .ok ()) ∧
    (∃ (r : Option (node Nat (Int × List Nat) (List Nat))) (m : Nat),
      leaf.Without ⟨1, 2⟩ natEqArgs 2 0 (2, (0 : Int)) = .ok (r, m) ∧
      ∀ k, r = some (.leaf k) → k.Vet = .ok ()) ∧
    (∃ (r : Option (node Nat (Int × List Nat) (List Nat))) (m : Nat),
      leaf.Where ⟨1, 2⟩ ⟨fun e => e == 2⟩ 0 = .ok (r, m) ∧
      ∀ k, r = some (.leaf k) → k.Vet = .ok ()) ∧
    (∃ (r : Option (node Nat (Int × List Nat) (List Nat))) (m : Nat),
      leaf.Intersection recordingEnv ⟨1, 2⟩ natEqArgs (.leaf ⟨2, 3⟩) 0 = .ok (r, m) ∧
      ∀ k, r = some (.leaf k) → k.Vet = .ok ()) ∧
    (∃ (r : Option (node Nat (Int × List Nat) (List Nat))) (m : Nat),
      leaf.Difference recordingEnv ⟨1, 2⟩ natEqArgs (.leaf ⟨2, 3⟩) 0 = .ok (r, m) ∧
      ∀ k, r = some (.leaf k) → k.Vet = .ok ()) ∧
    (∀ k, (leaf.Add recordingEnv ⟨1, 2⟩ natArgs 2 0 (2, 0)).1 = some (.leaf k) →
      k.Vet = .ok ()) ∧
    (∀ k, (leaf.Remove ⟨1, 2⟩ natEqArgs 2 0 (2, (0 : Int))
        : Option (node Nat (Int × List Nat) (List Nat)) × Nat).1 = some (.leaf k) →
      k.Vet = .ok ()) ∧
    (∀ a b : Nat, (∃ e, newLeaf2 a b = .error e) ↔ a = 0) ∧
    (∀ data : List Nat, (∃ e, newLeaf data = .error e) ↔
      (data.length ≠ 1 ∧ data.length ≠ 2) ∨ data.head? = some 0) :=
  leaf_wellFormed_preserved recordingEnv ⟨1, 2⟩ natArgs natEqArgs ⟨fun e => e == 2⟩ 2
    (.leaf ⟨2, 3⟩) 0 (2, 0) rfl (by decide) natArgs_nonzero

end leafTheorems3

section branchLeafTheorems

set_option linter.unusedSectionVars false

variable {V B T N H H2 L : Type} [Zero V] [DecidableEq V]

theorem combineLoop_eq_foldl (ops : NodeOps V N H) (args : CombineArgs V) (depth : Int)
    (es : List V) (r : branch N × Int) :
    combineLoop ops args depth es r
      = es.foldl (fun (r : branch N × Int) e =>
          r.1.With ops args e depth (ops.newHasher e depth) r.2) r := by
  induction es generalizing r with
  | nil => rfl
  | cons e rest ih => simp only [combineLoop, List.foldl_cons, ih]

theorem foldWithout_error (ops : NodeOps V N H) (newLeaf : List V → Except Panic L)
    (leafWithout : L → EqArgs V → V → Int → H → Int → Except Panic (cnode L N) × Int)
    (args : EqArgs V) (depth : Int) (es : List V) (p : Panic) (c : Int) :
    es.foldl
      (fun (s : Except Panic (cnode L N) × Int) e =>
        match s.1 with
        | .ok r =>
          cnode.Without ops newLeaf leafWithout r args e depth (ops.newHasher e depth) s.2
        | .error p => (.error p, s.2))
      (.error p, c) = (.error p, c) := by
  induction es with
  | nil => rfl
  | cons e rest ih => simp only [List.foldl_cons, ih]

theorem differenceLoop_eq_foldl (ops : NodeOps V N H) (newLeaf : List V → Except Panic L)
    (leafWithout : L → EqArgs V → V → Int → H → Int → Except Panic (cnode L N) × Int)
    (args : EqArgs V) (depth : Int) (es : List V) (r : cnode L N × Int) :
    differenceLoop ops newLeaf leafWithout args depth es r
      = es.foldl
        (fun (s : Except Panic (cnode L N) × Int) e =>
          match s.1 with
          | .ok r =>
            cnode.Without ops newLeaf leafWithout r args e depth (ops.newHasher e depth) s.2
          | .error p => (.error p, s.2))
        (.ok r.1, r.2) := by
  induction es generalizing r with
  | nil => rfl
  | cons e rest ih =>
    simp only [differenceLoop, List.foldl_cons]
    cases hw : cnode.Without ops newLeaf leafWithout r.1 args e depth
        (ops.newHasher e depth) r.2 with
    | mk x c1 =>
      cases x with
      | ok r1 => simp only [ih]
      | error p => simp only [foldWithout_error]

theorem branch_With_adds (ops : NodeOps V N H) (args : CombineArgs V)
    (hadd : ∀ (n : N) (v : V) (d : Int) (h : H), AddsToCounter (ops.With n args v d h))
    (b : branch N) (v : V) (depth : Int) (h : H) :
    AddsToCounter (b.With ops args v depth h) := by
  intro c
  have h1 := hadd (b.p.Get ops (ops.hash h)) v (depth + 1) (ops.next h) c
  simp only [branch.With]
  rw [h1]

theorem foldWith_adds (ops : NodeOps V N H) (args : CombineArgs V)
    (hadd : ∀ (n : N) (v : V) (d : Int) (h : H), AddsToCounter (ops.With n args v d h))
    (es : List V) (depth : Int) (b : branch N) :
    AddsToCounter (foldWith ops b args es depth) := by
  induction es generalizing b with
  | nil => intro c; simp [foldWith]
  | cons e rest ih =>
    intro c
    have h1 := branch_With_adds ops args hadd b e depth (ops.newHasher e depth)
    have e1 : ∀ c, foldWith ops b args (e :: rest) depth c
        = foldWith ops (b.With ops args e depth (ops.newHasher e depth) c).1 args rest depth
            (b.With ops args e depth (ops.newHasher e depth) c).2 := fun _ => rfl
    rw [e1 c, e1 0, h1 c]
    rw [ih _ (c + _), ih _ ((b.With ops args e depth (ops.newHasher e depth) 0).2)]
    simp only [add_assoc]

/-- C21: the `case *leaf` arm of `branch.Combine` returns the left fold of
`branch.With` over the stored elements of the leaf, in storage order, each at
the same depth with `newHasher(e, depth)`, and the `case *leaf` arm of
`branch.Difference` the left fold of `Without` over the same elements (a panic
ends it); the counter is passed from step to step, so that with a child `With`
that only adds to the counter the fold adds to it the matches of all its
steps; and `leaf.Combine` of `leaf.go` hands a branch operand the leaf with
`args.flip`. -/
theorem branch_leaf_fold (ops : NodeOps V N H) (newLeaf : List V → Except Panic L)
    (leafWithout : L → EqArgs V → V → Int → H → Int → Except Panic (cnode L N) × Int)
    (b : branch N) (cargs : CombineArgs V) (eargs : EqArgs V) (n : sliceLeaf V)
    (depth : Int) (c : Int) (env : Env V B T H2) (l : leaf V) (b2 : B) :
    b.CombineLeaf ops cargs n depth c = foldWith ops b cargs n.data depth c ∧
    b.DifferenceLeaf ops newLeaf leafWithout eargs n depth c
      = foldWithout ops newLeaf leafWithout b eargs n.data depth c ∧
    (∀ (es : List V) (e : V),
      foldWith ops b cargs (es ++ [e]) depth c
        = (foldWith ops b cargs es depth c).1.With ops cargs e depth (ops.newHasher e depth)
            (foldWith ops b cargs es depth c).2) ∧
    ((∀ (k : N) (v : V) (d : Int) (h : H), AddsToCounter (ops.With k cargs v d h)) →
      b.CombineLeaf ops cargs n depth c
        = ((b.CombineLeaf ops cargs n depth 0).1,
            c + (b.CombineLeaf ops cargs n depth 0).2)) ∧
    l.Combine env cargs (.branch b2) depth = env.branchCombine b2 cargs.flip (.leaf l) depth := by
  refine ⟨combineLoop_eq_foldl ops cargs depth n.data (b, c),
    differenceLoop_eq_foldl ops newLeaf leafWithout eargs depth n.data (.branch b, c),
    fun es e => by simp [foldWith, List.foldl_append], fun hadd => ?_, rfl⟩
  have h1 : ∀ c, b.CombineLeaf ops cargs n depth c = foldWith ops b cargs n.data depth c :=
    fun c => combineLoop_eq_foldl ops cargs depth n.data (b, c)
  rw [h1 c, h1 0]
  exact foldWith_adds ops cargs hadd n.data depth b c

/-- C21, on the branch whose slot 0 holds 5 (children are lists of elements)
and the leaf holding 1 and 5: started at the counter 7, the fold puts 1 into
the child and meets 5 again, ending at the counter 8. -/
theorem branch_leaf_fold_witness :
    branch.CombineLeaf listNodeOps ⟨[some [5], none, none, none]⟩ natArgs ⟨[1, 5]⟩ 0 7
      = ((branch.CombineLeaf listNodeOps ⟨[some [5], none, none, none]⟩ natArgs
            ⟨[1, 5]⟩ 0 0).1,
          7 + (branch.CombineLeaf listNodeOps ⟨[some [5], none, none, none]⟩ natArgs
            ⟨[1, 5]⟩ 0 0).2) ∧
    branch.CombineLeaf listNodeOps ⟨[some [5], none, none, none]⟩ natArgs ⟨[1, 5]⟩ 0 7
      = (⟨[some [1, 5], none, none, none]⟩, 8) :=
  ⟨(branch_leaf_fold listNodeOps (fun es => (Except.ok es : Except Panic (List Nat)))
      (fun _ _ _ _ _ c => (.ok (.leaf []), c)) ⟨[some [5], none, none, none]⟩ natArgs
      natEqArgs ⟨[1, 5]⟩ 0 7 recordingEnv ⟨1, 0⟩ (0, [])).2.2.2.1
      (fun k v d h c => by simp [listNodeOps, add_assoc]),
   rfl⟩

end branchLeafTheorems

section hashTheorems

variable {A : Type}

theorem Map_Hash_foldl_eq (valueHash : A → Nat) (range : List (KeyValue A)) (h0 : Nat) :
    range.foldl
      (fun h kv =>
        h ^^^ ((12012876008735959943 * hash64 valueHash kv.Key
          + hash64 valueHash kv.Value) % 2 ^ 64)) h0
      = range.foldr (fun kv h => h ^^^ entryHash valueHash kv) h0 := by
  induction range generalizing h0 with
  | nil => rfl
  | cons kv rest ih =>
    simp only [List.foldl_cons, List.foldr_cons, ih]
    have comm : ∀ (l : List (KeyValue A)) (x y : Nat),
        l.foldr (fun kv h => h ^^^ entryHash valueHash kv) (x ^^^ y)
          = l.foldr (fun kv h => h ^^^ entryHash valueHash kv) x ^^^ y := by
      intro l x y
      induction l with
      | nil => rfl
      | cons a l ih2 =>
        simp only [List.foldr_cons, ih2]
        rw [Nat.xor_assoc, Nat.xor_comm y, ← Nat.xor_assoc]
    exact comm rest h0 _

theorem xorAll_eq_foldr (valueHash : A → Nat) (range : List (KeyValue A)) :
    xorAll valueHash range
      = range.foldr (fun kv h => h ^^^ entryHash valueHash kv) 3167960924819262823 := by
  induction range with
  | nil => rfl
  | cons kv rest ih => simp only [xorAll, List.foldr_cons, ih]

theorem Map_Hash_eq_xorAll (valueHash : A → Nat) (range : List (KeyValue A)) :
    Map.Hash valueHash range = xorAll valueHash range := by
  rw [xorAll_eq_foldr, Map.Hash, Map_Hash_foldl_eq]

theorem xorAll_perm (valueHash : A → Nat) {r1 r2 : List (KeyValue A)} (h : r1.Perm r2) :
    xorAll valueHash r1 = xorAll valueHash r2 := by
  induction h with
  | nil => rfl
  | cons x _ ih => simp only [xorAll, ih]
  | swap x y l =>
    simp only [xorAll]
    rw [Nat.xor_assoc, Nat.xor_comm (entryHash valueHash x), ← Nat.xor_assoc]
  | trans _ _ ih1 ih2 => exact ih1.trans ih2

theorem xorAll_lt (valueHash : A → Nat) (range : List (KeyValue A)) :
    xorAll valueHash range < 2 ^ 64 := by
  induction range with
  | nil => simp [xorAll]
  | cons kv rest ih =>
    simp only [xorAll]
    exact Nat.xor_lt_two_pow ih (Nat.mod_lt _ (by norm_num))

/-- C29: for two orderings `r1`, `r2` of the same entries `Map.Hash` returns
the same value; it is 3167960924819262823 XOR-ed with
`(12012876008735959943 * Hash(key) + Hash(value)) mod 2^64` for every entry, a
64-bit value; and the Map without entries hashes to 3167960924819262823. -/
theorem Map_Hash_order_independent (valueHash : A → Nat) (r1 r2 : List (KeyValue A))
    (h : r1.Perm r2) :
    Map.Hash valueHash r1 = Map.Hash valueHash r2 ∧
    Map.Hash valueHash r1 = xorAll valueHash r1 ∧
    Map.Hash valueHash r1 < 2 ^ 64 ∧
    Map.Hash valueHash ([] : List (KeyValue A)) = 3167960924819262823 := by
  refine ⟨?_, Map_Hash_eq_xorAll valueHash r1, ?_, rfl⟩
  · rw [Map_Hash_eq_xorAll, Map_Hash_eq_xorAll, xorAll_perm valueHash h]
  · rw [Map_Hash_eq_xorAll]
    exact xorAll_lt valueHash r1

/-- C29, on the entries 1: 10 and 2: 20 in both orders, hashed by the
identity. -/
theorem Map_Hash_order_independent_witness :
    Map.Hash (fun n : Nat => n) [⟨1, 10⟩, ⟨2, 20⟩]
      = Map.Hash (fun n : Nat => n) [⟨2, 20⟩, ⟨1, 10⟩] ∧
    Map.Hash (fun n : Nat => n) [⟨1, 10⟩, ⟨2, 20⟩]
      = xorAll (fun n : Nat => n) [⟨1, 10⟩, ⟨2, 20⟩] ∧
    Map.Hash (fun n : Nat => n) [⟨1, 10⟩, ⟨2, 20⟩] < 2 ^ 64 ∧
    Map.Hash (fun n : Nat => n) ([] : List (KeyValue Nat)) = 3167960924819262823 :=
  Map_Hash_order_independent (fun n : Nat => n) [⟨1, 10⟩, ⟨2, 20⟩] [⟨2, 20⟩, ⟨1, 10⟩]
    (List.Perm.swap _ _ _)

end hashTheorems

section intSetTheorems

/-- C30 fails in the code: for the set whose only block, at key 0, has the
cells [1, 0] (the only member is 0, with `blockBits` 128 and `cellBits` 64), the
first `Next` returns true at the cell 1; the second `Next` clears the bit and
returns true although no member is left, and `Value()` is computed from the
cell 0; the third `Next` skips zero cells past the end of the block and panics
on `i.block[0]`. -/
theorem intSetIterator_runs_past_block :
    intSetIterator.Next 128 64 ⟨[(0, [1, 0])], [], 0⟩ = some (true, ⟨[], [1, 0], 0⟩) ∧
    intSetIterator.Next 128 64 ⟨[], [1, 0], 0⟩ = some (true, ⟨[], [0, 0], 0⟩) ∧
    (∀ index : Nat → Int, intSetIterator.Value index ⟨[], [0, 0], 0⟩ = some (0 + index 0)) ∧
    intSetIterator.Next 128 64 ⟨[], [0, 0], 0⟩ = none :=
  ⟨rfl, rfl, fun _ => rfl, rfl⟩

end intSetTheorems

section inverseTheorems

set_option linter.unusedSectionVars false

variable {V B T N H H2 L : Type} [Zero V] [DecidableEq V]

theorem branchElems_cons_length (elems : N → List V) (x : Option N) (p : packer N) :
    (branchElems elems ⟨x :: p⟩).length
      = (slotElems elems x).length + (branchElems elems ⟨p⟩).length := by
  cases x with
  | none => simp [branchElems, slotElems]
  | some n => simp [branchElems, slotElems, List.flatMap_cons]

theorem branchElems_set_length (elems : N → List V) (p : packer N) (i : Nat) (x : Option N)
    (hi : i < p.length) :
    (branchElems elems ⟨p.set i x⟩).length + (slotElems elems (p.getD i none)).length
      = (branchElems elems ⟨p⟩).length + (slotElems elems x).length := by
  induction p generalizing i with
  | nil => simp at hi
  | cons y ys ih =>
    cases i with
    | zero =>
      simp only [List.set_cons_zero, List.getD_cons_zero, branchElems_cons_length]
      omega
    | succ i =>
      have hi2 : i < ys.length := by simpa using hi
      have h := ih i hi2
      simp only [List.set_cons_succ, List.getD_cons_succ, branchElems_cons_length]
      omega

theorem packer_Get_set_self (ops : NodeOps V N H) (p : packer N) (i : Nat) (x : Option N)
    (hi : i < p.length) : packer.Get ops (p.set i x) i = nodeOr ops x := by
  have h : (p.set i x).getD i none = x := by
    rw [List.getD_eq_getElem?_getD, List.getElem?_set]
    simp [hi]
  simp only [packer.Get, h, nodeOr]

theorem packer_Get_set_other (ops : NodeOps V N H) (p : packer N) (i j : Nat) (x : Option N)
    (hij : i ≠ j) : packer.Get ops (p.set i x) j = packer.Get ops p j := by
  have h : (p.set i x).getD j none = p.getD j none := by
    rw [List.getD_eq_getElem?_getD, List.getD_eq_getElem?_getD, List.getElem?_set]
    simp [hij]
  simp only [packer.Get, h]

theorem branch_roundTrip {L : Type} (ops : NodeOps V N H) (newLeaf : List V → Except Panic L)
    (elems : N → List V) (cargs : CombineArgs V) (eargs : EqArgs V) (v : V)
    (b : branch N) (depth : Int) (h : H) (r1 r2 : Option N)
    (hi : ops.hash h < b.p.length) (hc : CopySpec ops.CopyTo elems)
    (hcanon : ops.maxLeafLen < (branchElems elems b).length)
    (hrefl : ∀ j < ops.fanout,
      ops.Equal (b.p.Get ops j) eargs (b.p.Get ops j) (depth + 1) = true)
    (hrt : RoundTrip ops cargs eargs v (b.p.Get ops (ops.hash h)) (depth + 1) (ops.next h)
      r1 r2)
    (hcnt : (slotElems elems r2).length
      = (slotElems elems (b.p.getD (ops.hash h) none)).length) :
    (∀ c, b.With ops cargs v depth h c = (⟨b.p.set (ops.hash h) r1⟩, c)) ∧
    (∀ c, (⟨b.p.set (ops.hash h) r1⟩ : branch N).Without ops newLeaf eargs v depth h c
      = (.ok (.branch ⟨b.p.set (ops.hash h) r2⟩), c + 1)) ∧
    (⟨b.p.set (ops.hash h) r2⟩ : branch N).EqualBranch ops eargs b depth = true := by
  obtain ⟨hw, hwo, he⟩ := hrt
  refine ⟨fun c => ?_, fun c => ?_, ?_⟩
  · simp only [branch.With, hw c, packer.With]
  · have hlen := branchElems_set_length elems b.p (ops.hash h) r2 hi
    have hgt : ops.maxLeafLen
        < (branchElems elems (⟨b.p.set (ops.hash h) r2⟩ : branch N)).length := by
      have hb : (branchElems elems (⟨b.p⟩ : branch N)).length = (branchElems elems b).length :=
        rfl
      omega
    simp only [branch.Without, packer_Get_set_self ops b.p _ r1 hi, hwo c, packer.With,
      List.set_set]
    rw [(branch_Canonical_cases ops.CopyTo elems hc newLeaf ops.maxLeafLen
      ⟨b.p.set (ops.hash h) r2⟩ depth).1 hgt]
  · simp only [branch.EqualBranch, Parallel]
    rw [parallelOver_all]
    intro j hj
    have hj2 : j < ops.fanout := List.mem_range.1 hj
    by_cases hij : ops.hash h = j
    · subst hij
      rw [packer_Get_set_self ops b.p _ r2 hi]
      exact he
    · rw [packer_Get_set_other ops b.p _ j r2 hij]
      exact hrefl j hj2

/-- C11: insert then remove is the identity up to `Equal`, layer by layer.
`tree.go`: for every tree `t` (its root nil, read as the empty node, or any
node), if the root's `With(v)` goes without a match, `Without(v)` on the
result has one match and gives a node `Equal` to the root, then
`t.With(v).Without(v)` is `Equal` to `t` and has the count of `t`, and
`t.With(v)` has one element more.  `branch.go`: for every branch that holds
more than `maxLeafLen` elements and whose children are `Equal` to themselves,
if the child in the slot of `v` has this property and comes back with as many
elements, the branch has it: `With(v)` and then `Without(v)` return a branch
`Equal` to it, with no match and one match.  `leaf.go`: for every 1-element
leaf `l` that passes `Vet`, a non-zero `v` not eq to its element and a
reflexive `eq`, `l.With(v)` is the 2-leaf `(l0, v)` with matches 0, and
`Without(v)` applied to it returns, with matches 1, a 1-leaf that is `Equal`
to `l`; a 2-element leaf hands its elements and `v`, with matches 0, to
`newBranchFrom` (to `newTwig` at `maxTreeDepth`), whose results are nodes of
the kinds above. -/
theorem With_Without_inverse (ops : NodeOps V N H) (newLeaf : List V → Except Panic L)
    (elems : N → List V) (env : Env V B T H2) (cargs : CombineArgs V) (eargs : EqArgs V)
    (v : V) :
    (∀ (t : Tree N) (r1 r2 : Option N),
      RoundTrip ops cargs eargs v (t.Root ops) 0 (ops.newHasher v 0) r1 r2 →
      Tree.Equal ops ((t.With ops cargs v).Without ops eargs v) eargs t = true ∧
      ((t.With ops cargs v).Without ops eargs v).count = t.count ∧
      (t.With ops cargs v).count = t.count + 1) ∧
    (∀ (b : branch N) (depth : Int) (h : H) (r1 r2 : Option N),
      ops.hash h < b.p.length → CopySpec ops.CopyTo elems →
      ops.maxLeafLen < (branchElems elems b).length →
      (∀ j < ops.fanout,
        ops.Equal (b.p.Get ops j) eargs (b.p.Get ops j) (depth + 1) = true) →
      RoundTrip ops cargs eargs v (b.p.Get ops (ops.hash h)) (depth + 1) (ops.next h)
        r1 r2 →
      (slotElems elems r2).length
        = (slotElems elems (b.p.getD (ops.hash h) none)).length →
      ∃ b1 b2 : branch N,
        (∀ c, b.With ops cargs v depth h c = (b1, c)) ∧
        (∀ c, b1.Without ops newLeaf eargs v depth h c = (.ok (.branch b2), c + 1)) ∧
        b2.EqualBranch ops eargs b depth = true) ∧
    (∀ (l : leaf V) (depth : Int) (h : H2),
      l.Vet = .ok () → l.data1 = 0 → v ≠ 0 → cargs.eq l.data0 v = false →
      (∀ a, cargs.eq a a = true) →
      ∃ w : leaf V, l.With env cargs v depth h = .ok (some (.leaf w), 0) ∧ w.count = 2 ∧
        ∃ r : leaf V,
          (w.Without cargs.toEqArgs v depth h : Except Panic (Option (node V B T) × Nat))
            = .ok (some (.leaf r), 1) ∧
          r.count = 1 ∧ r.Equal cargs.toEqArgs (.leaf l : node V B T) depth = true) ∧
    (∀ (l : leaf V) (depth : Int) (h : H2),
      l.data1 ≠ 0 → cargs.eq l.data0 v = false → cargs.eq l.data1 v = false →
      l.With env cargs v depth h =
        if depth ≥ env.maxTreeDepth then
          .ok (some (.twig (env.newTwig [l.data0, l.data1, v])), 0)
        else .ok (some (.branch (env.newBranchFrom depth [l.data0, l.data1, v])), 0)) := by
  refine ⟨fun t r1 r2 hrt => ?_, fun b depth h r1 r2 hi hc hcanon hrefl hrt hcnt => ?_,
    fun l depth h hl h1 hv hne hrefl => ?_, fun l depth h h1 e0 e1 => by
      simp only [leaf.With, e0, e1, h1, if_false, Bool.false_eq_true]⟩
  · obtain ⟨hw, hwo, he⟩ := hrt
    have hroot : ∀ (r : Option N) (c : Int), (newTreeNeg r c).Root ops = nodeOr ops r := by
      intro r c
      cases r <;> rfl
    have hW : t.With ops cargs v = newTreeNeg r1 (-(t.count + 1)) := by
      simp only [Tree.With, hw]
    have hcount : (newTreeNeg r1 (-(t.count + 1))).count = t.count + 1 := by
      simp only [newTreeNeg]
      omega
    have hWo : (t.With ops cargs v).Without ops eargs v
        = newTreeNeg r2 (-(t.count + 1) + 1) := by
      rw [hW]
      simp only [Tree.Without, hroot, hcount, hwo]
    refine ⟨?_, ?_, ?_⟩
    · rw [hWo]
      simp only [Tree.Equal, hroot]
      exact he
    · rw [hWo]
      simp only [newTreeNeg]
      omega
    · rw [hW]
      exact hcount
  · obtain ⟨h1, h2, h3⟩ := branch_roundTrip ops newLeaf elems cargs eargs v b depth h r1 r2
      hi hc hcanon hrefl hrt hcnt
    exact ⟨_, _, h1, h2, h3⟩
  · rw [leaf_Vet_ok_iff] at hl
    obtain ⟨l0, l1⟩ := l
    simp only at hl h1 hne
    subst h1
    refine ⟨⟨l0, v⟩, ?_, ?_, ⟨l0, 0⟩, ?_, ?_, ?_⟩
    · simp [leaf.With, hne, newLeaf2, hl, Except.map]
    · simp [leaf.count, hv]
    · simp [leaf.Without, CombineArgs.toEqArgs, hne, hv, hrefl, leaf.mask, leaf.whereMask,
        newLeaf1, newLeaf2, hl, Except.map]
    · simp [leaf.count]
    · simp [leaf.Equal, leaf.mask, CombineArgs.toEqArgs, hrefl]

/-- C11, with nodes that are lists of elements and the element 3: on the empty
tree; on the branch with the slots (1, 2 | - | 4, 5 | -), where 3 goes to
slot 0; and on the leaf (1) of `leaf.go` with the element 2. -/
theorem With_Without_inverse_witness :
    (Tree.Equal listNodeOps
        ((Tree.With listNodeOps ⟨none, 0⟩ natArgs 3).Without listNodeOps natEqArgs 3)
        natEqArgs ⟨none, 0⟩ = true ∧
      ((Tree.With listNodeOps ⟨none, 0⟩ natArgs 3).Without listNodeOps natEqArgs 3).count
        = 0 ∧
      (Tree.With listNodeOps (⟨none, 0⟩ : Tree (List Nat)) natArgs 3).count = 0 + 1) ∧
    (∃ b1 b2 : branch (List Nat),
      (∀ c, branch.With listNodeOps ⟨[some [1, 2], none, some [4, 5], none]⟩ natArgs 3 0 () c
        = (b1, c)) ∧
      (∀ c, b1.Without listNodeOps (fun es => (Except.ok es : Except Panic (List Nat)))
        natEqArgs 3 0 () c = (.ok (.branch b2), c + 1)) ∧
      b2.EqualBranch listNodeOps natEqArgs ⟨[some [1, 2], none, some [4, 5], none]⟩ 0
        = true) ∧
    (∃ w : leaf Nat, leaf.With recordingEnv ⟨1, 0⟩ natArgs 2 0 (2, 0)
        = .ok (some (.leaf w), 0) ∧ w.count = 2 ∧
      ∃ r : leaf Nat,
        (w.Without natArgs.toEqArgs 2 0 (2, (0 : Int))
          : Except Panic (Option (node Nat (Int × List Nat) (List Nat)) × Nat))
          = .ok (some (.leaf r), 1) ∧
        r.count = 1 ∧
        r.Equal natArgs.toEqArgs
          (.leaf ⟨1, 0⟩ : node Nat (Int × List Nat) (List Nat)) 0 = true) ∧
    leaf.With recordingEnv ⟨1, 2⟩ natArgs 3 0 (3, 0) =
      (if (0 : Int) ≥ recordingEnv.maxTreeDepth then
          .ok (some (.twig (recordingEnv.newTwig [1, 2, 3])), 0)
        else .ok (some (.branch (recordingEnv.newBranchFrom 0 [1, 2, 3])), 0)) :=
  ⟨(With_Without_inverse listNodeOps (fun es => (Except.ok es : Except Panic (List Nat)))
      (fun (n : List Nat) => n) recordingEnv natArgs natEqArgs 3).1 ⟨none, 0⟩
      (some [3]) (some [])
      ⟨fun c => by simp [listNodeOps, Tree.Root],
        fun c => by simp [listNodeOps, nodeOr], by simp [listNodeOps, nodeOr, Tree.Root]⟩,
   (With_Without_inverse listNodeOps (fun es => (Except.ok es : Except Panic (List Nat)))
      (fun (n : List Nat) => n) recordingEnv natArgs natEqArgs 3).2.1
      ⟨[some [1, 2], none, some [4, 5], none]⟩ 0 () (some [3, 1, 2]) (some [1, 2])
      (by decide) listNodeOps_CopySpec (by decide)
      (fun j _ => by simp [listNodeOps])
      ⟨fun c => by simp [listNodeOps, packer.Get],
        fun c => by simp [listNodeOps, nodeOr],
        by simp [listNodeOps, nodeOr, packer.Get]⟩
      rfl,
   (With_Without_inverse listNodeOps (fun es => (Except.ok es : Except Panic (List Nat)))
      (fun (n : List Nat) => n) recordingEnv natArgs natEqArgs 2).2.2.1 ⟨1, 0⟩ 0 (2, 0) rfl
      rfl (by decide) rfl natArgs_equivalence.refl,
   (With_Without_inverse listNodeOps (fun es => (Except.ok es : Except Panic (List Nat)))
      (fun (n : List Nat) => n) recordingEnv natArgs natEqArgs 3).2.2.2 ⟨1, 2⟩ 0 (3, 0)
      (by decide) rfl rfl⟩

end inverseTheorems

end tree
